import Mathlib

set_option maxHeartbeats 1000000

/-!
Verification development for the `webundo` module (file `webundo/__init__.py`).

The module keeps a process-wide registry
`waiting_threads = {'cancelable_jobs': {}, 'undoable_jobs': {}}` and offers
four operations: `launch_cancelable_job`, `cancel_job`, `launch_undoable_job`
and `undo_job`, together with the helper `unproxy_closure`.

We embed the module as a small-step interleaving semantics.  Each thread of
the Python program (a `threading.Timer` worker running `funcwrap`, an
`Undoable.run` worker, or a request thread executing `cancel_job` /
`undo_job` / the tail of a launch function) is represented by a program
counter (`TCode`) positioned between the statements that touch shared state;
under CPython's GIL each dict operation and each `Queue` operation is atomic,
so those are the atomic steps of the model.  UUID keys are modelled by a
fresh counter (only freshness and distinctness of `uuid.uuid4()` matter).
User-supplied zero-argument callables are modelled by their observable
behaviour: return a string value, or raise an exception.

`waiting_threads['cancelable_jobs']` maps a key to a `threading.Timer`
object; the only mutable state of the timer that the module uses is its
cancelled flag (`Timer.cancel()` sets it; the timer runs its function after
the delay only if the flag is unset).  `waiting_threads['undoable_jobs']`
maps a key to an `Undoable` object holding `trigger_queue` (its contents are
always the string 'STOP', so only its length is modelled) and
`return_queue`.  The `Undoable`/`Timer` objects outlive their registry
entries, so they are stored in separate association lists that are never
shrunk.
-/

namespace Webundo

/-- Observable behaviour of a user-supplied zero-argument callable:
it either returns a string value or raises an exception with a message. -/
inductive Beh
  | ok (v : String)
  | err (e : String)
deriving DecidableEq, Repr

/-- Observable events of a run, newest first in `Config.hist`. -/
inductive Event
  /-- `launch_cancelable_job` generated key `k` (uuid4 modelled as counter). -/
  | issuedC (k : Nat)
  /-- `launch_undoable_job` generated key `k`. -/
  | issuedU (k : Nat)
  /-- the user callable of job `k` was invoked (`func()`). -/
  | ranAction (k : Nat)
  /-- the user callable of job `k` raised exception `e` on its worker thread. -/
  | actionRaised (k : Nat) (e : String)
  /-- `Undoable.run`'s `trigger_queue.get` returned the trigger item. -/
  | accepted (k : Nat)
  /-- `Undoable.run`'s `trigger_queue.get` raised `Empty` (deadline elapsed). -/
  | timedOut (k : Nat)
  /-- `del store['undoable_jobs'][key]` succeeded (timeout discard path). -/
  | removedU (k : Nat)
  /-- `funcwrap`'s `del store['cancelable_jobs'][key]` succeeded. -/
  | removedCFire (k : Nat)
  /-- `cancel_job`'s `del waiting_threads['cancelable_jobs'][key]` succeeded. -/
  | removedCCancel (k : Nat)
  /-- `cancel_job` returned `b`. -/
  | cancelRet (k : Nat) (b : Bool)
  /-- a `del` on an already-absent key raised `KeyError`, killing its thread. -/
  | keyErr (k : Nat)
  /-- `undo_job` delivered the trigger: `trigger_queue.put('STOP')`. -/
  | triggerPut (k : Nat)
  /-- `undo_job` raised `ThreadLostError` for key `k`. -/
  | undoLost (k : Nat)
  /-- `undo_job` returned value `v` popped from `return_queue`. -/
  | undoRet (k : Nat) (v : String)
  /-- `undo_job`'s `return_queue.get(timeout=...)` raised `Empty`. -/
  | undoEmpty (k : Nat)
deriving DecidableEq, Repr

/-- Program counter of one live thread, placed between accesses to shared
state in the Python source.  Finished (or crashed) threads are dropped. -/
inductive TCode
  /-- tail of `launch_cancelable_job`: about to run
  `store['cancelable_jobs'][key] = timer` (the timer was already started). -/
  | launchCIns (k : Nat)
  /-- tail of `launch_undoable_job`: about to run
  `store['undoable_jobs'][key] = obj` (the worker thread already started). -/
  | launchUIns (k : Nat)
  /-- timer worker inside `Timer.run`, waiting out the delay;
  exits silently if cancelled, otherwise proceeds to the function. -/
  | timerWait (k : Nat) (beh : Beh)
  /-- timer worker in `funcwrap`, about to call `func()`. -/
  | timerRun (k : Nat) (beh : Beh)
  /-- timer worker at `if key in store['cancelable_jobs']:`. -/
  | timerCheck (k : Nat)
  /-- timer worker at `del store['cancelable_jobs'][key]`. -/
  | timerDel (k : Nat)
  /-- `Undoable.run` blocked on `trigger_queue.get(block=True, timeout=...)`. -/
  | uWait (k : Nat) (beh : Beh)
  /-- `Undoable.run` got the trigger, about to call `self.func()`. -/
  | uRun (k : Nat) (beh : Beh)
  /-- `Undoable.run` about to execute `return_queue.put(<result v>)`. -/
  | uPut (k : Nat) (v : String)
  /-- `Undoable.run` in `except Empty`, at `del store['undoable_jobs'][key]`. -/
  | uDel (k : Nat)
  /-- `cancel_job` at `timer = waiting_threads['cancelable_jobs'].get(key)`. -/
  | cLookup (k : Nat)
  /-- `cancel_job` past a successful lookup: `timer.cancel()`, then
  `del waiting_threads['cancelable_jobs'][key]`, then `return True`. -/
  | cDel (k : Nat)
  /-- `undo_job` at `obj = waiting_threads['undoable_jobs'].get(key)`;
  `hasTO` records whether a wait timeout was passed to `undo_job`. -/
  | undoLookup (k : Nat) (hasTO : Bool)
  /-- `undo_job` at `obj.undo()`, i.e. `trigger_queue.put('STOP')`. -/
  | undoPut (k : Nat) (hasTO : Bool)
  /-- `undo_job` blocked on `return_queue.get(block=True, timeout=timeout)`. -/
  | undoGet (k : Nat) (hasTO : Bool)
deriving DecidableEq, Repr

/-- The mutable state of one `Undoable` object.  `beh` is the stored `func`
(immutable after construction), `trig` the number of items currently in
`trigger_queue` (each item is the string 'STOP'), `retq` the contents of
`return_queue` (front = oldest). -/
structure UJob where
  beh : Beh
  trig : Nat
  retq : List String
deriving DecidableEq, Repr

/-- Whole-program configuration. -/
structure Config where
  /-- next fresh key (models `uuid.uuid4()`: keys are distinct). -/
  next : Nat
  /-- keys of `waiting_threads['cancelable_jobs']`. -/
  canc : List Nat
  /-- keys of `waiting_threads['undoable_jobs']`. -/
  undo : List Nat
  /-- every `threading.Timer` object ever created, keyed by job key; the
  `Bool` is the cancelled flag set by `Timer.cancel()`. -/
  timers : List (Nat × Bool)
  /-- every `Undoable` object ever created, keyed by job key. -/
  jobs : List (Nat × UJob)
  /-- live threads: thread id paired with its program counter. -/
  threads : List (Nat × TCode)
  /-- next fresh thread id. -/
  tnext : Nat
  /-- event history, newest first. -/
  hist : List Event
deriving DecidableEq, Repr

/-- First-match lookup in an association list. -/
def findA {α : Type} (k : Nat) : List (Nat × α) → Option α
  | [] => none
  | p :: l => if p.1 = k then some p.2 else findA k l

/-- Replace the value at key `k` (all occurrences). -/
def setA {α : Type} (k : Nat) (v : α) (l : List (Nat × α)) : List (Nat × α) :=
  l.map (fun p => if p.1 = k then (k, v) else p)

/-- Remove key `k` from an association list. -/
def eraseA {α : Type} (k : Nat) (l : List (Nat × α)) : List (Nat × α) :=
  l.filter (fun p => p.1 ≠ k)

/-- Remove a key from a key list (`del d[k]` on the registry dicts). -/
def removeN (k : Nat) (l : List Nat) : List Nat :=
  l.filter (fun x => x ≠ k)

/-- Count occurrences of an event in a history. -/
def countE (e : Event) : List Event → Nat
  | [] => 0
  | e' :: l => (if e' = e then 1 else 0) + countE e l

/-- Scheduler labels.  The first four model a fresh request thread entering
one of the four public operations; `tstep` lets an existing thread perform
its next atomic action; `ttimeout` resolves a bounded wait by elapsing
(timer delay over, `Queue.get` deadline over). -/
inductive Label
  | newC (beh : Beh)
  | newU (beh : Beh)
  | callCancel (k : Nat)
  | callUndo (k : Nat) (hasTO : Bool)
  | tstep (tid : Nat)
  | ttimeout (tid : Nat)
deriving DecidableEq, Repr

/-- One atomic action of the thread with code `code` (scheduled by `tstep`).
Returns `none` when the thread is blocked (its next step is not enabled). -/
def threadStep (c : Config) (tid : Nat) (code : TCode) : Option Config :=
  match code with
  | .launchCIns k =>
      -- `store['cancelable_jobs'][key] = timer`; then the launch returns.
      some { c with
        canc := k :: c.canc,
        threads := eraseA tid c.threads }
  | .launchUIns k =>
      -- `store['undoable_jobs'][key] = obj`; then the launch returns.
      some { c with
        undo := k :: c.undo,
        threads := eraseA tid c.threads }
  | .timerWait k _ =>
      -- `Timer.run`: if `finished.is_set()` (cancel happened), skip the
      -- function and exit; the un-cancelled case advances via `ttimeout`.
      match findA k c.timers with
      | some true => some { c with threads := eraseA tid c.threads }
      | _ => none
  | .timerRun k beh =>
      -- `funcwrap` calls `func()`.
      match beh with
      | .ok _ =>
          some { c with
            threads := setA tid (.timerCheck k) c.threads,
            hist := .ranAction k :: c.hist }
      | .err e =>
          some { c with
            threads := eraseA tid c.threads,
            hist := .actionRaised k e :: .ranAction k :: c.hist }
  | .timerCheck k =>
      -- `if key in store['cancelable_jobs']:`
      if k ∈ c.canc then
        some { c with threads := setA tid (.timerDel k) c.threads }
      else
        some { c with threads := eraseA tid c.threads }
  | .timerDel k =>
      -- `del store['cancelable_jobs'][key]`
      if k ∈ c.canc then
        some { c with
          canc := removeN k c.canc,
          threads := eraseA tid c.threads,
          hist := .removedCFire k :: c.hist }
      else
        some { c with
          threads := eraseA tid c.threads,
          hist := .keyErr k :: c.hist }
  | .uWait k beh =>
      -- `trigger_queue.get(block=True, timeout=self.timeout)`: an available
      -- item (always 'STOP', which is truthy) is taken and the function runs.
      match findA k c.jobs with
      | some j =>
          if 0 < j.trig then
            some { c with
              jobs := setA k ({ j with trig := j.trig - 1 }) c.jobs,
              threads := setA tid (.uRun k beh) c.threads,
              hist := .accepted k :: c.hist }
          else none
      | none => none
  | .uRun k beh =>
      -- `self.return_queue.put(self.func())`: first `self.func()` runs.
      match beh with
      | .ok v =>
          some { c with
            threads := setA tid (.uPut k v) c.threads,
            hist := .ranAction k :: c.hist }
      | .err e =>
          some { c with
            threads := eraseA tid c.threads,
            hist := .actionRaised k e :: .ranAction k :: c.hist }
  | .uPut k v =>
      -- ... then the result is put on `return_queue`, and `run` finishes.
      match findA k c.jobs with
      | some j =>
          some { c with
            jobs := setA k ({ j with retq := j.retq ++ [v] }) c.jobs,
            threads := eraseA tid c.threads }
      | none => none
  | .uDel k =>
      -- `except Empty:` → `del store['undoable_jobs'][key]`
      if k ∈ c.undo then
        some { c with
          undo := removeN k c.undo,
          threads := eraseA tid c.threads,
          hist := .removedU k :: c.hist }
      else
        some { c with
          threads := eraseA tid c.threads,
          hist := .keyErr k :: c.hist }
  | .cLookup k =>
      -- `timer = waiting_threads['cancelable_jobs'].get(key)`; `if timer:`
      if k ∈ c.canc then
        some { c with threads := setA tid (.cDel k) c.threads }
      else
        some { c with
          threads := eraseA tid c.threads,
          hist := .cancelRet k false :: c.hist }
  | .cDel k =>
      -- `timer.cancel()` (sets the flag on the timer object, which exists
      -- whenever the key was ever issued; a no-op otherwise), then
      -- `del waiting_threads['cancelable_jobs'][key]`, then `return True`.
      if k ∈ c.canc then
        some { c with
          timers := setA k true c.timers,
          canc := removeN k c.canc,
          threads := eraseA tid c.threads,
          hist := .cancelRet k true :: .removedCCancel k :: c.hist }
      else
        some { c with
          timers := setA k true c.timers,
          threads := eraseA tid c.threads,
          hist := .keyErr k :: c.hist }
  | .undoLookup k hasTO =>
      -- `obj = waiting_threads['undoable_jobs'].get(key)`; `if not obj: raise`
      if k ∈ c.undo then
        some { c with threads := setA tid (.undoPut k hasTO) c.threads }
      else
        some { c with
          threads := eraseA tid c.threads,
          hist := .undoLost k :: c.hist }
  | .undoPut k hasTO =>
      -- `obj.undo()`: `self.trigger_queue.put('STOP', block=True)`
      match findA k c.jobs with
      | some j =>
          some { c with
            jobs := setA k ({ j with trig := j.trig + 1 }) c.jobs,
            threads := setA tid (.undoGet k hasTO) c.threads,
            hist := .triggerPut k :: c.hist }
      | none => none
  | .undoGet k _ =>
      -- `return obj.return_queue.get(block=True, timeout=timeout)`
      match findA k c.jobs with
      | some j =>
          match j.retq with
          | [] => none
          | v :: rest =>
              some { c with
                jobs := setA k ({ j with retq := rest }) c.jobs,
                threads := eraseA tid c.threads,
                hist := .undoRet k v :: c.hist }
      | none => none

/-- Elapsing of the bounded wait the thread `code` is blocked on. -/
def timeoutStep (c : Config) (tid : Nat) (code : TCode) : Option Config :=
  match code with
  | .timerWait k beh =>
      -- the delay of `threading.Timer` is over and the cancel flag is unset:
      -- `Timer.run` proceeds to call `funcwrap`.
      match findA k c.timers with
      | some false => some { c with threads := setA tid (.timerRun k beh) c.threads }
      | _ => none
  | .uWait k _ =>
      -- `trigger_queue.get` raises `Empty`: only possible while the queue
      -- holds no item when the deadline elapses.
      match findA k c.jobs with
      | some j =>
          if j.trig = 0 then
            some { c with
              threads := setA tid (.uDel k) c.threads,
              hist := .timedOut k :: c.hist }
          else none
      | none => none
  | .undoGet k true =>
      -- `return_queue.get(block=True, timeout=t)` with `t` not `None`
      -- raises `Empty` once `t` elapses with the queue empty.
      match findA k c.jobs with
      | some j =>
          if j.retq = [] then
            some { c with
              threads := eraseA tid c.threads,
              hist := .undoEmpty k :: c.hist }
          else none
      | none => none
  | _ => none

/-- The labelled step function of the whole system. -/
def stepFn (c : Config) (l : Label) : Option Config :=
  match l with
  | .newC beh =>
      -- `launch_cancelable_job(func, timeout)`: fresh key, `Timer` created,
      -- `timer.start()` spawns the timer worker; the caller still has to run
      -- the registry insertion (`launchCIns`).
      some { c with
        next := c.next + 1,
        timers := (c.next, false) :: c.timers,
        threads := (c.tnext, .timerWait c.next beh) ::
                   (c.tnext + 1, .launchCIns c.next) :: c.threads,
        tnext := c.tnext + 2,
        hist := .issuedC c.next :: c.hist }
  | .newU beh =>
      -- `launch_undoable_job(func, timeout)`: fresh key, `Undoable` object
      -- created with empty queues, `thrd.start()` spawns `Undoable.run`;
      -- the caller still has to run the registry insertion (`launchUIns`).
      some { c with
        next := c.next + 1,
        jobs := (c.next, ⟨beh, 0, []⟩) :: c.jobs,
        threads := (c.tnext, .uWait c.next beh) ::
                   (c.tnext + 1, .launchUIns c.next) :: c.threads,
        tnext := c.tnext + 2,
        hist := .issuedU c.next :: c.hist }
  | .callCancel k =>
      some { c with
        threads := (c.tnext, .cLookup k) :: c.threads,
        tnext := c.tnext + 1 }
  | .callUndo k hasTO =>
      some { c with
        threads := (c.tnext, .undoLookup k hasTO) :: c.threads,
        tnext := c.tnext + 1 }
  | .tstep tid =>
      match findA tid c.threads with
      | some code => threadStep c tid code
      | none => none
  | .ttimeout tid =>
      match findA tid c.threads with
      | some code => timeoutStep c tid code
      | none => none

/-- Run a schedule (list of labels) from a configuration. -/
def run : Config → List Label → Option Config
  | c, [] => some c
  | c, l :: ls =>
      match stepFn c l with
      | some c' => run c' ls
      | none => none

/-- The initial configuration: module just imported, registry empty. -/
def init : Config := ⟨0, [], [], [], [], [], 0, []⟩

/-- The final configuration of a schedule, defaulting to `init` (used only to
state closed facts about schedules that do execute). -/
def final (ls : List Label) : Config := (run init ls).getD init

/-! ### Association-list and history lemmas -/

theorem findA_mem {α : Type} {k : Nat} {v : α} :
    ∀ {l : List (Nat × α)}, findA k l = some v → (k, v) ∈ l := by
  intro l
  induction l with
  | nil => intro h; simp [findA] at h
  | cons p l ih =>
      obtain ⟨a, b⟩ := p
      intro h
      simp only [findA] at h
      by_cases hp : a = k
      · subst hp
        simp at h
        subst h
        exact List.mem_cons_self _ _
      · simp [hp] at h
        exact List.mem_cons_of_mem _ (ih h)

theorem findA_setA_self {α : Type} (k : Nat) (v : α) (l : List (Nat × α)) :
    findA k (setA k v l) = (findA k l).map (fun _ => v) := by
  induction l with
  | nil => rfl
  | cons p l ih =>
      obtain ⟨a, b⟩ := p
      simp only [setA, List.map_cons] at ih ⊢
      by_cases hp : a = k
      · subst hp; simp [findA]
      · simp [findA, hp, ih]

theorem findA_setA_ne {α : Type} {k t : Nat} (h : k ≠ t) (v : α)
    (l : List (Nat × α)) : findA k (setA t v l) = findA k l := by
  induction l with
  | nil => rfl
  | cons p l ih =>
      obtain ⟨a, b⟩ := p
      simp only [setA, List.map_cons] at ih ⊢
      by_cases hp : a = t
      · rw [if_pos hp]
        have h1 : ¬(t = k) := fun hh => h hh.symm
        have h2 : ¬(a = k) := by rw [hp]; exact h1
        simp [findA, h1, h2, ih]
      · simp only [if_neg hp]
        by_cases hk : a = k
        · subst hk; simp [findA]
        · simp [findA, hk, ih]

theorem findA_eraseA_ne {α : Type} {k t : Nat} (h : k ≠ t)
    (l : List (Nat × α)) : findA k (eraseA t l) = findA k l := by
  induction l with
  | nil => rfl
  | cons p l ih =>
      obtain ⟨a, b⟩ := p
      simp only [eraseA, ne_eq, List.filter_cons] at ih ⊢
      simp only [decide_not] at ih
      by_cases hp : a = t
      · have h1 : ¬(t = k) := fun hh => h hh.symm
        have h2 : ¬(a = k) := by rw [hp]; exact h1
        simp [findA, hp, h1, h2, ih]
      · by_cases hk : a = k
        · simp [findA, hp, hk, h]
        · simp [findA, hp, hk, ih]

theorem mem_setA {α : Type} {p : Nat × α} {t : Nat} {v : α}
    {l : List (Nat × α)} (h : p ∈ setA t v l) :
    p = (t, v) ∨ (p ∈ l ∧ p.1 ≠ t) := by
  simp only [setA, List.mem_map] at h
  obtain ⟨q, hq, hqe⟩ := h
  by_cases hqt : q.1 = t
  · left; simp [hqt] at hqe; exact hqe.symm
  · right; rw [if_neg hqt] at hqe; subst hqe; exact ⟨hq, hqt⟩

theorem mem_setA_of_ne {α : Type} {p : Nat × α} {t : Nat} (v : α)
    {l : List (Nat × α)} (h : p ∈ l) (hne : p.1 ≠ t) : p ∈ setA t v l := by
  simp only [setA, List.mem_map]
  exact ⟨p, h, by rw [if_neg hne]⟩

theorem mem_eraseA {α : Type} {p : Nat × α} {t : Nat}
    {l : List (Nat × α)} (h : p ∈ eraseA t l) : p ∈ l ∧ p.1 ≠ t := by
  simp only [eraseA, List.mem_filter, decide_eq_true_eq] at h
  exact h

theorem mem_eraseA_of {α : Type} {p : Nat × α} {t : Nat}
    {l : List (Nat × α)} (h : p ∈ l) (hne : p.1 ≠ t) : p ∈ eraseA t l := by
  simp only [eraseA, List.mem_filter, decide_eq_true_eq]
  exact ⟨h, hne⟩

theorem mem_removeN {x k : Nat} {l : List Nat} :
    x ∈ removeN k l ↔ x ∈ l ∧ x ≠ k := by
  simp [removeN, List.mem_filter]

theorem countE_pos_iff_mem {e : Event} : ∀ {h : List Event},
    0 < countE e h ↔ e ∈ h := by
  intro h
  induction h with
  | nil => simp [countE]
  | cons e' h ih =>
      by_cases he : e' = e
      · subst he; simp [countE]
      · have : ¬(e = e') := fun hh => he hh.symm
        simp [countE, he, ih, this]

theorem countE_cons_ne {e e' : Event} (h : e' ≠ e) (l : List Event) :
    countE e (e' :: l) = countE e l := by
  simp [countE, h]

theorem countE_cons_self (e : Event) (l : List Event) :
    countE e (e :: l) = countE e l + 1 := by
  simp [countE, Nat.add_comm]

/-- Each step only prepends to the history. -/
theorem step_hist_mono {c c' : Config} {l : Label}
    (h : stepFn c l = some c') : ∃ pre, c'.hist = pre ++ c.hist := by
  cases l with
  | newC beh => exact ⟨[.issuedC c.next], by simp [stepFn] at h; subst h; simp⟩
  | newU beh => exact ⟨[.issuedU c.next], by simp [stepFn] at h; subst h; simp⟩
  | callCancel k => exact ⟨[], by simp [stepFn] at h; subst h; simp⟩
  | callUndo k hasTO => exact ⟨[], by simp [stepFn] at h; subst h; simp⟩
  | tstep tid =>
      simp only [stepFn] at h
      cases hf : findA tid c.threads with
      | none => simp [hf] at h
      | some code =>
          simp only [hf] at h
          cases code <;> simp only [threadStep] at h
          case launchCIns k => exact ⟨[], by cases h; simp⟩
          case launchUIns k => exact ⟨[], by cases h; simp⟩
          case timerWait k beh =>
              cases hft : findA k c.timers with
              | none => simp [hft] at h
              | some b =>
                  simp only [hft] at h
                  cases b with
                  | false => cases h
                  | true => exact ⟨[], by cases h; simp⟩
          case timerRun k beh =>
              cases beh with
              | ok v => exact ⟨[.ranAction k], by cases h; simp⟩
              | err e => exact ⟨[.actionRaised k e, .ranAction k], by cases h; simp⟩
          case timerCheck k =>
              by_cases hk : k ∈ c.canc
              · rw [if_pos hk] at h; exact ⟨[], by cases h; simp⟩
              · rw [if_neg hk] at h; exact ⟨[], by cases h; simp⟩
          case timerDel k =>
              by_cases hk : k ∈ c.canc
              · rw [if_pos hk] at h; exact ⟨[.removedCFire k], by cases h; simp⟩
              · rw [if_neg hk] at h; exact ⟨[.keyErr k], by cases h; simp⟩
          case uWait k beh =>
              cases hfj : findA k c.jobs with
              | none => simp [hfj] at h
              | some j =>
                  simp only [hfj] at h
                  by_cases ht : 0 < j.trig
                  · rw [if_pos ht] at h; exact ⟨[.accepted k], by cases h; simp⟩
                  · rw [if_neg ht] at h; cases h
          case uRun k beh =>
              cases beh with
              | ok v => exact ⟨[.ranAction k], by cases h; simp⟩
              | err e => exact ⟨[.actionRaised k e, .ranAction k], by cases h; simp⟩
          case uPut k v =>
              cases hfj : findA k c.jobs with
              | none => simp [hfj] at h
              | some j => simp only [hfj] at h; exact ⟨[], by cases h; simp⟩
          case uDel k =>
              by_cases hk : k ∈ c.undo
              · rw [if_pos hk] at h; exact ⟨[.removedU k], by cases h; simp⟩
              · rw [if_neg hk] at h; exact ⟨[.keyErr k], by cases h; simp⟩
          case cLookup k =>
              by_cases hk : k ∈ c.canc
              · rw [if_pos hk] at h; exact ⟨[], by cases h; simp⟩
              · rw [if_neg hk] at h; exact ⟨[.cancelRet k false], by cases h; simp⟩
          case cDel k =>
              by_cases hk : k ∈ c.canc
              · rw [if_pos hk] at h
                exact ⟨[.cancelRet k true, .removedCCancel k], by cases h; simp⟩
              · rw [if_neg hk] at h; exact ⟨[.keyErr k], by cases h; simp⟩
          case undoLookup k hasTO =>
              by_cases hk : k ∈ c.undo
              · rw [if_pos hk] at h; exact ⟨[], by cases h; simp⟩
              · rw [if_neg hk] at h; exact ⟨[.undoLost k], by cases h; simp⟩
          case undoPut k hasTO =>
              cases hfj : findA k c.jobs with
              | none => simp [hfj] at h
              | some j => simp only [hfj] at h; exact ⟨[.triggerPut k], by cases h; simp⟩
          case undoGet k hasTO =>
              cases hfj : findA k c.jobs with
              | none => simp [hfj] at h
              | some j =>
                  simp only [hfj] at h
                  cases hr : j.retq with
                  | nil => simp [hr] at h
                  | cons v rest =>
                      simp only [hr] at h; exact ⟨[.undoRet k v], by cases h; simp⟩
  | ttimeout tid =>
      simp only [stepFn] at h
      cases hf : findA tid c.threads with
      | none => simp [hf] at h
      | some code =>
          simp only [hf] at h
          cases code
          case timerWait k beh =>
              simp only [timeoutStep] at h
              cases hft : findA k c.timers with
              | none => simp [hft] at h
              | some b =>
                  simp only [hft] at h
                  cases b with
                  | false => exact ⟨[], by cases h; simp⟩
                  | true => cases h
          case uWait k beh =>
              simp only [timeoutStep] at h
              cases hfj : findA k c.jobs with
              | none => simp [hfj] at h
              | some j =>
                  simp only [hfj] at h
                  by_cases ht : j.trig = 0
                  · rw [if_pos ht] at h; exact ⟨[.timedOut k], by cases h; simp⟩
                  · rw [if_neg ht] at h; cases h
          case undoGet k hasTO =>
              cases hasTO with
              | false => simp [timeoutStep] at h
              | true =>
                  simp only [timeoutStep] at h
                  cases hfj : findA k c.jobs with
                  | none => simp [hfj] at h
                  | some j =>
                      simp only [hfj] at h
                      by_cases hr : j.retq = []
                      · rw [if_pos hr] at h; exact ⟨[.undoEmpty k], by cases h; simp⟩
                      · rw [if_neg hr] at h; cases h
          all_goals simp [timeoutStep] at h

/-- History only grows along a run. -/
theorem run_hist_mono : ∀ {ls : List Label} {c c' : Config},
    run c ls = some c' → ∃ pre, c'.hist = pre ++ c.hist := by
  intro ls
  induction ls with
  | nil => intro c c' h; cases h; exact ⟨[], rfl⟩
  | cons l ls ih =>
      intro c c' h
      simp only [run] at h
      cases hs : stepFn c l with
      | none => rw [hs] at h; cases h
      | some c1 =>
          rw [hs] at h
          obtain ⟨pre1, h1⟩ := step_hist_mono hs
          obtain ⟨pre2, h2⟩ := ih h
          exact ⟨pre2 ++ pre1, by rw [h2, h1, List.append_assoc]⟩

/-- Lift a one-step-preserved predicate along any run. -/
theorem run_preserve (P : Config → Prop)
    (hstep : ∀ c l c', stepFn c l = some c' → P c → P c') :
    ∀ (ls : List Label) (c c' : Config), run c ls = some c' → P c → P c' := by
  intro ls
  induction ls with
  | nil => intro c c' h hp; cases h; exact hp
  | cons l ls ih =>
      intro c c' h hp
      simp only [run] at h
      cases hs : stepFn c l with
      | none => rw [hs] at h; cases h
      | some c1 =>
          rw [hs] at h
          exact ih c1 c' h (hstep c l c1 hs hp)

/-! ### A permanently blocked `undo_job` caller

`undo_job(key)` with `timeout=None` ends in
`return obj.return_queue.get(block=True)`.  If the job's `return_queue` is
empty and no thread can ever put to it (the only writer in the source is
`Undoable.run`'s `self.return_queue.put(self.func())`), the caller is stuck
forever. -/

/-- Thread codes that can (eventually) put a value on `return_queue` of job
`k`: the `Undoable.run` worker anywhere before its `put`. -/
def isProd (k : Nat) : TCode → Bool
  | .uWait j _ => j == k
  | .uRun j _ => j == k
  | .uPut j _ => j == k
  | _ => false

/-- Thread `tid` is an `undo_job` caller blocked on `return_queue.get` with
no wait timeout, the queue is empty, and no live thread can ever feed it. -/
structure StuckGet (c : Config) (tid k : Nat) : Prop where
  hthread : findA tid c.threads = some (.undoGet k false)
  hretq : (findA k c.jobs).map UJob.retq = some []
  hnoprod : ∀ p ∈ c.threads, isProd k p.2 = false
  hk : k < c.next
  htid : tid < c.tnext

/-- From `c` on, thread `tid` is never able to leave its `return_queue.get`:
in every continuation of the system it is still parked there.  This is the
formal sense in which that `undo_job` call blocks indefinitely. -/
def BlockedAt (c : Config) (tid k : Nat) : Prop :=
  ∀ ls c', run c ls = some c' → findA tid c'.threads = some (.undoGet k false)

theorem findA_cons_ne {α : Type} {k a : Nat} (h : a ≠ k) (v : α)
    (l : List (Nat × α)) : findA k ((a, v) :: l) = findA k l := by
  simp [findA, h]

theorem ne_of_other_code {c : Config} {tid t k : Nat} {code : TCode}
    (h1 : findA tid c.threads = some (.undoGet k false))
    (hf : findA t c.threads = some code)
    (hne : code ≠ .undoGet k false) : t ≠ tid := by
  intro he
  rw [he] at hf
  rw [hf] at h1
  exact hne (Option.some.inj h1)

theorem stuckGet_step {c c' : Config} {l : Label} {tid k : Nat}
    (h : stepFn c l = some c') (hs : StuckGet c tid k) : StuckGet c' tid k := by
  obtain ⟨h1, h2, h3, h4, h5⟩ := hs
  have hknext : c.next ≠ k := fun hh => Nat.ne_of_lt h4 hh.symm
  have htn1 : c.tnext ≠ tid := fun hh => Nat.ne_of_lt h5 hh.symm
  have htn2 : c.tnext + 1 ≠ tid := fun hh =>
    Nat.ne_of_lt (Nat.lt_succ_of_lt h5) hh.symm
  cases l with
  | newC beh =>
      simp only [stepFn] at h
      cases h
      refine ⟨?_, h2, ?_, Nat.lt_succ_of_lt h4, by dsimp only; omega⟩
      · rw [findA_cons_ne htn1, findA_cons_ne htn2]; exact h1
      · intro p hp
        rcases List.mem_cons.mp hp with rfl | hp
        · rfl
        rcases List.mem_cons.mp hp with rfl | hp
        · rfl
        exact h3 p hp
  | newU beh =>
      simp only [stepFn] at h
      cases h
      refine ⟨?_, ?_, ?_, Nat.lt_succ_of_lt h4, by dsimp only; omega⟩
      · rw [findA_cons_ne htn1, findA_cons_ne htn2]; exact h1
      · rw [findA_cons_ne hknext]; exact h2
      · intro p hp
        rcases List.mem_cons.mp hp with rfl | hp
        · simp [isProd, hknext]
        rcases List.mem_cons.mp hp with rfl | hp
        · rfl
        exact h3 p hp
  | callCancel k0 =>
      simp only [stepFn] at h
      cases h
      refine ⟨?_, h2, ?_, h4, by dsimp only; omega⟩
      · rw [findA_cons_ne htn1]; exact h1
      · intro p hp
        rcases List.mem_cons.mp hp with rfl | hp
        · rfl
        exact h3 p hp
  | callUndo k0 hasTO =>
      simp only [stepFn] at h
      cases h
      refine ⟨?_, h2, ?_, h4, by dsimp only; omega⟩
      · rw [findA_cons_ne htn1]; exact h1
      · intro p hp
        rcases List.mem_cons.mp hp with rfl | hp
        · rfl
        exact h3 p hp
  | tstep t =>
      simp only [stepFn] at h
      cases hf : findA t c.threads with
      | none => simp [hf] at h
      | some code =>
          simp only [hf] at h
          cases code
          case launchCIns k0 =>
              simp only [threadStep] at h
              cases h
              have hne : t ≠ tid := ne_of_other_code h1 hf (by simp)
              refine ⟨?_, h2, ?_, h4, h5⟩
              · rw [findA_eraseA_ne (fun hh => hne hh.symm)]; exact h1
              · intro p hp; exact h3 p (mem_eraseA hp).1
          case launchUIns k0 =>
              simp only [threadStep] at h
              cases h
              have hne : t ≠ tid := ne_of_other_code h1 hf (by simp)
              refine ⟨?_, h2, ?_, h4, h5⟩
              · rw [findA_eraseA_ne (fun hh => hne hh.symm)]; exact h1
              · intro p hp; exact h3 p (mem_eraseA hp).1
          case timerWait k0 beh =>
              simp only [threadStep] at h
              cases hft : findA k0 c.timers with
              | none => simp [hft] at h
              | some b =>
                  simp only [hft] at h
                  cases b with
                  | false => simp at h
                  | true =>
                      cases h
                      have hne : t ≠ tid := ne_of_other_code h1 hf (by simp)
                      refine ⟨?_, h2, ?_, h4, h5⟩
                      · rw [findA_eraseA_ne (fun hh => hne hh.symm)]; exact h1
                      · intro p hp; exact h3 p (mem_eraseA hp).1
          case timerRun k0 beh =>
              simp only [threadStep] at h
              have hne : t ≠ tid := ne_of_other_code h1 hf (by simp)
              cases beh with
              | ok v =>
                  cases h
                  refine ⟨?_, h2, ?_, h4, h5⟩
                  · rw [findA_setA_ne (fun hh => hne hh.symm)]; exact h1
                  · intro p hp
                    rcases mem_setA hp with rfl | ⟨hp, _⟩
                    · rfl
                    · exact h3 p hp
              | err e =>
                  cases h
                  refine ⟨?_, h2, ?_, h4, h5⟩
                  · rw [findA_eraseA_ne (fun hh => hne hh.symm)]; exact h1
                  · intro p hp; exact h3 p (mem_eraseA hp).1
          case timerCheck k0 =>
              simp only [threadStep] at h
              have hne : t ≠ tid := ne_of_other_code h1 hf (by simp)
              by_cases hc : k0 ∈ c.canc
              · rw [if_pos hc] at h
                cases h
                refine ⟨?_, h2, ?_, h4, h5⟩
                · rw [findA_setA_ne (fun hh => hne hh.symm)]; exact h1
                · intro p hp
                  rcases mem_setA hp with rfl | ⟨hp, _⟩
                  · rfl
                  · exact h3 p hp
              · rw [if_neg hc] at h
                cases h
                refine ⟨?_, h2, ?_, h4, h5⟩
                · rw [findA_eraseA_ne (fun hh => hne hh.symm)]; exact h1
                · intro p hp; exact h3 p (mem_eraseA hp).1
          case timerDel k0 =>
              simp only [threadStep] at h
              have hne : t ≠ tid := ne_of_other_code h1 hf (by simp)
              by_cases hc : k0 ∈ c.canc
              · rw [if_pos hc] at h
                cases h
                refine ⟨?_, h2, ?_, h4, h5⟩
                · rw [findA_eraseA_ne (fun hh => hne hh.symm)]; exact h1
                · intro p hp; exact h3 p (mem_eraseA hp).1
              · rw [if_neg hc] at h
                cases h
                refine ⟨?_, h2, ?_, h4, h5⟩
                · rw [findA_eraseA_ne (fun hh => hne hh.symm)]; exact h1
                · intro p hp; exact h3 p (mem_eraseA hp).1
          case uWait k0 beh =>
              by_cases hk0 : k0 = k
              · subst hk0
                have := h3 _ (findA_mem hf)
                simp [isProd] at this
              · simp only [threadStep] at h
                cases hfj : findA k0 c.jobs with
                | none => simp [hfj] at h
                | some j =>
                    simp only [hfj] at h
                    by_cases ht : 0 < j.trig
                    · rw [if_pos ht] at h
                      cases h
                      have hne : t ≠ tid := ne_of_other_code h1 hf (by simp)
                      refine ⟨?_, ?_, ?_, h4, h5⟩
                      · rw [findA_setA_ne (fun hh => hne hh.symm)]; exact h1
                      · rw [findA_setA_ne (fun hh => hk0 hh.symm)]; exact h2
                      · intro p hp
                        rcases mem_setA hp with rfl | ⟨hp, _⟩
                        · simp [isProd]
                          exact fun hh => hk0 hh
                        · exact h3 p hp
                    · rw [if_neg ht] at h; cases h
          case uRun k0 beh =>
              by_cases hk0 : k0 = k
              · subst hk0
                have := h3 _ (findA_mem hf)
                simp [isProd] at this
              · simp only [threadStep] at h
                have hne : t ≠ tid := ne_of_other_code h1 hf (by simp)
                cases beh with
                | ok v =>
                    cases h
                    refine ⟨?_, h2, ?_, h4, h5⟩
                    · rw [findA_setA_ne (fun hh => hne hh.symm)]; exact h1
                    · intro p hp
                      rcases mem_setA hp with rfl | ⟨hp, _⟩
                      · simp [isProd]
                        exact fun hh => hk0 hh
                      · exact h3 p hp
                | err e =>
                    cases h
                    refine ⟨?_, h2, ?_, h4, h5⟩
                    · rw [findA_eraseA_ne (fun hh => hne hh.symm)]; exact h1
                    · intro p hp; exact h3 p (mem_eraseA hp).1
          case uPut k0 v =>
              by_cases hk0 : k0 = k
              · subst hk0
                have := h3 _ (findA_mem hf)
                simp [isProd] at this
              · simp only [threadStep] at h
                cases hfj : findA k0 c.jobs with
                | none => simp [hfj] at h
                | some j =>
                    simp only [hfj] at h
                    cases h
                    have hne : t ≠ tid := ne_of_other_code h1 hf (by simp)
                    refine ⟨?_, ?_, ?_, h4, h5⟩
                    · rw [findA_eraseA_ne (fun hh => hne hh.symm)]; exact h1
                    · rw [findA_setA_ne (fun hh => hk0 hh.symm)]; exact h2
                    · intro p hp; exact h3 p (mem_eraseA hp).1
          case uDel k0 =>
              simp only [threadStep] at h
              have hne : t ≠ tid := ne_of_other_code h1 hf (by simp)
              by_cases hu : k0 ∈ c.undo
              · rw [if_pos hu] at h
                cases h
                refine ⟨?_, h2, ?_, h4, h5⟩
                · rw [findA_eraseA_ne (fun hh => hne hh.symm)]; exact h1
                · intro p hp; exact h3 p (mem_eraseA hp).1
              · rw [if_neg hu] at h
                cases h
                refine ⟨?_, h2, ?_, h4, h5⟩
                · rw [findA_eraseA_ne (fun hh => hne hh.symm)]; exact h1
                · intro p hp; exact h3 p (mem_eraseA hp).1
          case cLookup k0 =>
              simp only [threadStep] at h
              have hne : t ≠ tid := ne_of_other_code h1 hf (by simp)
              by_cases hc : k0 ∈ c.canc
              · rw [if_pos hc] at h
                cases h
                refine ⟨?_, h2, ?_, h4, h5⟩
                · rw [findA_setA_ne (fun hh => hne hh.symm)]; exact h1
                · intro p hp
                  rcases mem_setA hp with rfl | ⟨hp, _⟩
                  · rfl
                  · exact h3 p hp
              · rw [if_neg hc] at h
                cases h
                refine ⟨?_, h2, ?_, h4, h5⟩
                · rw [findA_eraseA_ne (fun hh => hne hh.symm)]; exact h1
                · intro p hp; exact h3 p (mem_eraseA hp).1
          case cDel k0 =>
              simp only [threadStep] at h
              have hne : t ≠ tid := ne_of_other_code h1 hf (by simp)
              by_cases hc : k0 ∈ c.canc
              · rw [if_pos hc] at h
                cases h
                refine ⟨?_, h2, ?_, h4, h5⟩
                · rw [findA_eraseA_ne (fun hh => hne hh.symm)]; exact h1
                · intro p hp; exact h3 p (mem_eraseA hp).1
              · rw [if_neg hc] at h
                cases h
                refine ⟨?_, h2, ?_, h4, h5⟩
                · rw [findA_eraseA_ne (fun hh => hne hh.symm)]; exact h1
                · intro p hp; exact h3 p (mem_eraseA hp).1
          case undoLookup k0 hasTO =>
              simp only [threadStep] at h
              have hne : t ≠ tid := ne_of_other_code h1 hf (by simp)
              by_cases hu : k0 ∈ c.undo
              · rw [if_pos hu] at h
                cases h
                refine ⟨?_, h2, ?_, h4, h5⟩
                · rw [findA_setA_ne (fun hh => hne hh.symm)]; exact h1
                · intro p hp
                  rcases mem_setA hp with rfl | ⟨hp, _⟩
                  · rfl
                  · exact h3 p hp
              · rw [if_neg hu] at h
                cases h
                refine ⟨?_, h2, ?_, h4, h5⟩
                · rw [findA_eraseA_ne (fun hh => hne hh.symm)]; exact h1
                · intro p hp; exact h3 p (mem_eraseA hp).1
          case undoPut k0 hasTO =>
              simp only [threadStep] at h
              have hne : t ≠ tid := ne_of_other_code h1 hf (by simp)
              cases hfj : findA k0 c.jobs with
              | none => simp [hfj] at h
              | some j =>
                  simp only [hfj] at h
                  cases h
                  refine ⟨?_, ?_, ?_, h4, h5⟩
                  · rw [findA_setA_ne (fun hh => hne hh.symm)]; exact h1
                  · by_cases hk0 : k0 = k
                    · subst hk0
                      rw [findA_setA_self, hfj]
                      rw [hfj] at h2
                      simpa using h2
                    · rw [findA_setA_ne (fun hh => hk0 hh.symm)]; exact h2
                  · intro p hp
                    rcases mem_setA hp with rfl | ⟨hp, _⟩
                    · rfl
                    · exact h3 p hp
          case undoGet k0 hasTO =>
              simp only [threadStep] at h
              cases hfj : findA k0 c.jobs with
              | none => simp [hfj] at h
              | some j =>
                  simp only [hfj] at h
                  by_cases hk0 : k0 = k
                  · subst hk0
                    have hj : j.retq = [] := by
                      rw [hfj] at h2; simpa using h2
                    rw [hj] at h
                    simp at h
                  · cases hr : j.retq with
                    | nil => rw [hr] at h; simp at h
                    | cons v rest =>
                        rw [hr] at h
                        cases h
                        have hne : t ≠ tid := ne_of_other_code h1 hf (by simp [hk0])
                        refine ⟨?_, ?_, ?_, h4, h5⟩
                        · rw [findA_eraseA_ne (fun hh => hne hh.symm)]; exact h1
                        · rw [findA_setA_ne (fun hh => hk0 hh.symm)]; exact h2
                        · intro p hp; exact h3 p (mem_eraseA hp).1
  | ttimeout t =>
      simp only [stepFn] at h
      cases hf : findA t c.threads with
      | none => simp [hf] at h
      | some code =>
          simp only [hf] at h
          cases code
          case timerWait k0 beh =>
              simp only [timeoutStep] at h
              cases hft : findA k0 c.timers with
              | none => simp [hft] at h
              | some b =>
                  simp only [hft] at h
                  cases b with
                  | true => simp at h
                  | false =>
                      cases h
                      have hne : t ≠ tid := ne_of_other_code h1 hf (by simp)
                      refine ⟨?_, h2, ?_, h4, h5⟩
                      · rw [findA_setA_ne (fun hh => hne hh.symm)]; exact h1
                      · intro p hp
                        rcases mem_setA hp with rfl | ⟨hp, _⟩
                        · rfl
                        · exact h3 p hp
          case uWait k0 beh =>
              by_cases hk0 : k0 = k
              · subst hk0
                have := h3 _ (findA_mem hf)
                simp [isProd] at this
              · simp only [timeoutStep] at h
                cases hfj : findA k0 c.jobs with
                | none => simp [hfj] at h
                | some j =>
                    simp only [hfj] at h
                    by_cases ht : j.trig = 0
                    · rw [if_pos ht] at h
                      cases h
                      have hne : t ≠ tid := ne_of_other_code h1 hf (by simp)
                      refine ⟨?_, h2, ?_, h4, h5⟩
                      · rw [findA_setA_ne (fun hh => hne hh.symm)]; exact h1
                      · intro p hp
                        rcases mem_setA hp with rfl | ⟨hp, _⟩
                        · rfl
                        · exact h3 p hp
                    · rw [if_neg ht] at h; cases h
          case undoGet k0 hasTO =>
              cases hasTO with
              | false => simp [timeoutStep] at h
              | true =>
                  simp only [timeoutStep] at h
                  cases hfj : findA k0 c.jobs with
                  | none => simp [hfj] at h
                  | some j =>
                      simp only [hfj] at h
                      by_cases hr : j.retq = []
                      · rw [if_pos hr] at h
                        cases h
                        have hne : t ≠ tid := ne_of_other_code h1 hf (by simp)
                        refine ⟨?_, h2, ?_, h4, h5⟩
                        · rw [findA_eraseA_ne (fun hh => hne hh.symm)]; exact h1
                        · intro p hp; exact h3 p (mem_eraseA hp).1
                      · rw [if_neg hr] at h; cases h
          all_goals simp [timeoutStep] at h

/-- A stuck `return_queue.get` with no timeout stays stuck forever. -/
theorem blockedAt_of_stuckGet {c : Config} {tid k : Nat}
    (hs : StuckGet c tid k) : BlockedAt c tid k := by
  intro ls c' hrun
  exact (run_preserve (fun cc => StuckGet cc tid k)
    (fun c0 l c1 hstep hp => stuckGet_step hstep hp) ls c c' hrun hs).hthread

/-! ### Inversion of the step function

`StepView c l c'` enumerates every atomic transition of the system, with its
enabling conditions and the exact successor configuration; `stepFn_view`
shows every successful step is of one of these shapes. -/

inductive StepView : Config → Label → Config → Prop
  | viewNewC (c : Config) (beh : Beh) :
      StepView c (.newC beh)
        { c with next := c.next + 1, timers := (c.next, false) :: c.timers, threads := (c.tnext, .timerWait c.next beh) :: (c.tnext + 1, .launchCIns c.next) :: c.threads, tnext := c.tnext + 2, hist := .issuedC c.next :: c.hist }
  | viewNewU (c : Config) (beh : Beh) :
      StepView c (.newU beh)
        { c with next := c.next + 1, jobs := (c.next, ⟨beh, 0, []⟩) :: c.jobs, threads := (c.tnext, .uWait c.next beh) :: (c.tnext + 1, .launchUIns c.next) :: c.threads, tnext := c.tnext + 2, hist := .issuedU c.next :: c.hist }
  | viewCallC (c : Config) (k : Nat) :
      StepView c (.callCancel k)
        { c with threads := (c.tnext, .cLookup k) :: c.threads, tnext := c.tnext + 1 }
  | viewCallU (c : Config) (k : Nat) (b : Bool) :
      StepView c (.callUndo k b)
        { c with threads := (c.tnext, .undoLookup k b) :: c.threads, tnext := c.tnext + 1 }
  | viewLaunchCIns (c : Config) (tid k : Nat)
      (hf : findA tid c.threads = some (.launchCIns k)) :
      StepView c (.tstep tid)
        { c with canc := k :: c.canc, threads := eraseA tid c.threads }
  | viewLaunchUIns (c : Config) (tid k : Nat)
      (hf : findA tid c.threads = some (.launchUIns k)) :
      StepView c (.tstep tid)
        { c with undo := k :: c.undo, threads := eraseA tid c.threads }
  | viewTimerCancelled (c : Config) (tid k : Nat) (beh : Beh)
      (hf : findA tid c.threads = some (.timerWait k beh))
      (hft : findA k c.timers = some true) :
      StepView c (.tstep tid) { c with threads := eraseA tid c.threads }
  | viewTimerRunOk (c : Config) (tid k : Nat) (v : String)
      (hf : findA tid c.threads = some (.timerRun k (.ok v))) :
      StepView c (.tstep tid)
        { c with threads := setA tid (.timerCheck k) c.threads, hist := .ranAction k :: c.hist }
  | viewTimerRunErr (c : Config) (tid k : Nat) (e : String)
      (hf : findA tid c.threads = some (.timerRun k (.err e))) :
      StepView c (.tstep tid)
        { c with threads := eraseA tid c.threads, hist := .actionRaised k e :: .ranAction k :: c.hist }
  | viewTimerCheckPos (c : Config) (tid k : Nat)
      (hf : findA tid c.threads = some (.timerCheck k)) (hm : k ∈ c.canc) :
      StepView c (.tstep tid)
        { c with threads := setA tid (.timerDel k) c.threads }
  | viewTimerCheckNeg (c : Config) (tid k : Nat)
      (hf : findA tid c.threads = some (.timerCheck k)) (hm : k ∉ c.canc) :
      StepView c (.tstep tid) { c with threads := eraseA tid c.threads }
  | viewTimerDelPos (c : Config) (tid k : Nat)
      (hf : findA tid c.threads = some (.timerDel k)) (hm : k ∈ c.canc) :
      StepView c (.tstep tid)
        { c with canc := removeN k c.canc, threads := eraseA tid c.threads, hist := .removedCFire k :: c.hist }
  | viewTimerDelNeg (c : Config) (tid k : Nat)
      (hf : findA tid c.threads = some (.timerDel k)) (hm : k ∉ c.canc) :
      StepView c (.tstep tid)
        { c with threads := eraseA tid c.threads, hist := .keyErr k :: c.hist }
  | viewUWaitPop (c : Config) (tid k : Nat) (beh : Beh) (j : UJob)
      (hf : findA tid c.threads = some (.uWait k beh))
      (hj : findA k c.jobs = some j) (ht : 0 < j.trig) :
      StepView c (.tstep tid)
        { c with jobs := setA k ({ j with trig := j.trig - 1 }) c.jobs, threads := setA tid (.uRun k beh) c.threads, hist := .accepted k :: c.hist }
  | viewURunOk (c : Config) (tid k : Nat) (v : String)
      (hf : findA tid c.threads = some (.uRun k (.ok v))) :
      StepView c (.tstep tid)
        { c with threads := setA tid (.uPut k v) c.threads, hist := .ranAction k :: c.hist }
  | viewURunErr (c : Config) (tid k : Nat) (e : String)
      (hf : findA tid c.threads = some (.uRun k (.err e))) :
      StepView c (.tstep tid)
        { c with threads := eraseA tid c.threads, hist := .actionRaised k e :: .ranAction k :: c.hist }
  | viewUPut (c : Config) (tid k : Nat) (v : String) (j : UJob)
      (hf : findA tid c.threads = some (.uPut k v))
      (hj : findA k c.jobs = some j) :
      StepView c (.tstep tid)
        { c with jobs := setA k ({ j with retq := j.retq ++ [v] }) c.jobs, threads := eraseA tid c.threads }
  | viewUDelPos (c : Config) (tid k : Nat)
      (hf : findA tid c.threads = some (.uDel k)) (hm : k ∈ c.undo) :
      StepView c (.tstep tid)
        { c with undo := removeN k c.undo, threads := eraseA tid c.threads, hist := .removedU k :: c.hist }
  | viewUDelNeg (c : Config) (tid k : Nat)
      (hf : findA tid c.threads = some (.uDel k)) (hm : k ∉ c.undo) :
      StepView c (.tstep tid)
        { c with threads := eraseA tid c.threads, hist := .keyErr k :: c.hist }
  | viewCLookupPos (c : Config) (tid k : Nat)
      (hf : findA tid c.threads = some (.cLookup k)) (hm : k ∈ c.canc) :
      StepView c (.tstep tid)
        { c with threads := setA tid (.cDel k) c.threads }
  | viewCLookupNeg (c : Config) (tid k : Nat)
      (hf : findA tid c.threads = some (.cLookup k)) (hm : k ∉ c.canc) :
      StepView c (.tstep tid)
        { c with threads := eraseA tid c.threads, hist := .cancelRet k false :: c.hist }
  | viewCDelPos (c : Config) (tid k : Nat)
      (hf : findA tid c.threads = some (.cDel k)) (hm : k ∈ c.canc) :
      StepView c (.tstep tid)
        { c with timers := setA k true c.timers, canc := removeN k c.canc, threads := eraseA tid c.threads, hist := .cancelRet k true :: .removedCCancel k :: c.hist }
  | viewCDelNeg (c : Config) (tid k : Nat)
      (hf : findA tid c.threads = some (.cDel k)) (hm : k ∉ c.canc) :
      StepView c (.tstep tid)
        { c with timers := setA k true c.timers, threads := eraseA tid c.threads, hist := .keyErr k :: c.hist }
  | viewUndoLookupPos (c : Config) (tid k : Nat) (b : Bool)
      (hf : findA tid c.threads = some (.undoLookup k b)) (hm : k ∈ c.undo) :
      StepView c (.tstep tid)
        { c with threads := setA tid (.undoPut k b) c.threads }
  | viewUndoLookupNeg (c : Config) (tid k : Nat) (b : Bool)
      (hf : findA tid c.threads = some (.undoLookup k b)) (hm : k ∉ c.undo) :
      StepView c (.tstep tid)
        { c with threads := eraseA tid c.threads, hist := .undoLost k :: c.hist }
  | viewUndoPut (c : Config) (tid k : Nat) (b : Bool) (j : UJob)
      (hf : findA tid c.threads = some (.undoPut k b))
      (hj : findA k c.jobs = some j) :
      StepView c (.tstep tid)
        { c with jobs := setA k ({ j with trig := j.trig + 1 }) c.jobs, threads := setA tid (.undoGet k b) c.threads, hist := .triggerPut k :: c.hist }
  | viewUndoGetPop (c : Config) (tid k : Nat) (b : Bool) (j : UJob)
      (v : String) (rest : List String)
      (hf : findA tid c.threads = some (.undoGet k b))
      (hj : findA k c.jobs = some j) (hr : j.retq = v :: rest) :
      StepView c (.tstep tid)
        { c with jobs := setA k ({ j with retq := rest }) c.jobs, threads := eraseA tid c.threads, hist := .undoRet k v :: c.hist }
  | viewTimerElapse (c : Config) (tid k : Nat) (beh : Beh)
      (hf : findA tid c.threads = some (.timerWait k beh))
      (hft : findA k c.timers = some false) :
      StepView c (.ttimeout tid)
        { c with threads := setA tid (.timerRun k beh) c.threads }
  | viewUWaitEmpty (c : Config) (tid k : Nat) (beh : Beh) (j : UJob)
      (hf : findA tid c.threads = some (.uWait k beh))
      (hj : findA k c.jobs = some j) (ht : j.trig = 0) :
      StepView c (.ttimeout tid)
        { c with threads := setA tid (.uDel k) c.threads, hist := .timedOut k :: c.hist }
  | viewUndoGetEmpty (c : Config) (tid k : Nat) (j : UJob)
      (hf : findA tid c.threads = some (.undoGet k true))
      (hj : findA k c.jobs = some j) (hr : j.retq = []) :
      StepView c (.ttimeout tid)
        { c with threads := eraseA tid c.threads, hist := .undoEmpty k :: c.hist }

theorem stepFn_view {c c' : Config} {l : Label} (h : stepFn c l = some c') :
    StepView c l c' := by
  cases l with
  | newC beh =>
      simp only [stepFn] at h
      cases h
      exact .viewNewC c beh
  | newU beh =>
      simp only [stepFn] at h
      cases h
      exact .viewNewU c beh
  | callCancel k =>
      simp only [stepFn] at h
      cases h
      exact .viewCallC c k
  | callUndo k b =>
      simp only [stepFn] at h
      cases h
      exact .viewCallU c k b
  | tstep t =>
      simp only [stepFn] at h
      cases hf : findA t c.threads with
      | none => simp [hf] at h
      | some code =>
          simp only [hf] at h
          cases code
          case launchCIns k =>
              simp only [threadStep] at h
              cases h
              exact .viewLaunchCIns c t k hf
          case launchUIns k =>
              simp only [threadStep] at h
              cases h
              exact .viewLaunchUIns c t k hf
          case timerWait k beh =>
              simp only [threadStep] at h
              cases hft : findA k c.timers with
              | none => simp [hft] at h
              | some b =>
                  simp only [hft] at h
                  cases b with
                  | false => simp at h
                  | true =>
                      cases h
                      exact .viewTimerCancelled c t k beh hf hft
          case timerRun k beh =>
              simp only [threadStep] at h
              cases beh with
              | ok v => cases h; exact .viewTimerRunOk c t k v hf
              | err e => cases h; exact .viewTimerRunErr c t k e hf
          case timerCheck k =>
              simp only [threadStep] at h
              by_cases hm : k ∈ c.canc
              · rw [if_pos hm] at h; cases h; exact .viewTimerCheckPos c t k hf hm
              · rw [if_neg hm] at h; cases h; exact .viewTimerCheckNeg c t k hf hm
          case timerDel k =>
              simp only [threadStep] at h
              by_cases hm : k ∈ c.canc
              · rw [if_pos hm] at h; cases h; exact .viewTimerDelPos c t k hf hm
              · rw [if_neg hm] at h; cases h; exact .viewTimerDelNeg c t k hf hm
          case uWait k beh =>
              simp only [threadStep] at h
              cases hj : findA k c.jobs with
              | none => simp [hj] at h
              | some j =>
                  simp only [hj] at h
                  by_cases ht : 0 < j.trig
                  · rw [if_pos ht] at h; cases h
                    exact .viewUWaitPop c t k beh j hf hj ht
                  · rw [if_neg ht] at h; cases h
          case uRun k beh =>
              simp only [threadStep] at h
              cases beh with
              | ok v => cases h; exact .viewURunOk c t k v hf
              | err e => cases h; exact .viewURunErr c t k e hf
          case uPut k v =>
              simp only [threadStep] at h
              cases hj : findA k c.jobs with
              | none => simp [hj] at h
              | some j =>
                  simp only [hj] at h
                  cases h
                  exact .viewUPut c t k v j hf hj
          case uDel k =>
              simp only [threadStep] at h
              by_cases hm : k ∈ c.undo
              · rw [if_pos hm] at h; cases h; exact .viewUDelPos c t k hf hm
              · rw [if_neg hm] at h; cases h; exact .viewUDelNeg c t k hf hm
          case cLookup k =>
              simp only [threadStep] at h
              by_cases hm : k ∈ c.canc
              · rw [if_pos hm] at h; cases h; exact .viewCLookupPos c t k hf hm
              · rw [if_neg hm] at h; cases h; exact .viewCLookupNeg c t k hf hm
          case cDel k =>
              simp only [threadStep] at h
              by_cases hm : k ∈ c.canc
              · rw [if_pos hm] at h; cases h; exact .viewCDelPos c t k hf hm
              · rw [if_neg hm] at h; cases h; exact .viewCDelNeg c t k hf hm
          case undoLookup k b =>
              simp only [threadStep] at h
              by_cases hm : k ∈ c.undo
              · rw [if_pos hm] at h; cases h
                exact .viewUndoLookupPos c t k b hf hm
              · rw [if_neg hm] at h; cases h
                exact .viewUndoLookupNeg c t k b hf hm
          case undoPut k b =>
              simp only [threadStep] at h
              cases hj : findA k c.jobs with
              | none => simp [hj] at h
              | some j =>
                  simp only [hj] at h
                  cases h
                  exact .viewUndoPut c t k b j hf hj
          case undoGet k b =>
              simp only [threadStep] at h
              cases hj : findA k c.jobs with
              | none => simp [hj] at h
              | some j =>
                  simp only [hj] at h
                  cases hr : j.retq with
                  | nil => rw [hr] at h; simp at h
                  | cons v rest =>
                      rw [hr] at h
                      cases h
                      exact .viewUndoGetPop c t k b j v rest hf hj hr
  | ttimeout t =>
      simp only [stepFn] at h
      cases hf : findA t c.threads with
      | none => simp [hf] at h
      | some code =>
          simp only [hf] at h
          cases code
          case timerWait k beh =>
              simp only [timeoutStep] at h
              cases hft : findA k c.timers with
              | none => simp [hft] at h
              | some b =>
                  simp only [hft] at h
                  cases b with
                  | true => simp at h
                  | false =>
                      cases h
                      exact .viewTimerElapse c t k beh hf hft
          case uWait k beh =>
              simp only [timeoutStep] at h
              cases hj : findA k c.jobs with
              | none => simp [hj] at h
              | some j =>
                  simp only [hj] at h
                  by_cases ht : j.trig = 0
                  · rw [if_pos ht] at h; cases h
                    exact .viewUWaitEmpty c t k beh j hf hj ht
                  · rw [if_neg ht] at h; cases h
          case undoGet k b =>
              cases b with
              | false => simp [timeoutStep] at h
              | true =>
                  simp only [timeoutStep] at h
                  cases hj : findA k c.jobs with
                  | none => simp [hj] at h
                  | some j =>
                      simp only [hj] at h
                      by_cases hr : j.retq = []
                      · rw [if_pos hr] at h; cases h
                        exact .viewUndoGetEmpty c t k j hf hj hr
                      · rw [if_neg hr] at h; cases h
          all_goals simp [timeoutStep] at h

/-! ### Single-step characterizations -/

/-- The only transition that removes a key from
`waiting_threads['undoable_jobs']` is the worker's
`del store['undoable_jobs'][key]` in the `except Empty:` branch of
`Undoable.run`, and it logs `removedU`. -/
theorem undo_removed_only_by_uDel {c c' : Config} {l : Label} {k : Nat}
    (h : stepFn c l = some c') (hin : k ∈ c.undo) (hout : k ∉ c'.undo) :
    ∃ tid, l = .tstep tid ∧ findA tid c.threads = some (.uDel k) ∧
      c'.hist = .removedU k :: c.hist := by
  have hv := stepFn_view h
  cases hv
  case viewLaunchUIns tid k0 hf =>
      exact absurd (List.mem_cons_of_mem _ hin) hout
  case viewUDelPos tid k0 hf hm =>
      have hk : k = k0 := by
        by_contra hne
        exact hout (mem_removeN.mpr ⟨hin, hne⟩)
      subst hk
      exact ⟨tid, rfl, hf, rfl⟩
  all_goals exact absurd hin hout

/-- The only transitions that remove a key from
`waiting_threads['cancelable_jobs']` are `cancel_job`'s `del` (which then
returns `True`) and `funcwrap`'s cleanup `del` (after `func()` returned). -/
theorem canc_removed_only_by {c c' : Config} {l : Label} {k : Nat}
    (h : stepFn c l = some c') (hin : k ∈ c.canc) (hout : k ∉ c'.canc) :
    ∃ tid, l = .tstep tid ∧
      ((findA tid c.threads = some (.cDel k) ∧
        c'.hist = .cancelRet k true :: .removedCCancel k :: c.hist) ∨
       (findA tid c.threads = some (.timerDel k) ∧
        c'.hist = .removedCFire k :: c.hist)) := by
  have hv := stepFn_view h
  cases hv
  case viewLaunchCIns tid k0 hf =>
      exact absurd (List.mem_cons_of_mem _ hin) hout
  case viewTimerDelPos tid k0 hf hm =>
      have hk : k = k0 := by
        by_contra hne
        exact hout (mem_removeN.mpr ⟨hin, hne⟩)
      subst hk
      exact ⟨tid, rfl, Or.inr ⟨hf, rfl⟩⟩
  case viewCDelPos tid k0 hf hm =>
      have hk : k = k0 := by
        by_contra hne
        exact hout (mem_removeN.mpr ⟨hin, hne⟩)
      subst hk
      exact ⟨tid, rfl, Or.inl ⟨hf, rfl⟩⟩
  all_goals exact absurd hin hout

/-- `cancel_job` on a key that is not in the cancelable registry
(`waiting_threads['cancelable_jobs'].get(key)` returns `None`) immediately
returns `False`. -/
theorem cancel_miss_step {c : Config} {tid k : Nat}
    (hf : findA tid c.threads = some (.cLookup k)) (hm : k ∉ c.canc) :
    stepFn c (.tstep tid) =
      some { c with threads := eraseA tid c.threads, hist := .cancelRet k false :: c.hist } := by
  simp only [stepFn, hf, threadStep]
  rw [if_neg hm]

/-- `cancel_job` past a successful lookup, with the entry still present:
`timer.cancel()` sets the cancelled flag, the entry is deleted, and the call
returns `True`. -/
theorem cancel_hit_step {c : Config} {tid k : Nat}
    (hf : findA tid c.threads = some (.cDel k)) (hm : k ∈ c.canc) :
    stepFn c (.tstep tid) =
      some { c with timers := setA k true c.timers, canc := removeN k c.canc, threads := eraseA tid c.threads, hist := .cancelRet k true :: .removedCCancel k :: c.hist } := by
  simp only [stepFn, hf, threadStep]
  rw [if_pos hm]

/-- `cancel_job`'s successful lookup step: with the entry present, the call
proceeds to `timer.cancel()` and the delete. -/
theorem cancel_lookup_hit_step {c : Config} {tid k : Nat}
    (hf : findA tid c.threads = some (.cLookup k)) (hm : k ∈ c.canc) :
    stepFn c (.tstep tid) =
      some { c with threads := setA tid (.cDel k) c.threads } := by
  simp only [stepFn, hf, threadStep]
  rw [if_pos hm]

/-- `undo_job` on a key that is not in the undoable registry raises
`ThreadLostError` at once (its thread finishes; no blocking). -/
theorem undo_miss_step {c : Config} {tid k : Nat} {b : Bool}
    (hf : findA tid c.threads = some (.undoLookup k b)) (hm : k ∉ c.undo) :
    stepFn c (.tstep tid) =
      some { c with threads := eraseA tid c.threads, hist := .undoLost k :: c.hist } := by
  simp only [stepFn, hf, threadStep]
  rw [if_neg hm]

/-- When the triggered action raises, `Undoable.run` dies on its own thread:
the exception is logged against the worker, `return_queue` is untouched, and
the worker thread disappears. -/
theorem uRun_err_step {c : Config} {tid k : Nat} {e : String}
    (hf : findA tid c.threads = some (.uRun k (.err e))) :
    stepFn c (.tstep tid) =
      some { c with threads := eraseA tid c.threads, hist := .actionRaised k e :: .ranAction k :: c.hist } := by
  simp only [stepFn, hf, threadStep]

/-! ### A cancelled, not-yet-fired timer never fires

`timer.cancel()` sets the `finished` flag of the `threading.Timer`; if the
flag is set before the delay elapses, `Timer.run` skips the function. -/

/-- Thread codes that could still lead to `ranAction k` being logged, or put
`k` back into the cancelable registry. -/
def isFire (k : Nat) : TCode → Bool
  | .timerRun j _ => j == k
  | .uWait j _ => j == k
  | .uRun j _ => j == k
  | .launchCIns j => j == k
  | _ => false

/-- Cancelable job `k` was cancelled while its timer was still waiting: the
cancelled flag is set, the registry entry is gone, the action has not run,
and no live thread can run it or re-insert the entry. -/
structure Dormant (c : Config) (k : Nat) : Prop where
  hflag : findA k c.timers = some true
  hout : k ∉ c.canc
  hk : k < c.next
  hran : Event.ranAction k ∉ c.hist
  hnofire : ∀ p ∈ c.threads, isFire k p.2 = false

theorem dormant_step {c c' : Config} {l : Label} {k : Nat}
    (h : stepFn c l = some c') (hd : Dormant c k) : Dormant c' k := by
  obtain ⟨h1, h2, h3, h4, h5⟩ := hd
  have hknext : c.next ≠ k := fun hh => Nat.ne_of_lt h3 hh.symm
  have hv := stepFn_view h
  cases hv
  case viewNewC beh =>
      refine ⟨?_, h2, Nat.lt_succ_of_lt h3, ?_, ?_⟩
      · rw [findA_cons_ne hknext]; exact h1
      · intro hmem
        rcases List.mem_cons.mp hmem with heq | hmem
        · cases heq
        · exact h4 hmem
      · intro p hp
        rcases List.mem_cons.mp hp with rfl | hp
        · rfl
        rcases List.mem_cons.mp hp with rfl | hp
        · simp [isFire, hknext]
        exact h5 p hp
  case viewNewU beh =>
      refine ⟨h1, h2, Nat.lt_succ_of_lt h3, ?_, ?_⟩
      · intro hmem
        rcases List.mem_cons.mp hmem with heq | hmem
        · cases heq
        · exact h4 hmem
      · intro p hp
        rcases List.mem_cons.mp hp with rfl | hp
        · simp [isFire, hknext]
        rcases List.mem_cons.mp hp with rfl | hp
        · rfl
        exact h5 p hp
  case viewCallC k0 =>
      refine ⟨h1, h2, h3, h4, ?_⟩
      intro p hp
      rcases List.mem_cons.mp hp with rfl | hp
      · rfl
      exact h5 p hp
  case viewCallU k0 b =>
      refine ⟨h1, h2, h3, h4, ?_⟩
      intro p hp
      rcases List.mem_cons.mp hp with rfl | hp
      · rfl
      exact h5 p hp
  case viewLaunchCIns tid k0 hf =>
      have hk0 : k0 ≠ k := by
        intro hh
        subst hh
        have := h5 _ (findA_mem hf)
        simp [isFire] at this
      refine ⟨h1, ?_, h3, h4, ?_⟩
      · intro hmem
        rcases List.mem_cons.mp hmem with heq | hmem
        · exact hk0 heq.symm
        · exact h2 hmem
      · intro p hp; exact h5 p (mem_eraseA hp).1
  case viewLaunchUIns tid k0 hf =>
      refine ⟨h1, h2, h3, h4, ?_⟩
      intro p hp; exact h5 p (mem_eraseA hp).1
  case viewTimerCancelled tid k0 beh hf hft =>
      refine ⟨h1, h2, h3, h4, ?_⟩
      intro p hp; exact h5 p (mem_eraseA hp).1
  case viewTimerRunOk tid k0 v hf =>
      have hk0 : k0 ≠ k := by
        intro hh
        subst hh
        have := h5 _ (findA_mem hf)
        simp [isFire] at this
      refine ⟨h1, h2, h3, ?_, ?_⟩
      · intro hmem
        rcases List.mem_cons.mp hmem with heq | hmem
        · exact hk0 (by cases heq; rfl)
        · exact h4 hmem
      · intro p hp
        rcases mem_setA hp with rfl | ⟨hp, _⟩
        · rfl
        exact h5 p hp
  case viewTimerRunErr tid k0 e hf =>
      have hk0 : k0 ≠ k := by
        intro hh
        subst hh
        have := h5 _ (findA_mem hf)
        simp [isFire] at this
      refine ⟨h1, h2, h3, ?_, ?_⟩
      · intro hmem
        rcases List.mem_cons.mp hmem with heq | hmem
        · cases heq
        rcases List.mem_cons.mp hmem with heq | hmem
        · exact hk0 (by cases heq; rfl)
        · exact h4 hmem
      · intro p hp; exact h5 p (mem_eraseA hp).1
  case viewTimerCheckPos tid k0 hf hm =>
      refine ⟨h1, h2, h3, h4, ?_⟩
      intro p hp
      rcases mem_setA hp with rfl | ⟨hp, _⟩
      · rfl
      exact h5 p hp
  case viewTimerCheckNeg tid k0 hf hm =>
      refine ⟨h1, h2, h3, h4, ?_⟩
      intro p hp; exact h5 p (mem_eraseA hp).1
  case viewTimerDelPos tid k0 hf hm =>
      refine ⟨h1, ?_, h3, ?_, ?_⟩
      · intro hmem; exact h2 (mem_removeN.mp hmem).1
      · intro hmem
        rcases List.mem_cons.mp hmem with heq | hmem
        · cases heq
        · exact h4 hmem
      · intro p hp; exact h5 p (mem_eraseA hp).1
  case viewTimerDelNeg tid k0 hf hm =>
      refine ⟨h1, h2, h3, ?_, ?_⟩
      · intro hmem
        rcases List.mem_cons.mp hmem with heq | hmem
        · cases heq
        · exact h4 hmem
      · intro p hp; exact h5 p (mem_eraseA hp).1
  case viewUWaitPop tid k0 beh j hf hj ht =>
      have hk0 : k0 ≠ k := by
        intro hh
        subst hh
        have := h5 _ (findA_mem hf)
        simp [isFire] at this
      refine ⟨h1, h2, h3, ?_, ?_⟩
      · intro hmem
        rcases List.mem_cons.mp hmem with heq | hmem
        · cases heq
        · exact h4 hmem
      · intro p hp
        rcases mem_setA hp with rfl | ⟨hp, _⟩
        · simp [isFire]
          exact fun hh => hk0 hh
        exact h5 p hp
  case viewURunOk tid k0 v hf =>
      have hk0 : k0 ≠ k := by
        intro hh
        subst hh
        have := h5 _ (findA_mem hf)
        simp [isFire] at this
      refine ⟨h1, h2, h3, ?_, ?_⟩
      · intro hmem
        rcases List.mem_cons.mp hmem with heq | hmem
        · exact hk0 (by cases heq; rfl)
        · exact h4 hmem
      · intro p hp
        rcases mem_setA hp with rfl | ⟨hp, _⟩
        · rfl
        exact h5 p hp
  case viewURunErr tid k0 e hf =>
      have hk0 : k0 ≠ k := by
        intro hh
        subst hh
        have := h5 _ (findA_mem hf)
        simp [isFire] at this
      refine ⟨h1, h2, h3, ?_, ?_⟩
      · intro hmem
        rcases List.mem_cons.mp hmem with heq | hmem
        · cases heq
        rcases List.mem_cons.mp hmem with heq | hmem
        · exact hk0 (by cases heq; rfl)
        · exact h4 hmem
      · intro p hp; exact h5 p (mem_eraseA hp).1
  case viewUPut tid k0 v j hf hj =>
      refine ⟨h1, h2, h3, h4, ?_⟩
      intro p hp; exact h5 p (mem_eraseA hp).1
  case viewUDelPos tid k0 hf hm =>
      refine ⟨h1, h2, h3, ?_, ?_⟩
      · intro hmem
        rcases List.mem_cons.mp hmem with heq | hmem
        · cases heq
        · exact h4 hmem
      · intro p hp; exact h5 p (mem_eraseA hp).1
  case viewUDelNeg tid k0 hf hm =>
      refine ⟨h1, h2, h3, ?_, ?_⟩
      · intro hmem
        rcases List.mem_cons.mp hmem with heq | hmem
        · cases heq
        · exact h4 hmem
      · intro p hp; exact h5 p (mem_eraseA hp).1
  case viewCLookupPos tid k0 hf hm =>
      refine ⟨h1, h2, h3, h4, ?_⟩
      intro p hp
      rcases mem_setA hp with rfl | ⟨hp, _⟩
      · rfl
      exact h5 p hp
  case viewCLookupNeg tid k0 hf hm =>
      refine ⟨h1, h2, h3, ?_, ?_⟩
      · intro hmem
        rcases List.mem_cons.mp hmem with heq | hmem
        · cases heq
        · exact h4 hmem
      · intro p hp; exact h5 p (mem_eraseA hp).1
  case viewCDelPos tid k0 hf hm =>
      refine ⟨?_, ?_, h3, ?_, ?_⟩
      · by_cases hk0 : k0 = k
        · subst hk0
          rw [findA_setA_self, h1]
          rfl
        · rw [findA_setA_ne (fun hh => hk0 hh.symm)]
          exact h1
      · intro hmem; exact h2 (mem_removeN.mp hmem).1
      · intro hmem
        rcases List.mem_cons.mp hmem with heq | hmem
        · cases heq
        rcases List.mem_cons.mp hmem with heq | hmem
        · cases heq
        · exact h4 hmem
      · intro p hp; exact h5 p (mem_eraseA hp).1
  case viewCDelNeg tid k0 hf hm =>
      refine ⟨?_, h2, h3, ?_, ?_⟩
      · by_cases hk0 : k0 = k
        · subst hk0
          rw [findA_setA_self, h1]
          rfl
        · rw [findA_setA_ne (fun hh => hk0 hh.symm)]
          exact h1
      · intro hmem
        rcases List.mem_cons.mp hmem with heq | hmem
        · cases heq
        · exact h4 hmem
      · intro p hp; exact h5 p (mem_eraseA hp).1
  case viewUndoLookupPos tid k0 b hf hm =>
      refine ⟨h1, h2, h3, h4, ?_⟩
      intro p hp
      rcases mem_setA hp with rfl | ⟨hp, _⟩
      · rfl
      exact h5 p hp
  case viewUndoLookupNeg tid k0 b hf hm =>
      refine ⟨h1, h2, h3, ?_, ?_⟩
      · intro hmem
        rcases List.mem_cons.mp hmem with heq | hmem
        · cases heq
        · exact h4 hmem
      · intro p hp; exact h5 p (mem_eraseA hp).1
  case viewUndoPut tid k0 b j hf hj =>
      refine ⟨h1, h2, h3, ?_, ?_⟩
      · intro hmem
        rcases List.mem_cons.mp hmem with heq | hmem
        · cases heq
        · exact h4 hmem
      · intro p hp
        rcases mem_setA hp with rfl | ⟨hp, _⟩
        · rfl
        exact h5 p hp
  case viewUndoGetPop tid k0 b j v rest hf hj hr =>
      refine ⟨h1, h2, h3, ?_, ?_⟩
      · intro hmem
        rcases List.mem_cons.mp hmem with heq | hmem
        · cases heq
        · exact h4 hmem
      · intro p hp; exact h5 p (mem_eraseA hp).1
  case viewTimerElapse tid k0 beh hf hft =>
      have hk0 : k0 ≠ k := by
        intro hh
        subst hh
        rw [h1] at hft
        cases hft
      refine ⟨h1, h2, h3, h4, ?_⟩
      intro p hp
      rcases mem_setA hp with rfl | ⟨hp, _⟩
      · simp [isFire]
        exact fun hh => hk0 hh
      exact h5 p hp
  case viewUWaitEmpty tid k0 beh j hf hj ht =>
      have hk0 : k0 ≠ k := by
        intro hh
        subst hh
        have := h5 _ (findA_mem hf)
        simp [isFire] at this
      refine ⟨h1, h2, h3, ?_, ?_⟩
      · intro hmem
        rcases List.mem_cons.mp hmem with heq | hmem
        · cases heq
        · exact h4 hmem
      · intro p hp
        rcases mem_setA hp with rfl | ⟨hp, _⟩
        · rfl
        exact h5 p hp
  case viewUndoGetEmpty tid k0 j hf hj hr =>
      refine ⟨h1, h2, h3, ?_, ?_⟩
      · intro hmem
        rcases List.mem_cons.mp hmem with heq | hmem
        · cases heq
        · exact h4 hmem
      · intro p hp; exact h5 p (mem_eraseA hp).1

/-- Once `Dormant`, always `Dormant`: a job cancelled while its timer was
still waiting never runs its action, and its registry entry never returns. -/
theorem dormant_run {c c' : Config} {ls : List Label} {k : Nat}
    (hrun : run c ls = some c') (hd : Dormant c k) : Dormant c' k :=
  run_preserve (fun cc => Dormant cc k)
    (fun c0 l c1 hstep hp => dormant_step hstep hp) ls c c' hrun hd

/-! ### Sole-worker bookkeeping

Each job spawns exactly one worker thread (`threading.Timer` for cancelable
jobs, the `Undoable.run` thread for undoable jobs).  `soleW w ts code` says
the threads satisfying `w` consist of exactly one entry, whose code is
`code`; `noneW w ts` says there is none. -/

def soleW (w : TCode → Bool) (ts : List (Nat × TCode)) (code : TCode) : Prop :=
  w code = true ∧ ∃ tid, findA tid ts = some code ∧
    ∀ p ∈ ts, w p.2 = true → p = (tid, code)

def noneW (w : TCode → Bool) (ts : List (Nat × TCode)) : Prop :=
  ∀ p ∈ ts, w p.2 = false

theorem soleW_code {w : TCode → Bool} {ts : List (Nat × TCode)}
    {code code₂ : TCode} {t : Nat} (hs : soleW w ts code)
    (hf : findA t ts = some code₂) (h₂ : w code₂ = true) : code₂ = code := by
  obtain ⟨_, tid, _, hall⟩ := hs
  have := hall _ (findA_mem hf) h₂
  cases this
  rfl

theorem noneW_no_code {w : TCode → Bool} {ts : List (Nat × TCode)}
    {code₂ : TCode} {t : Nat} (hn : noneW w ts)
    (hf : findA t ts = some code₂) (h₂ : w code₂ = true) : False := by
  have := hn _ (findA_mem hf)
  rw [this] at h₂
  cases h₂

theorem soleW_cons_frame {w : TCode → Bool} {ts : List (Nat × TCode)}
    {code : TCode} (hs : soleW w ts code) (a : Nat) (code' : TCode)
    (ha : ∀ p ∈ ts, p.1 ≠ a) (h' : w code' = false) :
    soleW w ((a, code') :: ts) code := by
  obtain ⟨hc, tid, hfind, hall⟩ := hs
  refine ⟨hc, tid, ?_, ?_⟩
  · rw [findA_cons_ne (Ne.symm (ha _ (findA_mem hfind)))]
    exact hfind
  · intro p hp hw
    rcases List.mem_cons.mp hp with rfl | hp
    · rw [h'] at hw; cases hw
    · exact hall p hp hw

theorem soleW_setA_frame {w : TCode → Bool} {ts : List (Nat × TCode)}
    {code code₀ : TCode} {t : Nat} (hs : soleW w ts code)
    (hf : findA t ts = some code₀) (h₀ : w code₀ = false) (code' : TCode)
    (h' : w code' = false) : soleW w (setA t code' ts) code := by
  obtain ⟨hc, tid, hfind, hall⟩ := hs
  have hne : tid ≠ t := by
    intro hh
    subst hh
    rw [hfind] at hf
    cases hf
    rw [hc] at h₀
    cases h₀
  refine ⟨hc, tid, ?_, ?_⟩
  · rw [findA_setA_ne hne]
    exact hfind
  · intro p hp hw
    rcases mem_setA hp with rfl | ⟨hp, _⟩
    · rw [h'] at hw; cases hw
    · exact hall p hp hw

theorem soleW_eraseA_frame {w : TCode → Bool} {ts : List (Nat × TCode)}
    {code code₀ : TCode} {t : Nat} (hs : soleW w ts code)
    (hf : findA t ts = some code₀) (h₀ : w code₀ = false) :
    soleW w (eraseA t ts) code := by
  obtain ⟨hc, tid, hfind, hall⟩ := hs
  have hne : tid ≠ t := by
    intro hh
    subst hh
    rw [hfind] at hf
    cases hf
    rw [hc] at h₀
    cases h₀
  refine ⟨hc, tid, ?_, ?_⟩
  · rw [findA_eraseA_ne hne]
    exact hfind
  · intro p hp hw
    exact hall p (mem_eraseA hp).1 hw

theorem soleW_advance {w : TCode → Bool} {ts : List (Nat × TCode)}
    {code : TCode} {t : Nat} (hs : soleW w ts code)
    (hf : findA t ts = some code) (code' : TCode) (h' : w code' = true) :
    soleW w (setA t code' ts) code' := by
  obtain ⟨hc, tid, hfind, hall⟩ := hs
  have htt : t = tid := by
    have := hall _ (findA_mem hf) hc
    cases this
    rfl
  subst htt
  refine ⟨h', t, ?_, ?_⟩
  · rw [findA_setA_self, hf]
    rfl
  · intro p hp hw
    rcases mem_setA hp with rfl | ⟨hp, hpne⟩
    · rfl
    · have := hall p hp hw
      rw [this] at hpne
      exact absurd rfl hpne

theorem soleW_finish_set {w : TCode → Bool} {ts : List (Nat × TCode)}
    {code : TCode} {t : Nat} (hs : soleW w ts code)
    (hf : findA t ts = some code) (code' : TCode) (h' : w code' = false) :
    noneW w (setA t code' ts) := by
  obtain ⟨hc, tid, hfind, hall⟩ := hs
  have htt : t = tid := by
    have := hall _ (findA_mem hf) hc
    cases this
    rfl
  subst htt
  intro p hp
  cases hw : w p.2
  · rfl
  · exfalso
    rcases mem_setA hp with rfl | ⟨hp, hpne⟩
    · rw [h'] at hw; cases hw
    · have := hall p hp hw
      rw [this] at hpne
      exact absurd rfl hpne

theorem soleW_finish_erase {w : TCode → Bool} {ts : List (Nat × TCode)}
    {code : TCode} {t : Nat} (hs : soleW w ts code)
    (hf : findA t ts = some code) : noneW w (eraseA t ts) := by
  obtain ⟨hc, tid, hfind, hall⟩ := hs
  have htt : t = tid := by
    have := hall _ (findA_mem hf) hc
    cases this
    rfl
  subst htt
  intro p hp
  cases hw : w p.2
  · rfl
  · exfalso
    obtain ⟨hp, hpne⟩ := mem_eraseA hp
    have := hall p hp hw
    rw [this] at hpne
    exact absurd rfl hpne

theorem noneW_cons {w : TCode → Bool} {ts : List (Nat × TCode)}
    (hn : noneW w ts) (a : Nat) (code' : TCode) (h' : w code' = false) :
    noneW w ((a, code') :: ts) := by
  intro p hp
  rcases List.mem_cons.mp hp with rfl | hp
  · exact h'
  · exact hn p hp

theorem noneW_setA {w : TCode → Bool} {ts : List (Nat × TCode)}
    (hn : noneW w ts) (t : Nat) (code' : TCode) (h' : w code' = false) :
    noneW w (setA t code' ts) := by
  intro p hp
  rcases mem_setA hp with rfl | ⟨hp, _⟩
  · exact h'
  · exact hn p hp

theorem noneW_eraseA {w : TCode → Bool} {ts : List (Nat × TCode)}
    (hn : noneW w ts) (t : Nat) : noneW w (eraseA t ts) := by
  intro p hp
  exact hn p (mem_eraseA hp).1

/-! ### The global well-formedness invariant

`WFA` collects registry sanity facts (kinds are disjoint, every registry
entry has its object, objects were issued, worker threads have their
objects, thread ids are fresh).  `UInv`/`TInv` give each job key its
life-cycle phase, tying the worker thread's program counter to the logged
events, the queues and the registry entry. -/

/-- Worker codes of `Undoable.run` for job `k`. -/
def isWorkU (k : Nat) : TCode → Bool
  | .uWait j _ => j == k
  | .uRun j _ => j == k
  | .uPut j _ => j == k
  | .uDel j => j == k
  | _ => false

/-- Worker codes of the `threading.Timer` thread for job `k`. -/
def isWorkC (k : Nat) : TCode → Bool
  | .timerWait j _ => j == k
  | .timerRun j _ => j == k
  | .timerCheck j => j == k
  | .timerDel j => j == k
  | _ => false

/-- The job key an event refers to, for events that can only be logged by a
thread holding the job's object (used to bound keys by the uuid counter). -/
def evKeyOf : Event → Option Nat
  | .issuedC k => some k
  | .issuedU k => some k
  | .ranAction k => some k
  | .actionRaised k _ => some k
  | .accepted k => some k
  | .timedOut k => some k
  | .removedU k => some k
  | .undoRet k _ => some k
  | _ => none

theorem beq_false_of_ne {a b : Nat} (h : a ≠ b) : (a == b) = false := by
  simp [h]

structure WFA (c : Config) : Prop where
  histBound : ∀ e ∈ c.hist, ∀ k, evKeyOf e = some k → k < c.next
  tidBound : ∀ p ∈ c.threads, p.1 < c.tnext
  kindsU : ∀ k, findA k c.jobs ≠ none → findA k c.timers = none
  cancTim : ∀ k ∈ c.canc, findA k c.timers ≠ none
  undoJob : ∀ k ∈ c.undo, findA k c.jobs ≠ none
  jobIssued : ∀ k, findA k c.jobs ≠ none → Event.issuedU k ∈ c.hist
  timIssued : ∀ k, findA k c.timers ≠ none → Event.issuedC k ∈ c.hist
  issuedJob : ∀ k, Event.issuedU k ∈ c.hist → findA k c.jobs ≠ none
  issuedTim : ∀ k, Event.issuedC k ∈ c.hist → findA k c.timers ≠ none
  launchCTim : ∀ p ∈ c.threads, ∀ k, p.2 = TCode.launchCIns k →
    findA k c.timers ≠ none
  launchUJob : ∀ p ∈ c.threads, ∀ k, p.2 = TCode.launchUIns k →
    findA k c.jobs ≠ none
  workUJob : ∀ p ∈ c.threads, ∀ k, isWorkU k p.2 = true →
    findA k c.jobs ≠ none
  workCTim : ∀ p ∈ c.threads, ∀ k, isWorkC k p.2 = true →
    findA k c.timers ≠ none
  undoPutIn : ∀ p ∈ c.threads, ∀ k b, p.2 = TCode.undoPut k b →
    k ∈ c.undo ∨ Event.timedOut k ∈ c.hist

theorem wfa_job_lt {c : Config} {k : Nat} (hw : WFA c)
    (hj : findA k c.jobs ≠ none) : k < c.next :=
  hw.histBound _ (hw.jobIssued k hj) k rfl

theorem wfa_tim_lt {c : Config} {k : Nat} (hw : WFA c)
    (ht : findA k c.timers ≠ none) : k < c.next :=
  hw.histBound _ (hw.timIssued k ht) k rfl

/-! Life-cycle phases of an undoable job `k` with object `j`. -/

/-- `Undoable.run` is blocked on `trigger_queue.get`; nothing has happened. -/
def phaseW (c : Config) (k : Nat) (j : UJob) : Prop :=
  soleW (isWorkU k) c.threads (.uWait k j.beh) ∧
  Event.accepted k ∉ c.hist ∧
  countE (.ranAction k) c.hist = 0 ∧
  Event.timedOut k ∉ c.hist ∧
  Event.removedU k ∉ c.hist ∧
  j.retq = [] ∧
  (∀ v, Event.undoRet k v ∉ c.hist) ∧
  (0 < j.trig → k ∈ c.undo)

/-- The trigger was accepted; `self.func()` is about to run. -/
def phaseR (c : Config) (k : Nat) (j : UJob) : Prop :=
  soleW (isWorkU k) c.threads (.uRun k j.beh) ∧
  Event.accepted k ∈ c.hist ∧
  countE (.ranAction k) c.hist = 0 ∧
  Event.timedOut k ∉ c.hist ∧
  Event.removedU k ∉ c.hist ∧
  j.retq = [] ∧
  (∀ v, Event.undoRet k v ∉ c.hist) ∧
  k ∈ c.undo

/-- The action returned `v`; the worker is about to `return_queue.put(v)`. -/
def phaseP (c : Config) (k : Nat) (j : UJob) : Prop :=
  (∃ v, j.beh = .ok v ∧ soleW (isWorkU k) c.threads (.uPut k v)) ∧
  Event.accepted k ∈ c.hist ∧
  countE (.ranAction k) c.hist = 1 ∧
  Event.timedOut k ∉ c.hist ∧
  Event.removedU k ∉ c.hist ∧
  j.retq = [] ∧
  (∀ v, Event.undoRet k v ∉ c.hist) ∧
  k ∈ c.undo

/-- `trigger_queue.get` raised `Empty`; the worker is about to discard the
registry entry. -/
def phaseD (c : Config) (k : Nat) (j : UJob) : Prop :=
  soleW (isWorkU k) c.threads (.uDel k) ∧
  Event.accepted k ∉ c.hist ∧
  countE (.ranAction k) c.hist = 0 ∧
  Event.timedOut k ∈ c.hist ∧
  Event.removedU k ∉ c.hist ∧
  j.retq = [] ∧
  (∀ v, Event.undoRet k v ∉ c.hist)

/-- The triggered path finished (action returned or raised): the worker is
gone, the action ran exactly once, and the registry entry is still there. -/
def phaseDone (c : Config) (k : Nat) (j : UJob) : Prop :=
  noneW (isWorkU k) c.threads ∧
  Event.accepted k ∈ c.hist ∧
  countE (.ranAction k) c.hist = 1 ∧
  Event.timedOut k ∉ c.hist ∧
  Event.removedU k ∉ c.hist ∧
  (∀ x ∈ j.retq, j.beh = .ok x) ∧
  (∀ v, Event.undoRet k v ∈ c.hist → j.beh = .ok v) ∧
  k ∈ c.undo

/-- The timeout path finished: the worker is gone, the trigger was never
accepted, the action never ran. -/
def phaseT (c : Config) (k : Nat) (j : UJob) : Prop :=
  noneW (isWorkU k) c.threads ∧
  Event.accepted k ∉ c.hist ∧
  countE (.ranAction k) c.hist = 0 ∧
  Event.timedOut k ∈ c.hist ∧
  j.retq = [] ∧
  (∀ v, Event.undoRet k v ∉ c.hist)

def UPhase (c : Config) (k : Nat) (j : UJob) : Prop :=
  phaseW c k j ∨ phaseR c k j ∨ phaseP c k j ∨ phaseD c k j ∨
  phaseDone c k j ∨ phaseT c k j

/-! Life-cycle phases of a cancelable job `k`. -/

def tphaseW (c : Config) (k : Nat) : Prop :=
  (∃ beh, soleW (isWorkC k) c.threads (.timerWait k beh)) ∧
  countE (.ranAction k) c.hist = 0 ∧
  (∀ e, Event.actionRaised k e ∉ c.hist)

def tphaseR (c : Config) (k : Nat) : Prop :=
  (∃ beh, soleW (isWorkC k) c.threads (.timerRun k beh)) ∧
  countE (.ranAction k) c.hist = 0 ∧
  (∀ e, Event.actionRaised k e ∉ c.hist)

def tphaseC (c : Config) (k : Nat) : Prop :=
  soleW (isWorkC k) c.threads (.timerCheck k) ∧
  countE (.ranAction k) c.hist = 1 ∧
  (∀ e, Event.actionRaised k e ∉ c.hist)

def tphaseD (c : Config) (k : Nat) : Prop :=
  soleW (isWorkC k) c.threads (.timerDel k) ∧
  countE (.ranAction k) c.hist = 1 ∧
  (∀ e, Event.actionRaised k e ∉ c.hist)

def tphaseDone (c : Config) (k : Nat) : Prop :=
  noneW (isWorkC k) c.threads ∧
  countE (.ranAction k) c.hist ≤ 1

def TPhase (c : Config) (k : Nat) : Prop :=
  tphaseW c k ∨ tphaseR c k ∨ tphaseC c k ∨ tphaseD c k ∨ tphaseDone c k

/-- Per-key invariant for the undoable side. -/
def UInv (c : Config) (k : Nat) : Prop :=
  match findA k c.jobs with
  | some j => UPhase c k j
  | none =>
      noneW (isWorkU k) c.threads ∧
      Event.accepted k ∉ c.hist ∧
      Event.timedOut k ∉ c.hist ∧
      Event.removedU k ∉ c.hist ∧
      (∀ v, Event.undoRet k v ∉ c.hist)

/-- Per-key invariant for the cancelable side. -/
def TInv (c : Config) (k : Nat) : Prop :=
  match findA k c.timers with
  | some _ => TPhase c k
  | none => noneW (isWorkC k) c.threads

/-- The full invariant of reachable configurations. -/
def Inv (c : Config) : Prop :=
  WFA c ∧ (∀ k, UInv c k) ∧ (∀ k, TInv c k)

/-! Frame helpers. -/

theorem findA_cons_not_none {α : Type} {k a : Nat} {v : α}
    {l : List (Nat × α)} (h : findA k l ≠ none) :
    findA k ((a, v) :: l) ≠ none := by
  by_cases ha : a = k
  · simp [findA, ha]
  · simp [findA, ha]
    exact h

theorem findA_setA_not_none {α : Type} {k t : Nat} {v : α}
    {l : List (Nat × α)} (h : findA k l ≠ none) :
    findA k (setA t v l) ≠ none := by
  by_cases ht : k = t
  · subst ht
    rw [findA_setA_self]
    cases hf : findA k l
    · exact absurd hf h
    · simp
  · rw [findA_setA_ne ht]
    exact h

theorem findA_setA_none {α : Type} {k t : Nat} {v : α}
    {l : List (Nat × α)} (h : findA k (setA t v l) = none) :
    findA k l = none := by
  by_cases ht : k = t
  · subst ht
    rw [findA_setA_self] at h
    cases hf : findA k l
    · rfl
    · rw [hf] at h; cases h
  · rw [findA_setA_ne ht] at h
    exact h

theorem evmem_cons {e' : Event} {hl : List Event} {k : Nat}
    (hne : evKeyOf e' ≠ some k) :
    ∀ e, evKeyOf e = some k → (e ∈ e' :: hl ↔ e ∈ hl) := by
  intro e he
  constructor
  · intro hm
    rcases List.mem_cons.mp hm with rfl | hm
    · exact absurd he hne
    · exact hm
  · exact List.mem_cons_of_mem _

/-- Rebuild an undoable phase after a step that did not touch job `k`:
worker structure preserved, `k`-events unchanged, registry membership
monotone. -/
theorem uphase_frame {c c' : Config} {k : Nat} {j : UJob}
    (hp : UPhase c k j)
    (hsole : ∀ code, soleW (isWorkU k) c.threads code →
      soleW (isWorkU k) c'.threads code)
    (hnone : noneW (isWorkU k) c.threads → noneW (isWorkU k) c'.threads)
    (hacc : Event.accepted k ∈ c'.hist ↔ Event.accepted k ∈ c.hist)
    (htim : Event.timedOut k ∈ c'.hist ↔ Event.timedOut k ∈ c.hist)
    (hrem : Event.removedU k ∈ c'.hist ↔ Event.removedU k ∈ c.hist)
    (hret : ∀ v, Event.undoRet k v ∈ c'.hist ↔ Event.undoRet k v ∈ c.hist)
    (hcount : countE (.ranAction k) c'.hist = countE (.ranAction k) c.hist)
    (hundo : k ∈ c.undo → k ∈ c'.undo) : UPhase c' k j := by
  rcases hp with ⟨hs, h2, h3, h4, h5, h6, h7, h8⟩ |
    ⟨hs, h2, h3, h4, h5, h6, h7, h8⟩ | ⟨hs, h2, h3, h4, h5, h6, h7, h8⟩ |
    ⟨hs, h2, h3, h4, h5, h6, h7⟩ | ⟨hs, h2, h3, h4, h5, h6, h7, h8⟩ |
    ⟨hs, h2, h3, h4, h5, h6⟩
  · exact Or.inl ⟨hsole _ hs, fun hh => h2 (hacc.mp hh),
      hcount.trans h3, fun hh => h4 (htim.mp hh),
      fun hh => h5 (hrem.mp hh), h6,
      fun v hh => h7 v ((hret v).mp hh), fun ht => hundo (h8 ht)⟩
  · exact Or.inr (Or.inl ⟨hsole _ hs, hacc.mpr h2,
      hcount.trans h3, fun hh => h4 (htim.mp hh),
      fun hh => h5 (hrem.mp hh), h6,
      fun v hh => h7 v ((hret v).mp hh), hundo h8⟩)
  · obtain ⟨v, hv, hs⟩ := hs
    exact Or.inr (Or.inr (Or.inl ⟨⟨v, hv, hsole _ hs⟩, hacc.mpr h2,
      hcount.trans h3, fun hh => h4 (htim.mp hh),
      fun hh => h5 (hrem.mp hh), h6,
      fun v' hh => h7 v' ((hret v').mp hh), hundo h8⟩))
  · exact Or.inr (Or.inr (Or.inr (Or.inl ⟨hsole _ hs,
      fun hh => h2 (hacc.mp hh), hcount.trans h3,
      htim.mpr h4, fun hh => h5 (hrem.mp hh), h6,
      fun v hh => h7 v ((hret v).mp hh)⟩)))
  · exact Or.inr (Or.inr (Or.inr (Or.inr (Or.inl ⟨hnone hs,
      hacc.mpr h2, hcount.trans h3,
      fun hh => h4 (htim.mp hh),
      fun hh => h5 (hrem.mp hh), h6,
      fun v hh => h7 v ((hret v).mp hh), hundo h8⟩))))
  · exact Or.inr (Or.inr (Or.inr (Or.inr (Or.inr ⟨hnone hs,
      fun hh => h2 (hacc.mp hh), hcount.trans h3,
      htim.mpr h4, h5,
      fun v hh => h6 v ((hret v).mp hh)⟩))))

/-- Rebuild a cancelable phase after a step that did not touch job `k`. -/
theorem tphase_frame {c c' : Config} {k : Nat}
    (hp : TPhase c k)
    (hsole : ∀ code, soleW (isWorkC k) c.threads code →
      soleW (isWorkC k) c'.threads code)
    (hnone : noneW (isWorkC k) c.threads → noneW (isWorkC k) c'.threads)
    (hcount : countE (.ranAction k) c'.hist = countE (.ranAction k) c.hist)
    (hraise : ∀ e, Event.actionRaised k e ∈ c'.hist →
      Event.actionRaised k e ∈ c.hist) : TPhase c' k := by
  rcases hp with ⟨⟨beh, hs⟩, h2, h3⟩ | ⟨⟨beh, hs⟩, h2, h3⟩ | ⟨hs, h2, h3⟩ |
    ⟨hs, h2, h3⟩ | ⟨hs, h2⟩
  · exact Or.inl ⟨⟨beh, hsole _ hs⟩, hcount.trans h2,
      fun e hh => h3 e (hraise e hh)⟩
  · exact Or.inr (Or.inl ⟨⟨beh, hsole _ hs⟩, hcount.trans h2,
      fun e hh => h3 e (hraise e hh)⟩)
  · exact Or.inr (Or.inr (Or.inl ⟨hsole _ hs, hcount.trans h2,
      fun e hh => h3 e (hraise e hh)⟩))
  · exact Or.inr (Or.inr (Or.inr (Or.inl ⟨hsole _ hs, hcount.trans h2,
      fun e hh => h3 e (hraise e hh)⟩)))
  · exact Or.inr (Or.inr (Or.inr (Or.inr ⟨hnone hs, hcount ▸ h2⟩)))

theorem mem_cons_iff_ne {α : Type} {e e0 : α} {hl : List α} (hne : e ≠ e0) :
    e ∈ e0 :: hl ↔ e ∈ hl := by
  constructor
  · intro hh
    rcases List.mem_cons.mp hh with rfl | hh
    · exact absurd rfl hne
    · exact hh
  · exact List.mem_cons_of_mem _

theorem countE_eq_zero {e : Event} {l : List Event} (h : e ∉ l) :
    countE e l = 0 := by
  rcases Nat.eq_zero_or_pos (countE e l) with h0 | h0
  · exact h0
  · exact absurd (countE_pos_iff_mem.mp h0) h

/-- Per-key undoable invariant is preserved by any step that leaves job `k`'s
object, worker structure, `k`-events and registry membership alone. -/
theorem uinv_frame {c c' : Config} {k : Nat} (hu : UInv c k)
    (hjobs : findA k c'.jobs = findA k c.jobs)
    (hsole : ∀ code, soleW (isWorkU k) c.threads code →
      soleW (isWorkU k) c'.threads code)
    (hnone : noneW (isWorkU k) c.threads → noneW (isWorkU k) c'.threads)
    (hacc : Event.accepted k ∈ c'.hist ↔ Event.accepted k ∈ c.hist)
    (htim : Event.timedOut k ∈ c'.hist ↔ Event.timedOut k ∈ c.hist)
    (hrem : Event.removedU k ∈ c'.hist ↔ Event.removedU k ∈ c.hist)
    (hret : ∀ v, Event.undoRet k v ∈ c'.hist ↔ Event.undoRet k v ∈ c.hist)
    (hcount : findA k c.jobs ≠ none →
      countE (.ranAction k) c'.hist = countE (.ranAction k) c.hist)
    (hundo : k ∈ c.undo → k ∈ c'.undo) : UInv c' k := by
  rw [UInv] at hu ⊢
  rw [hjobs]
  cases hj : findA k c.jobs with
  | some j =>
      rw [hj] at hu
      exact uphase_frame hu hsole hnone hacc htim hrem hret
        (hcount (by simp [hj])) hundo
  | none =>
      rw [hj] at hu
      obtain ⟨h1, h2, h3, h4, h5⟩ := hu
      exact ⟨hnone h1, fun hh => h2 (hacc.mp hh), fun hh => h3 (htim.mp hh),
        fun hh => h4 (hrem.mp hh), fun v hh => h5 v ((hret v).mp hh)⟩

/-- Per-key cancelable invariant is preserved by any step that leaves timer
`k`'s object and worker structure alone. -/
theorem tinv_frame {c c' : Config} {k : Nat} (ht : TInv c k)
    (htimers : findA k c'.timers = none ↔ findA k c.timers = none)
    (hsole : ∀ code, soleW (isWorkC k) c.threads code →
      soleW (isWorkC k) c'.threads code)
    (hnone : noneW (isWorkC k) c.threads → noneW (isWorkC k) c'.threads)
    (hcount : findA k c.timers ≠ none →
      countE (.ranAction k) c'.hist = countE (.ranAction k) c.hist)
    (hraise : findA k c.timers ≠ none → ∀ e,
      Event.actionRaised k e ∈ c'.hist → Event.actionRaised k e ∈ c.hist) :
    TInv c' k := by
  rw [TInv] at ht ⊢
  cases hk : findA k c.timers with
  | some b =>
      rw [hk] at ht
      cases hk' : findA k c'.timers with
      | none =>
          rw [hk] at htimers
          simp [hk'] at htimers
      | some b' =>
          exact tphase_frame ht hsole hnone (hcount (by simp [hk]))
            (hraise (by simp [hk]))
  | none =>
      rw [hk] at ht
      cases hk' : findA k c'.timers with
      | none => exact hnone ht
      | some b' =>
          rw [hk'] at htimers
          simp [hk] at htimers

theorem findA_setA_none_of {α : Type} {k t : Nat} {v : α}
    {l : List (Nat × α)} (h : findA k l = none) :
    findA k (setA t v l) = none := by
  by_cases ht : k = t
  · subst ht
    rw [findA_setA_self, h]
    rfl
  · rw [findA_setA_ne ht]
    exact h

/-- A worker sitting at the timeout-path `del` implies the deadline elapsed
without the trigger being accepted. -/
theorem uDel_timedOut {c : Config} {t k : Nat} (hw : WFA c)
    (hu : UInv c k) (hf : findA t c.threads = some (.uDel k)) :
    Event.timedOut k ∈ c.hist ∧ Event.accepted k ∉ c.hist := by
  have hjob : findA k c.jobs ≠ none :=
    hw.workUJob _ (findA_mem hf) k (by simp [isWorkU])
  rw [UInv] at hu
  cases hj : findA k c.jobs with
  | none => exact absurd hj hjob
  | some j =>
      rw [hj] at hu
      rcases hu with ⟨hs, _⟩ | ⟨hs, _⟩ | ⟨hs, _⟩ |
        ⟨hs, h2, h3, h4, _⟩ | ⟨hs, _⟩ | ⟨hs, _⟩
      · cases soleW_code hs hf (by simp [isWorkU])
      · cases soleW_code hs hf (by simp [isWorkU])
      · obtain ⟨v, _, hs⟩ := hs
        cases soleW_code hs hf (by simp [isWorkU])
      · exact ⟨h4, h2⟩
      · exact absurd (noneW_no_code hs hf (by simp [isWorkU])) id
      · exact absurd (noneW_no_code hs hf (by simp [isWorkU])) id

theorem wfa_step {c c' : Config} {l : Label} (h : stepFn c l = some c')
    (hw : WFA c) (hu : ∀ k, UInv c k) : WFA c' := by
  have hv := stepFn_view h
  cases hv
  case viewNewC beh =>
      refine ⟨?_, ?_, ?_, ?_, hw.undoJob, ?_, ?_, ?_, ?_, ?_, ?_, ?_, ?_, ?_⟩
      · intro e he k hk
        rcases List.mem_cons.mp he with rfl | he
        · cases hk; exact Nat.lt_succ_self _
        · exact Nat.lt_succ_of_lt (hw.histBound e he k hk)
      · intro p hp
        rcases List.mem_cons.mp hp with rfl | hp
        · dsimp only; omega
        rcases List.mem_cons.mp hp with rfl | hp
        · dsimp only; omega
        · have := hw.tidBound p hp; dsimp only; omega
      · intro k hk
        by_cases hkn : c.next = k
        · subst hkn
          have := hw.jobIssued _ hk
          have := hw.histBound _ this _ rfl
          omega
        · rw [findA_cons_ne hkn]
          exact hw.kindsU k hk
      · intro k hk
        exact findA_cons_not_none (hw.cancTim k hk)
      · intro k hk
        exact List.mem_cons_of_mem _ (hw.jobIssued k hk)
      · intro k hk
        by_cases hkn : c.next = k
        · subst hkn; exact List.mem_cons_self _ _
        · rw [findA_cons_ne hkn] at hk
          exact List.mem_cons_of_mem _ (hw.timIssued k hk)
      · intro k hk
        rcases List.mem_cons.mp hk with heq | hk
        · cases heq
        · exact hw.issuedJob k hk
      · intro k hk
        rcases List.mem_cons.mp hk with heq | hk
        · cases heq; simp [findA]
        · exact findA_cons_not_none (hw.issuedTim k hk)
      · intro p hp k' h'
        rcases List.mem_cons.mp hp with rfl | hp
        · cases h'
        rcases List.mem_cons.mp hp with rfl | hp
        · cases h'; simp [findA]
        · exact findA_cons_not_none (hw.launchCTim p hp k' h')
      · intro p hp k' h'
        rcases List.mem_cons.mp hp with rfl | hp
        · cases h'
        rcases List.mem_cons.mp hp with rfl | hp
        · cases h'
        · exact hw.launchUJob p hp k' h'
      · intro p hp k' h'
        rcases List.mem_cons.mp hp with rfl | hp
        · simp [isWorkU] at h'
        rcases List.mem_cons.mp hp with rfl | hp
        · simp [isWorkU] at h'
        · exact hw.workUJob p hp k' h'
      · intro p hp k' h'
        rcases List.mem_cons.mp hp with rfl | hp
        · simp [isWorkC] at h'
          subst h'
          simp [findA]
        rcases List.mem_cons.mp hp with rfl | hp
        · simp [isWorkC] at h'
        · exact findA_cons_not_none (hw.workCTim p hp k' h')
      · intro p hp k' b h'
        rcases List.mem_cons.mp hp with rfl | hp
        · cases h'
        rcases List.mem_cons.mp hp with rfl | hp
        · cases h'
        · rcases hw.undoPutIn p hp k' b h' with hm | hm
          · exact Or.inl hm
          · exact Or.inr (List.mem_cons_of_mem _ hm)
  case viewNewU beh =>
      refine ⟨?_, ?_, ?_, ?_, ?_, ?_, ?_, ?_, ?_, ?_, ?_, ?_, ?_, ?_⟩
      · intro e he k hk
        rcases List.mem_cons.mp he with rfl | he
        · cases hk; exact Nat.lt_succ_self _
        · exact Nat.lt_succ_of_lt (hw.histBound e he k hk)
      · intro p hp
        rcases List.mem_cons.mp hp with rfl | hp
        · dsimp only; omega
        rcases List.mem_cons.mp hp with rfl | hp
        · dsimp only; omega
        · have := hw.tidBound p hp; dsimp only; omega
      · intro k hk
        by_cases hkn : c.next = k
        · subst hkn
          cases hft : findA c.next c.timers with
          | none => rfl
          | some b =>
              have := wfa_tim_lt hw (show findA c.next c.timers ≠ none by
                simp [hft])
              omega
        · rw [findA_cons_ne hkn] at hk
          exact hw.kindsU k hk
      · intro k hk
        exact hw.cancTim k hk
      · intro k hk
        exact findA_cons_not_none (hw.undoJob k hk)
      · intro k hk
        by_cases hkn : c.next = k
        · subst hkn; exact List.mem_cons_self _ _
        · rw [findA_cons_ne hkn] at hk
          exact List.mem_cons_of_mem _ (hw.jobIssued k hk)
      · intro k hk
        exact List.mem_cons_of_mem _ (hw.timIssued k hk)
      · intro k hk
        rcases List.mem_cons.mp hk with heq | hk
        · cases heq; simp [findA]
        · exact findA_cons_not_none (hw.issuedJob k hk)
      · intro k hk
        rcases List.mem_cons.mp hk with heq | hk
        · cases heq
        · exact hw.issuedTim k hk
      · intro p hp k' h'
        rcases List.mem_cons.mp hp with rfl | hp
        · cases h'
        rcases List.mem_cons.mp hp with rfl | hp
        · cases h'
        · exact hw.launchCTim p hp k' h'
      · intro p hp k' h'
        rcases List.mem_cons.mp hp with rfl | hp
        · cases h'
        rcases List.mem_cons.mp hp with rfl | hp
        · cases h'; simp [findA]
        · exact findA_cons_not_none (hw.launchUJob p hp k' h')
      · intro p hp k' h'
        rcases List.mem_cons.mp hp with rfl | hp
        · simp [isWorkU] at h'
          subst h'
          simp [findA]
        rcases List.mem_cons.mp hp with rfl | hp
        · simp [isWorkU] at h'
        · exact findA_cons_not_none (hw.workUJob p hp k' h')
      · intro p hp k' h'
        rcases List.mem_cons.mp hp with rfl | hp
        · simp [isWorkC] at h'
        rcases List.mem_cons.mp hp with rfl | hp
        · simp [isWorkC] at h'
        · exact hw.workCTim p hp k' h'
      · intro p hp k' b h'
        rcases List.mem_cons.mp hp with rfl | hp
        · cases h'
        rcases List.mem_cons.mp hp with rfl | hp
        · cases h'
        · rcases hw.undoPutIn p hp k' b h' with hm | hm
          · exact Or.inl hm
          · exact Or.inr (List.mem_cons_of_mem _ hm)
  case viewCallC k0 =>
      refine ⟨hw.histBound, ?_, hw.kindsU, hw.cancTim, hw.undoJob,
        hw.jobIssued, hw.timIssued, hw.issuedJob, hw.issuedTim,
        ?_, ?_, ?_, ?_, ?_⟩
      · intro p hp
        rcases List.mem_cons.mp hp with rfl | hp
        · exact Nat.lt_succ_self _
        · exact Nat.lt_succ_of_lt (hw.tidBound p hp)
      · intro p hp k' h'
        rcases List.mem_cons.mp hp with rfl | hp
        · cases h'
        · exact hw.launchCTim p hp k' h'
      · intro p hp k' h'
        rcases List.mem_cons.mp hp with rfl | hp
        · cases h'
        · exact hw.launchUJob p hp k' h'
      · intro p hp k' h'
        rcases List.mem_cons.mp hp with rfl | hp
        · simp [isWorkU] at h'
        · exact hw.workUJob p hp k' h'
      · intro p hp k' h'
        rcases List.mem_cons.mp hp with rfl | hp
        · simp [isWorkC] at h'
        · exact hw.workCTim p hp k' h'
      · intro p hp k' b h'
        rcases List.mem_cons.mp hp with rfl | hp
        · cases h'
        · exact hw.undoPutIn p hp k' b h'
  case viewCallU k0 b0 =>
      refine ⟨hw.histBound, ?_, hw.kindsU, hw.cancTim, hw.undoJob,
        hw.jobIssued, hw.timIssued, hw.issuedJob, hw.issuedTim,
        ?_, ?_, ?_, ?_, ?_⟩
      · intro p hp
        rcases List.mem_cons.mp hp with rfl | hp
        · exact Nat.lt_succ_self _
        · exact Nat.lt_succ_of_lt (hw.tidBound p hp)
      · intro p hp k' h'
        rcases List.mem_cons.mp hp with rfl | hp
        · cases h'
        · exact hw.launchCTim p hp k' h'
      · intro p hp k' h'
        rcases List.mem_cons.mp hp with rfl | hp
        · cases h'
        · exact hw.launchUJob p hp k' h'
      · intro p hp k' h'
        rcases List.mem_cons.mp hp with rfl | hp
        · simp [isWorkU] at h'
        · exact hw.workUJob p hp k' h'
      · intro p hp k' h'
        rcases List.mem_cons.mp hp with rfl | hp
        · simp [isWorkC] at h'
        · exact hw.workCTim p hp k' h'
      · intro p hp k' b h'
        rcases List.mem_cons.mp hp with rfl | hp
        · cases h'
        · exact hw.undoPutIn p hp k' b h'
  case viewLaunchCIns tid k0 hf =>
      refine ⟨hw.histBound, ?_, hw.kindsU, ?_, hw.undoJob, hw.jobIssued,
        hw.timIssued, hw.issuedJob, hw.issuedTim, ?_, ?_, ?_, ?_, ?_⟩
      · intro p hp; exact hw.tidBound p (mem_eraseA hp).1
      · intro k hk
        rcases List.mem_cons.mp hk with rfl | hk
        · exact hw.launchCTim _ (findA_mem hf) k rfl
        · exact hw.cancTim k hk
      · intro p hp; exact hw.launchCTim p (mem_eraseA hp).1
      · intro p hp; exact hw.launchUJob p (mem_eraseA hp).1
      · intro p hp; exact hw.workUJob p (mem_eraseA hp).1
      · intro p hp; exact hw.workCTim p (mem_eraseA hp).1
      · intro p hp; exact hw.undoPutIn p (mem_eraseA hp).1
  case viewLaunchUIns tid k0 hf =>
      refine ⟨hw.histBound, ?_, hw.kindsU, hw.cancTim, ?_, hw.jobIssued,
        hw.timIssued, hw.issuedJob, hw.issuedTim, ?_, ?_, ?_, ?_, ?_⟩
      · intro p hp; exact hw.tidBound p (mem_eraseA hp).1
      · intro k hk
        rcases List.mem_cons.mp hk with rfl | hk
        · exact hw.launchUJob _ (findA_mem hf) k rfl
        · exact hw.undoJob k hk
      · intro p hp; exact hw.launchCTim p (mem_eraseA hp).1
      · intro p hp; exact hw.launchUJob p (mem_eraseA hp).1
      · intro p hp; exact hw.workUJob p (mem_eraseA hp).1
      · intro p hp; exact hw.workCTim p (mem_eraseA hp).1
      · intro p hp k' b h'
        rcases hw.undoPutIn p (mem_eraseA hp).1 k' b h' with hm | hm
        · exact Or.inl (List.mem_cons_of_mem _ hm)
        · exact Or.inr hm
  case viewTimerCancelled tid k0 beh hf hft =>
      refine ⟨hw.histBound, ?_, hw.kindsU, hw.cancTim, hw.undoJob,
        hw.jobIssued, hw.timIssued, hw.issuedJob, hw.issuedTim,
        ?_, ?_, ?_, ?_, ?_⟩
      · intro p hp; exact hw.tidBound p (mem_eraseA hp).1
      · intro p hp; exact hw.launchCTim p (mem_eraseA hp).1
      · intro p hp; exact hw.launchUJob p (mem_eraseA hp).1
      · intro p hp; exact hw.workUJob p (mem_eraseA hp).1
      · intro p hp; exact hw.workCTim p (mem_eraseA hp).1
      · intro p hp; exact hw.undoPutIn p (mem_eraseA hp).1
  case viewTimerRunOk tid k0 v hf =>
      have htim : findA k0 c.timers ≠ none :=
        hw.workCTim _ (findA_mem hf) k0 (by simp [isWorkC])
      refine ⟨?_, ?_, hw.kindsU, hw.cancTim, hw.undoJob, ?_, ?_, ?_, ?_,
        ?_, ?_, ?_, ?_, ?_⟩
      · intro e he k hk
        rcases List.mem_cons.mp he with rfl | he
        · injection hk with hk
          subst hk
          have h9 := wfa_tim_lt hw htim
          exact h9
        · exact hw.histBound e he k hk
      · intro p hp
        rcases mem_setA hp with rfl | ⟨hp, _⟩
        · have h9 := hw.tidBound _ (findA_mem hf)
          exact h9
        · exact hw.tidBound p hp
      · intro k hk; exact List.mem_cons_of_mem _ (hw.jobIssued k hk)
      · intro k hk; exact List.mem_cons_of_mem _ (hw.timIssued k hk)
      · intro k hk
        rcases List.mem_cons.mp hk with heq | hk
        · cases heq
        · exact hw.issuedJob k hk
      · intro k hk
        rcases List.mem_cons.mp hk with heq | hk
        · cases heq
        · exact hw.issuedTim k hk
      · intro p hp k' h'
        rcases mem_setA hp with rfl | ⟨hp, _⟩
        · cases h'
        · exact hw.launchCTim p hp k' h'
      · intro p hp k' h'
        rcases mem_setA hp with rfl | ⟨hp, _⟩
        · cases h'
        · exact hw.launchUJob p hp k' h'
      · intro p hp k' h'
        rcases mem_setA hp with rfl | ⟨hp, _⟩
        · simp [isWorkU] at h'
        · exact hw.workUJob p hp k' h'
      · intro p hp k' h'
        rcases mem_setA hp with rfl | ⟨hp, _⟩
        · simp [isWorkC] at h'
          subst h'
          exact htim
        · exact hw.workCTim p hp k' h'
      · intro p hp k' b h'
        rcases mem_setA hp with rfl | ⟨hp, _⟩
        · cases h'
        · rcases hw.undoPutIn p hp k' b h' with hm | hm
          · exact Or.inl hm
          · exact Or.inr (List.mem_cons_of_mem _ hm)
  case viewTimerRunErr tid k0 e0 hf =>
      have htim : findA k0 c.timers ≠ none :=
        hw.workCTim _ (findA_mem hf) k0 (by simp [isWorkC])
      refine ⟨?_, ?_, hw.kindsU, hw.cancTim, hw.undoJob, ?_, ?_, ?_, ?_,
        ?_, ?_, ?_, ?_, ?_⟩
      · intro e he k hk
        rcases List.mem_cons.mp he with rfl | he
        · injection hk with hk
          subst hk
          have h9 := wfa_tim_lt hw htim
          exact h9
        rcases List.mem_cons.mp he with rfl | he
        · injection hk with hk
          subst hk
          have h9 := wfa_tim_lt hw htim
          exact h9
        · exact hw.histBound e he k hk
      · intro p hp; exact hw.tidBound p (mem_eraseA hp).1
      · intro k hk
        exact List.mem_cons_of_mem _ (List.mem_cons_of_mem _ (hw.jobIssued k hk))
      · intro k hk
        exact List.mem_cons_of_mem _ (List.mem_cons_of_mem _ (hw.timIssued k hk))
      · intro k hk
        rcases List.mem_cons.mp hk with heq | hk
        · cases heq
        rcases List.mem_cons.mp hk with heq | hk
        · cases heq
        · exact hw.issuedJob k hk
      · intro k hk
        rcases List.mem_cons.mp hk with heq | hk
        · cases heq
        rcases List.mem_cons.mp hk with heq | hk
        · cases heq
        · exact hw.issuedTim k hk
      · intro p hp; exact hw.launchCTim p (mem_eraseA hp).1
      · intro p hp; exact hw.launchUJob p (mem_eraseA hp).1
      · intro p hp; exact hw.workUJob p (mem_eraseA hp).1
      · intro p hp; exact hw.workCTim p (mem_eraseA hp).1
      · intro p hp k' b h'
        rcases hw.undoPutIn p (mem_eraseA hp).1 k' b h' with hm | hm
        · exact Or.inl hm
        · exact Or.inr (List.mem_cons_of_mem _ (List.mem_cons_of_mem _ hm))
  case viewTimerCheckPos tid k0 hf hm =>
      refine ⟨hw.histBound, ?_, hw.kindsU, hw.cancTim, hw.undoJob,
        hw.jobIssued, hw.timIssued, hw.issuedJob, hw.issuedTim,
        ?_, ?_, ?_, ?_, ?_⟩
      · intro p hp
        rcases mem_setA hp with rfl | ⟨hp, _⟩
        · have h9 := hw.tidBound _ (findA_mem hf)
          exact h9
        · exact hw.tidBound p hp
      · intro p hp k' h'
        rcases mem_setA hp with rfl | ⟨hp, _⟩
        · cases h'
        · exact hw.launchCTim p hp k' h'
      · intro p hp k' h'
        rcases mem_setA hp with rfl | ⟨hp, _⟩
        · cases h'
        · exact hw.launchUJob p hp k' h'
      · intro p hp k' h'
        rcases mem_setA hp with rfl | ⟨hp, _⟩
        · simp [isWorkU] at h'
        · exact hw.workUJob p hp k' h'
      · intro p hp k' h'
        rcases mem_setA hp with rfl | ⟨hp, _⟩
        · simp [isWorkC] at h'
          subst h'
          exact hw.workCTim _ (findA_mem hf) k0 (by simp [isWorkC])
        · exact hw.workCTim p hp k' h'
      · intro p hp k' b h'
        rcases mem_setA hp with rfl | ⟨hp, _⟩
        · cases h'
        · exact hw.undoPutIn p hp k' b h'
  case viewTimerCheckNeg tid k0 hf hm =>
      refine ⟨hw.histBound, ?_, hw.kindsU, hw.cancTim, hw.undoJob,
        hw.jobIssued, hw.timIssued, hw.issuedJob, hw.issuedTim,
        ?_, ?_, ?_, ?_, ?_⟩
      · intro p hp; exact hw.tidBound p (mem_eraseA hp).1
      · intro p hp; exact hw.launchCTim p (mem_eraseA hp).1
      · intro p hp; exact hw.launchUJob p (mem_eraseA hp).1
      · intro p hp; exact hw.workUJob p (mem_eraseA hp).1
      · intro p hp; exact hw.workCTim p (mem_eraseA hp).1
      · intro p hp; exact hw.undoPutIn p (mem_eraseA hp).1
  case viewTimerDelPos tid k0 hf hm =>
      refine ⟨?_, ?_, hw.kindsU, ?_, hw.undoJob, ?_, ?_, ?_, ?_,
        ?_, ?_, ?_, ?_, ?_⟩
      · intro e he k hk
        rcases List.mem_cons.mp he with rfl | he
        · cases hk
        · exact hw.histBound e he k hk
      · intro p hp; exact hw.tidBound p (mem_eraseA hp).1
      · intro k hk; exact hw.cancTim k (mem_removeN.mp hk).1
      · intro k hk; exact List.mem_cons_of_mem _ (hw.jobIssued k hk)
      · intro k hk; exact List.mem_cons_of_mem _ (hw.timIssued k hk)
      · intro k hk
        rcases List.mem_cons.mp hk with heq | hk
        · cases heq
        · exact hw.issuedJob k hk
      · intro k hk
        rcases List.mem_cons.mp hk with heq | hk
        · cases heq
        · exact hw.issuedTim k hk
      · intro p hp; exact hw.launchCTim p (mem_eraseA hp).1
      · intro p hp; exact hw.launchUJob p (mem_eraseA hp).1
      · intro p hp; exact hw.workUJob p (mem_eraseA hp).1
      · intro p hp; exact hw.workCTim p (mem_eraseA hp).1
      · intro p hp k' b h'
        rcases hw.undoPutIn p (mem_eraseA hp).1 k' b h' with hm2 | hm2
        · exact Or.inl hm2
        · exact Or.inr (List.mem_cons_of_mem _ hm2)
  case viewTimerDelNeg tid k0 hf hm =>
      refine ⟨?_, ?_, hw.kindsU, hw.cancTim, hw.undoJob, ?_, ?_, ?_, ?_,
        ?_, ?_, ?_, ?_, ?_⟩
      · intro e he k hk
        rcases List.mem_cons.mp he with rfl | he
        · cases hk
        · exact hw.histBound e he k hk
      · intro p hp; exact hw.tidBound p (mem_eraseA hp).1
      · intro k hk; exact List.mem_cons_of_mem _ (hw.jobIssued k hk)
      · intro k hk; exact List.mem_cons_of_mem _ (hw.timIssued k hk)
      · intro k hk
        rcases List.mem_cons.mp hk with heq | hk
        · cases heq
        · exact hw.issuedJob k hk
      · intro k hk
        rcases List.mem_cons.mp hk with heq | hk
        · cases heq
        · exact hw.issuedTim k hk
      · intro p hp; exact hw.launchCTim p (mem_eraseA hp).1
      · intro p hp; exact hw.launchUJob p (mem_eraseA hp).1
      · intro p hp; exact hw.workUJob p (mem_eraseA hp).1
      · intro p hp; exact hw.workCTim p (mem_eraseA hp).1
      · intro p hp k' b h'
        rcases hw.undoPutIn p (mem_eraseA hp).1 k' b h' with hm2 | hm2
        · exact Or.inl hm2
        · exact Or.inr (List.mem_cons_of_mem _ hm2)
  case viewUWaitPop tid k0 beh j hf hj ht =>
      have hjob : findA k0 c.jobs ≠ none := by simp [hj]
      refine ⟨?_, ?_, ?_, hw.cancTim, ?_, ?_, ?_, ?_, ?_, ?_, ?_, ?_, ?_, ?_⟩
      · intro e he k hk
        rcases List.mem_cons.mp he with rfl | he
        · injection hk with hk
          subst hk
          have h9 := wfa_job_lt hw hjob
          exact h9
        · exact hw.histBound e he k hk
      · intro p hp
        rcases mem_setA hp with rfl | ⟨hp, _⟩
        · have h9 := hw.tidBound _ (findA_mem hf)
          exact h9
        · exact hw.tidBound p hp
      · intro k hk
        exact hw.kindsU k (fun hn => hk (findA_setA_none_of hn))
      · intro k hk; exact findA_setA_not_none (hw.undoJob k hk)
      · intro k hk
        exact List.mem_cons_of_mem _
          (hw.jobIssued k (fun hn => hk (findA_setA_none_of hn)))
      · intro k hk; exact List.mem_cons_of_mem _ (hw.timIssued k hk)
      · intro k hk
        rcases List.mem_cons.mp hk with heq | hk
        · cases heq
        · exact findA_setA_not_none (hw.issuedJob k hk)
      · intro k hk
        rcases List.mem_cons.mp hk with heq | hk
        · cases heq
        · exact hw.issuedTim k hk
      · intro p hp k' h'
        rcases mem_setA hp with rfl | ⟨hp, _⟩
        · cases h'
        · exact hw.launchCTim p hp k' h'
      · intro p hp k' h'
        rcases mem_setA hp with rfl | ⟨hp, _⟩
        · cases h'
        · exact findA_setA_not_none (hw.launchUJob p hp k' h')
      · intro p hp k' h'
        rcases mem_setA hp with rfl | ⟨hp, _⟩
        · simp [isWorkU] at h'
          subst h'
          exact findA_setA_not_none hjob
        · exact findA_setA_not_none (hw.workUJob p hp k' h')
      · intro p hp k' h'
        rcases mem_setA hp with rfl | ⟨hp, _⟩
        · simp [isWorkC] at h'
        · exact hw.workCTim p hp k' h'
      · intro p hp k' b h'
        rcases mem_setA hp with rfl | ⟨hp, _⟩
        · cases h'
        · rcases hw.undoPutIn p hp k' b h' with hm | hm
          · exact Or.inl hm
          · exact Or.inr (List.mem_cons_of_mem _ hm)
  case viewURunOk tid k0 v hf =>
      have hjob : findA k0 c.jobs ≠ none :=
        hw.workUJob _ (findA_mem hf) k0 (by simp [isWorkU])
      refine ⟨?_, ?_, hw.kindsU, hw.cancTim, hw.undoJob, ?_, ?_, ?_, ?_,
        ?_, ?_, ?_, ?_, ?_⟩
      · intro e he k hk
        rcases List.mem_cons.mp he with rfl | he
        · injection hk with hk
          subst hk
          have h9 := wfa_job_lt hw hjob
          exact h9
        · exact hw.histBound e he k hk
      · intro p hp
        rcases mem_setA hp with rfl | ⟨hp, _⟩
        · have h9 := hw.tidBound _ (findA_mem hf)
          exact h9
        · exact hw.tidBound p hp
      · intro k hk; exact List.mem_cons_of_mem _ (hw.jobIssued k hk)
      · intro k hk; exact List.mem_cons_of_mem _ (hw.timIssued k hk)
      · intro k hk
        rcases List.mem_cons.mp hk with heq | hk
        · cases heq
        · exact hw.issuedJob k hk
      · intro k hk
        rcases List.mem_cons.mp hk with heq | hk
        · cases heq
        · exact hw.issuedTim k hk
      · intro p hp k' h'
        rcases mem_setA hp with rfl | ⟨hp, _⟩
        · cases h'
        · exact hw.launchCTim p hp k' h'
      · intro p hp k' h'
        rcases mem_setA hp with rfl | ⟨hp, _⟩
        · cases h'
        · exact hw.launchUJob p hp k' h'
      · intro p hp k' h'
        rcases mem_setA hp with rfl | ⟨hp, _⟩
        · simp [isWorkU] at h'
          subst h'
          exact hjob
        · exact hw.workUJob p hp k' h'
      · intro p hp k' h'
        rcases mem_setA hp with rfl | ⟨hp, _⟩
        · simp [isWorkC] at h'
        · exact hw.workCTim p hp k' h'
      · intro p hp k' b h'
        rcases mem_setA hp with rfl | ⟨hp, _⟩
        · cases h'
        · rcases hw.undoPutIn p hp k' b h' with hm | hm
          · exact Or.inl hm
          · exact Or.inr (List.mem_cons_of_mem _ hm)
  case viewURunErr tid k0 e0 hf =>
      have hjob : findA k0 c.jobs ≠ none :=
        hw.workUJob _ (findA_mem hf) k0 (by simp [isWorkU])
      refine ⟨?_, ?_, hw.kindsU, hw.cancTim, hw.undoJob, ?_, ?_, ?_, ?_,
        ?_, ?_, ?_, ?_, ?_⟩
      · intro e he k hk
        rcases List.mem_cons.mp he with rfl | he
        · injection hk with hk
          subst hk
          have h9 := wfa_job_lt hw hjob
          exact h9
        rcases List.mem_cons.mp he with rfl | he
        · injection hk with hk
          subst hk
          have h9 := wfa_job_lt hw hjob
          exact h9
        · exact hw.histBound e he k hk
      · intro p hp; exact hw.tidBound p (mem_eraseA hp).1
      · intro k hk
        exact List.mem_cons_of_mem _ (List.mem_cons_of_mem _ (hw.jobIssued k hk))
      · intro k hk
        exact List.mem_cons_of_mem _ (List.mem_cons_of_mem _ (hw.timIssued k hk))
      · intro k hk
        rcases List.mem_cons.mp hk with heq | hk
        · cases heq
        rcases List.mem_cons.mp hk with heq | hk
        · cases heq
        · exact hw.issuedJob k hk
      · intro k hk
        rcases List.mem_cons.mp hk with heq | hk
        · cases heq
        rcases List.mem_cons.mp hk with heq | hk
        · cases heq
        · exact hw.issuedTim k hk
      · intro p hp; exact hw.launchCTim p (mem_eraseA hp).1
      · intro p hp; exact hw.launchUJob p (mem_eraseA hp).1
      · intro p hp; exact hw.workUJob p (mem_eraseA hp).1
      · intro p hp; exact hw.workCTim p (mem_eraseA hp).1
      · intro p hp k' b h'
        rcases hw.undoPutIn p (mem_eraseA hp).1 k' b h' with hm | hm
        · exact Or.inl hm
        · exact Or.inr (List.mem_cons_of_mem _ (List.mem_cons_of_mem _ hm))
  case viewUPut tid k0 v j hf hj =>
      refine ⟨hw.histBound, ?_, ?_, hw.cancTim, ?_, ?_, hw.timIssued,
        ?_, hw.issuedTim, ?_, ?_, ?_, ?_, ?_⟩
      · intro p hp; exact hw.tidBound p (mem_eraseA hp).1
      · intro k hk
        exact hw.kindsU k (fun hn => hk (findA_setA_none_of hn))
      · intro k hk; exact findA_setA_not_none (hw.undoJob k hk)
      · intro k hk
        exact hw.jobIssued k (fun hn => hk (findA_setA_none_of hn))
      · intro k hk; exact findA_setA_not_none (hw.issuedJob k hk)
      · intro p hp; exact hw.launchCTim p (mem_eraseA hp).1
      · intro p hp k' h'
        exact findA_setA_not_none (hw.launchUJob p (mem_eraseA hp).1 k' h')
      · intro p hp k' h'
        exact findA_setA_not_none (hw.workUJob p (mem_eraseA hp).1 k' h')
      · intro p hp; exact hw.workCTim p (mem_eraseA hp).1
      · intro p hp; exact hw.undoPutIn p (mem_eraseA hp).1
  case viewUDelPos tid k0 hf hm =>
      have hjob : findA k0 c.jobs ≠ none :=
        hw.workUJob _ (findA_mem hf) k0 (by simp [isWorkU])
      refine ⟨?_, ?_, hw.kindsU, hw.cancTim, ?_, ?_, ?_, ?_, ?_,
        ?_, ?_, ?_, ?_, ?_⟩
      · intro e he k hk
        rcases List.mem_cons.mp he with rfl | he
        · injection hk with hk
          subst hk
          have h9 := wfa_job_lt hw hjob
          exact h9
        · exact hw.histBound e he k hk
      · intro p hp; exact hw.tidBound p (mem_eraseA hp).1
      · intro k hk; exact hw.undoJob k (mem_removeN.mp hk).1
      · intro k hk; exact List.mem_cons_of_mem _ (hw.jobIssued k hk)
      · intro k hk; exact List.mem_cons_of_mem _ (hw.timIssued k hk)
      · intro k hk
        rcases List.mem_cons.mp hk with heq | hk
        · cases heq
        · exact hw.issuedJob k hk
      · intro k hk
        rcases List.mem_cons.mp hk with heq | hk
        · cases heq
        · exact hw.issuedTim k hk
      · intro p hp; exact hw.launchCTim p (mem_eraseA hp).1
      · intro p hp; exact hw.launchUJob p (mem_eraseA hp).1
      · intro p hp; exact hw.workUJob p (mem_eraseA hp).1
      · intro p hp; exact hw.workCTim p (mem_eraseA hp).1
      · intro p hp k' b h'
        rcases hw.undoPutIn p (mem_eraseA hp).1 k' b h' with hm2 | hm2
        · by_cases hk' : k' = k0
          · subst hk'
            exact Or.inr (List.mem_cons_of_mem _
              (uDel_timedOut hw (hu k') hf).1)
          · exact Or.inl (mem_removeN.mpr ⟨hm2, hk'⟩)
        · exact Or.inr (List.mem_cons_of_mem _ hm2)
  case viewUDelNeg tid k0 hf hm =>
      refine ⟨?_, ?_, hw.kindsU, hw.cancTim, hw.undoJob, ?_, ?_, ?_, ?_,
        ?_, ?_, ?_, ?_, ?_⟩
      · intro e he k hk
        rcases List.mem_cons.mp he with rfl | he
        · cases hk
        · exact hw.histBound e he k hk
      · intro p hp; exact hw.tidBound p (mem_eraseA hp).1
      · intro k hk; exact List.mem_cons_of_mem _ (hw.jobIssued k hk)
      · intro k hk; exact List.mem_cons_of_mem _ (hw.timIssued k hk)
      · intro k hk
        rcases List.mem_cons.mp hk with heq | hk
        · cases heq
        · exact hw.issuedJob k hk
      · intro k hk
        rcases List.mem_cons.mp hk with heq | hk
        · cases heq
        · exact hw.issuedTim k hk
      · intro p hp; exact hw.launchCTim p (mem_eraseA hp).1
      · intro p hp; exact hw.launchUJob p (mem_eraseA hp).1
      · intro p hp; exact hw.workUJob p (mem_eraseA hp).1
      · intro p hp; exact hw.workCTim p (mem_eraseA hp).1
      · intro p hp k' b h'
        rcases hw.undoPutIn p (mem_eraseA hp).1 k' b h' with hm2 | hm2
        · exact Or.inl hm2
        · exact Or.inr (List.mem_cons_of_mem _ hm2)
  case viewCLookupPos tid k0 hf hm =>
      refine ⟨hw.histBound, ?_, hw.kindsU, hw.cancTim, hw.undoJob,
        hw.jobIssued, hw.timIssued, hw.issuedJob, hw.issuedTim,
        ?_, ?_, ?_, ?_, ?_⟩
      · intro p hp
        rcases mem_setA hp with rfl | ⟨hp, _⟩
        · have h9 := hw.tidBound _ (findA_mem hf)
          exact h9
        · exact hw.tidBound p hp
      · intro p hp k' h'
        rcases mem_setA hp with rfl | ⟨hp, _⟩
        · cases h'
        · exact hw.launchCTim p hp k' h'
      · intro p hp k' h'
        rcases mem_setA hp with rfl | ⟨hp, _⟩
        · cases h'
        · exact hw.launchUJob p hp k' h'
      · intro p hp k' h'
        rcases mem_setA hp with rfl | ⟨hp, _⟩
        · simp [isWorkU] at h'
        · exact hw.workUJob p hp k' h'
      · intro p hp k' h'
        rcases mem_setA hp with rfl | ⟨hp, _⟩
        · simp [isWorkC] at h'
        · exact hw.workCTim p hp k' h'
      · intro p hp k' b h'
        rcases mem_setA hp with rfl | ⟨hp, _⟩
        · cases h'
        · exact hw.undoPutIn p hp k' b h'
  case viewCLookupNeg tid k0 hf hm =>
      refine ⟨?_, ?_, hw.kindsU, hw.cancTim, hw.undoJob, ?_, ?_, ?_, ?_,
        ?_, ?_, ?_, ?_, ?_⟩
      · intro e he k hk
        rcases List.mem_cons.mp he with rfl | he
        · cases hk
        · exact hw.histBound e he k hk
      · intro p hp; exact hw.tidBound p (mem_eraseA hp).1
      · intro k hk; exact List.mem_cons_of_mem _ (hw.jobIssued k hk)
      · intro k hk; exact List.mem_cons_of_mem _ (hw.timIssued k hk)
      · intro k hk
        rcases List.mem_cons.mp hk with heq | hk
        · cases heq
        · exact hw.issuedJob k hk
      · intro k hk
        rcases List.mem_cons.mp hk with heq | hk
        · cases heq
        · exact hw.issuedTim k hk
      · intro p hp; exact hw.launchCTim p (mem_eraseA hp).1
      · intro p hp; exact hw.launchUJob p (mem_eraseA hp).1
      · intro p hp; exact hw.workUJob p (mem_eraseA hp).1
      · intro p hp; exact hw.workCTim p (mem_eraseA hp).1
      · intro p hp k' b h'
        rcases hw.undoPutIn p (mem_eraseA hp).1 k' b h' with hm2 | hm2
        · exact Or.inl hm2
        · exact Or.inr (List.mem_cons_of_mem _ hm2)
  case viewCDelPos tid k0 hf hm =>
      refine ⟨?_, ?_, ?_, ?_, hw.undoJob, ?_, ?_, ?_, ?_,
        ?_, ?_, ?_, ?_, ?_⟩
      · intro e he k hk
        rcases List.mem_cons.mp he with rfl | he
        · cases hk
        rcases List.mem_cons.mp he with rfl | he
        · cases hk
        · exact hw.histBound e he k hk
      · intro p hp; exact hw.tidBound p (mem_eraseA hp).1
      · intro k hk; exact findA_setA_none_of (hw.kindsU k hk)
      · intro k hk
        exact findA_setA_not_none (hw.cancTim k (mem_removeN.mp hk).1)
      · intro k hk
        exact List.mem_cons_of_mem _ (List.mem_cons_of_mem _ (hw.jobIssued k hk))
      · intro k hk
        exact List.mem_cons_of_mem _ (List.mem_cons_of_mem _
          (hw.timIssued k (fun hn => hk (findA_setA_none_of hn))))
      · intro k hk
        rcases List.mem_cons.mp hk with heq | hk
        · cases heq
        rcases List.mem_cons.mp hk with heq | hk
        · cases heq
        · exact hw.issuedJob k hk
      · intro k hk
        rcases List.mem_cons.mp hk with heq | hk
        · cases heq
        rcases List.mem_cons.mp hk with heq | hk
        · cases heq
        · exact findA_setA_not_none (hw.issuedTim k hk)
      · intro p hp k' h'
        exact findA_setA_not_none (hw.launchCTim p (mem_eraseA hp).1 k' h')
      · intro p hp; exact hw.launchUJob p (mem_eraseA hp).1
      · intro p hp; exact hw.workUJob p (mem_eraseA hp).1
      · intro p hp k' h'
        exact findA_setA_not_none (hw.workCTim p (mem_eraseA hp).1 k' h')
      · intro p hp k' b h'
        rcases hw.undoPutIn p (mem_eraseA hp).1 k' b h' with hm2 | hm2
        · exact Or.inl hm2
        · exact Or.inr (List.mem_cons_of_mem _ (List.mem_cons_of_mem _ hm2))
  case viewCDelNeg tid k0 hf hm =>
      refine ⟨?_, ?_, ?_, ?_, hw.undoJob, ?_, ?_, ?_, ?_,
        ?_, ?_, ?_, ?_, ?_⟩
      · intro e he k hk
        rcases List.mem_cons.mp he with rfl | he
        · cases hk
        · exact hw.histBound e he k hk
      · intro p hp; exact hw.tidBound p (mem_eraseA hp).1
      · intro k hk; exact findA_setA_none_of (hw.kindsU k hk)
      · intro k hk; exact findA_setA_not_none (hw.cancTim k hk)
      · intro k hk; exact List.mem_cons_of_mem _ (hw.jobIssued k hk)
      · intro k hk
        exact List.mem_cons_of_mem _
          (hw.timIssued k (fun hn => hk (findA_setA_none_of hn)))
      · intro k hk
        rcases List.mem_cons.mp hk with heq | hk
        · cases heq
        · exact hw.issuedJob k hk
      · intro k hk
        rcases List.mem_cons.mp hk with heq | hk
        · cases heq
        · exact findA_setA_not_none (hw.issuedTim k hk)
      · intro p hp k' h'
        exact findA_setA_not_none (hw.launchCTim p (mem_eraseA hp).1 k' h')
      · intro p hp; exact hw.launchUJob p (mem_eraseA hp).1
      · intro p hp; exact hw.workUJob p (mem_eraseA hp).1
      · intro p hp k' h'
        exact findA_setA_not_none (hw.workCTim p (mem_eraseA hp).1 k' h')
      · intro p hp k' b h'
        rcases hw.undoPutIn p (mem_eraseA hp).1 k' b h' with hm2 | hm2
        · exact Or.inl hm2
        · exact Or.inr (List.mem_cons_of_mem _ hm2)
  case viewUndoLookupPos tid k0 b0 hf hm =>
      refine ⟨hw.histBound, ?_, hw.kindsU, hw.cancTim, hw.undoJob,
        hw.jobIssued, hw.timIssued, hw.issuedJob, hw.issuedTim,
        ?_, ?_, ?_, ?_, ?_⟩
      · intro p hp
        rcases mem_setA hp with rfl | ⟨hp, _⟩
        · have h9 := hw.tidBound _ (findA_mem hf)
          exact h9
        · exact hw.tidBound p hp
      · intro p hp k' h'
        rcases mem_setA hp with rfl | ⟨hp, _⟩
        · cases h'
        · exact hw.launchCTim p hp k' h'
      · intro p hp k' h'
        rcases mem_setA hp with rfl | ⟨hp, _⟩
        · cases h'
        · exact hw.launchUJob p hp k' h'
      · intro p hp k' h'
        rcases mem_setA hp with rfl | ⟨hp, _⟩
        · simp [isWorkU] at h'
        · exact hw.workUJob p hp k' h'
      · intro p hp k' h'
        rcases mem_setA hp with rfl | ⟨hp, _⟩
        · simp [isWorkC] at h'
        · exact hw.workCTim p hp k' h'
      · intro p hp k' b h'
        rcases mem_setA hp with rfl | ⟨hp, _⟩
        · cases h'
          exact Or.inl hm
        · exact hw.undoPutIn p hp k' b h'
  case viewUndoLookupNeg tid k0 b0 hf hm =>
      refine ⟨?_, ?_, hw.kindsU, hw.cancTim, hw.undoJob, ?_, ?_, ?_, ?_,
        ?_, ?_, ?_, ?_, ?_⟩
      · intro e he k hk
        rcases List.mem_cons.mp he with rfl | he
        · cases hk
        · exact hw.histBound e he k hk
      · intro p hp; exact hw.tidBound p (mem_eraseA hp).1
      · intro k hk; exact List.mem_cons_of_mem _ (hw.jobIssued k hk)
      · intro k hk; exact List.mem_cons_of_mem _ (hw.timIssued k hk)
      · intro k hk
        rcases List.mem_cons.mp hk with heq | hk
        · cases heq
        · exact hw.issuedJob k hk
      · intro k hk
        rcases List.mem_cons.mp hk with heq | hk
        · cases heq
        · exact hw.issuedTim k hk
      · intro p hp; exact hw.launchCTim p (mem_eraseA hp).1
      · intro p hp; exact hw.launchUJob p (mem_eraseA hp).1
      · intro p hp; exact hw.workUJob p (mem_eraseA hp).1
      · intro p hp; exact hw.workCTim p (mem_eraseA hp).1
      · intro p hp k' b h'
        rcases hw.undoPutIn p (mem_eraseA hp).1 k' b h' with hm2 | hm2
        · exact Or.inl hm2
        · exact Or.inr (List.mem_cons_of_mem _ hm2)
  case viewUndoPut tid k0 b0 j hf hj =>
      refine ⟨?_, ?_, ?_, hw.cancTim, ?_, ?_, ?_, ?_, ?_,
        ?_, ?_, ?_, ?_, ?_⟩
      · intro e he k hk
        rcases List.mem_cons.mp he with rfl | he
        · cases hk
        · exact hw.histBound e he k hk
      · intro p hp
        rcases mem_setA hp with rfl | ⟨hp, _⟩
        · have h9 := hw.tidBound _ (findA_mem hf)
          exact h9
        · exact hw.tidBound p hp
      · intro k hk
        exact hw.kindsU k (fun hn => hk (findA_setA_none_of hn))
      · intro k hk; exact findA_setA_not_none (hw.undoJob k hk)
      · intro k hk
        exact List.mem_cons_of_mem _
          (hw.jobIssued k (fun hn => hk (findA_setA_none_of hn)))
      · intro k hk; exact List.mem_cons_of_mem _ (hw.timIssued k hk)
      · intro k hk
        rcases List.mem_cons.mp hk with heq | hk
        · cases heq
        · exact findA_setA_not_none (hw.issuedJob k hk)
      · intro k hk
        rcases List.mem_cons.mp hk with heq | hk
        · cases heq
        · exact hw.issuedTim k hk
      · intro p hp k' h'
        rcases mem_setA hp with rfl | ⟨hp, _⟩
        · cases h'
        · exact hw.launchCTim p hp k' h'
      · intro p hp k' h'
        rcases mem_setA hp with rfl | ⟨hp, _⟩
        · cases h'
        · exact findA_setA_not_none (hw.launchUJob p hp k' h')
      · intro p hp k' h'
        rcases mem_setA hp with rfl | ⟨hp, _⟩
        · simp [isWorkU] at h'
        · exact findA_setA_not_none (hw.workUJob p hp k' h')
      · intro p hp k' h'
        rcases mem_setA hp with rfl | ⟨hp, _⟩
        · simp [isWorkC] at h'
        · exact hw.workCTim p hp k' h'
      · intro p hp k' b h'
        rcases mem_setA hp with rfl | ⟨hp, _⟩
        · cases h'
        · rcases hw.undoPutIn p hp k' b h' with hm2 | hm2
          · exact Or.inl hm2
          · exact Or.inr (List.mem_cons_of_mem _ hm2)
  case viewUndoGetPop tid k0 b0 j v rest hf hj hr =>
      have hjob : findA k0 c.jobs ≠ none := by simp [hj]
      refine ⟨?_, ?_, ?_, hw.cancTim, ?_, ?_, ?_, ?_, ?_,
        ?_, ?_, ?_, ?_, ?_⟩
      · intro e he k hk
        rcases List.mem_cons.mp he with rfl | he
        · injection hk with hk
          subst hk
          have h9 := wfa_job_lt hw hjob
          exact h9
        · exact hw.histBound e he k hk
      · intro p hp; exact hw.tidBound p (mem_eraseA hp).1
      · intro k hk
        exact hw.kindsU k (fun hn => hk (findA_setA_none_of hn))
      · intro k hk; exact findA_setA_not_none (hw.undoJob k hk)
      · intro k hk
        exact List.mem_cons_of_mem _
          (hw.jobIssued k (fun hn => hk (findA_setA_none_of hn)))
      · intro k hk; exact List.mem_cons_of_mem _ (hw.timIssued k hk)
      · intro k hk
        rcases List.mem_cons.mp hk with heq | hk
        · cases heq
        · exact findA_setA_not_none (hw.issuedJob k hk)
      · intro k hk
        rcases List.mem_cons.mp hk with heq | hk
        · cases heq
        · exact hw.issuedTim k hk
      · intro p hp; exact hw.launchCTim p (mem_eraseA hp).1
      · intro p hp k' h'
        exact findA_setA_not_none (hw.launchUJob p (mem_eraseA hp).1 k' h')
      · intro p hp k' h'
        exact findA_setA_not_none (hw.workUJob p (mem_eraseA hp).1 k' h')
      · intro p hp; exact hw.workCTim p (mem_eraseA hp).1
      · intro p hp k' b h'
        rcases hw.undoPutIn p (mem_eraseA hp).1 k' b h' with hm2 | hm2
        · exact Or.inl hm2
        · exact Or.inr (List.mem_cons_of_mem _ hm2)
  case viewTimerElapse tid k0 beh hf hft =>
      refine ⟨hw.histBound, ?_, hw.kindsU, hw.cancTim, hw.undoJob,
        hw.jobIssued, hw.timIssued, hw.issuedJob, hw.issuedTim,
        ?_, ?_, ?_, ?_, ?_⟩
      · intro p hp
        rcases mem_setA hp with rfl | ⟨hp, _⟩
        · have h9 := hw.tidBound _ (findA_mem hf)
          exact h9
        · exact hw.tidBound p hp
      · intro p hp k' h'
        rcases mem_setA hp with rfl | ⟨hp, _⟩
        · cases h'
        · exact hw.launchCTim p hp k' h'
      · intro p hp k' h'
        rcases mem_setA hp with rfl | ⟨hp, _⟩
        · cases h'
        · exact hw.launchUJob p hp k' h'
      · intro p hp k' h'
        rcases mem_setA hp with rfl | ⟨hp, _⟩
        · simp [isWorkU] at h'
        · exact hw.workUJob p hp k' h'
      · intro p hp k' h'
        rcases mem_setA hp with rfl | ⟨hp, _⟩
        · simp [isWorkC] at h'
          subst h'
          simp [hft]
        · exact hw.workCTim p hp k' h'
      · intro p hp k' b h'
        rcases mem_setA hp with rfl | ⟨hp, _⟩
        · cases h'
        · exact hw.undoPutIn p hp k' b h'
  case viewUWaitEmpty tid k0 beh j hf hj ht =>
      have hjob : findA k0 c.jobs ≠ none := by simp [hj]
      refine ⟨?_, ?_, hw.kindsU, hw.cancTim, hw.undoJob, ?_, ?_, ?_, ?_,
        ?_, ?_, ?_, ?_, ?_⟩
      · intro e he k hk
        rcases List.mem_cons.mp he with rfl | he
        · injection hk with hk
          subst hk
          have h9 := wfa_job_lt hw hjob
          exact h9
        · exact hw.histBound e he k hk
      · intro p hp
        rcases mem_setA hp with rfl | ⟨hp, _⟩
        · have h9 := hw.tidBound _ (findA_mem hf)
          exact h9
        · exact hw.tidBound p hp
      · intro k hk; exact List.mem_cons_of_mem _ (hw.jobIssued k hk)
      · intro k hk; exact List.mem_cons_of_mem _ (hw.timIssued k hk)
      · intro k hk
        rcases List.mem_cons.mp hk with heq | hk
        · cases heq
        · exact hw.issuedJob k hk
      · intro k hk
        rcases List.mem_cons.mp hk with heq | hk
        · cases heq
        · exact hw.issuedTim k hk
      · intro p hp k' h'
        rcases mem_setA hp with rfl | ⟨hp, _⟩
        · cases h'
        · exact hw.launchCTim p hp k' h'
      · intro p hp k' h'
        rcases mem_setA hp with rfl | ⟨hp, _⟩
        · cases h'
        · exact hw.launchUJob p hp k' h'
      · intro p hp k' h'
        rcases mem_setA hp with rfl | ⟨hp, _⟩
        · simp [isWorkU] at h'
          subst h'
          exact hjob
        · exact hw.workUJob p hp k' h'
      · intro p hp k' h'
        rcases mem_setA hp with rfl | ⟨hp, _⟩
        · simp [isWorkC] at h'
        · exact hw.workCTim p hp k' h'
      · intro p hp k' b h'
        rcases mem_setA hp with rfl | ⟨hp, _⟩
        · cases h'
        · rcases hw.undoPutIn p hp k' b h' with hm2 | hm2
          · exact Or.inl hm2
          · exact Or.inr (List.mem_cons_of_mem _ hm2)
  case viewUndoGetEmpty tid k0 j hf hj hr =>
      refine ⟨?_, ?_, hw.kindsU, hw.cancTim, hw.undoJob, ?_, ?_, ?_, ?_,
        ?_, ?_, ?_, ?_, ?_⟩
      · intro e he k hk
        rcases List.mem_cons.mp he with rfl | he
        · cases hk
        · exact hw.histBound e he k hk
      · intro p hp; exact hw.tidBound p (mem_eraseA hp).1
      · intro k hk; exact List.mem_cons_of_mem _ (hw.jobIssued k hk)
      · intro k hk; exact List.mem_cons_of_mem _ (hw.timIssued k hk)
      · intro k hk
        rcases List.mem_cons.mp hk with heq | hk
        · cases heq
        · exact hw.issuedJob k hk
      · intro k hk
        rcases List.mem_cons.mp hk with heq | hk
        · cases heq
        · exact hw.issuedTim k hk
      · intro p hp; exact hw.launchCTim p (mem_eraseA hp).1
      · intro p hp; exact hw.launchUJob p (mem_eraseA hp).1
      · intro p hp; exact hw.workUJob p (mem_eraseA hp).1
      · intro p hp; exact hw.workCTim p (mem_eraseA hp).1
      · intro p hp k' b h'
        rcases hw.undoPutIn p (mem_eraseA hp).1 k' b h' with hm2 | hm2
        · exact Or.inl hm2
        · exact Or.inr (List.mem_cons_of_mem _ hm2)

theorem keys_ne_of_bound {ts : List (Nat × TCode)} {n a : Nat}
    (hb : ∀ p ∈ ts, p.1 < n) (ha : n ≤ a) : ∀ p ∈ ts, p.1 ≠ a :=
  fun p hp hh => by have := hb p hp; omega

/-- Changing only `trig` of the job object preserves its phase, as long as a
positive trigger count still implies registry membership. -/
theorem uphase_trig_bump {c : Config} {k : Nat} {j : UJob} {n : Nat}
    (hp : UPhase c k j) (hin : Event.timedOut k ∉ c.hist → k ∈ c.undo) :
    UPhase c k ({ j with trig := n }) := by
  rcases hp with ⟨hs, h2, h3, h4, h5, h6, h7, h8⟩ | hh | hh | hh | hh | hh
  · exact Or.inl ⟨hs, h2, h3, h4, h5, h6, h7, fun _ => hin h4⟩
  · exact Or.inr (Or.inl hh)
  · exact Or.inr (Or.inr (Or.inl hh))
  · exact Or.inr (Or.inr (Or.inr (Or.inl hh)))
  · exact Or.inr (Or.inr (Or.inr (Or.inr (Or.inl hh))))
  · exact Or.inr (Or.inr (Or.inr (Or.inr (Or.inr hh))))

theorem uinv_step {c c' : Config} {l : Label} (h : stepFn c l = some c')
    (hw : WFA c) (hu : ∀ k, UInv c k) (k : Nat) : UInv c' k := by
  have hv := stepFn_view h
  cases hv
  case viewNewC beh =>
      have ha1 : ∀ p ∈ c.threads, p.1 ≠ c.tnext + 1 :=
        keys_ne_of_bound hw.tidBound (by omega)
      have ha0 : ∀ p ∈ ((c.tnext + 1, TCode.launchCIns c.next) :: c.threads),
          p.1 ≠ c.tnext := by
        intro p hp
        rcases List.mem_cons.mp hp with rfl | hp
        · simp
        · have := hw.tidBound p hp; omega
      refine uinv_frame (hu k) rfl
        (fun code hs => soleW_cons_frame
          (soleW_cons_frame hs (c.tnext + 1) (.launchCIns c.next) ha1 rfl)
          c.tnext (.timerWait c.next beh) ha0 rfl)
        (fun hn => noneW_cons
          (noneW_cons hn (c.tnext + 1) (.launchCIns c.next) rfl)
          c.tnext (.timerWait c.next beh) rfl)
        (mem_cons_iff_ne (by simp)) (mem_cons_iff_ne (by simp))
        (mem_cons_iff_ne (by simp)) (fun v => mem_cons_iff_ne (by simp))
        (fun _ => countE_cons_ne (by simp) _) (fun hh => hh)
  case viewNewU beh =>
      by_cases hkn : k = c.next
      · subst hkn
        have hfresh : ∀ e ∈ c.hist, evKeyOf e ≠ some c.next :=
          fun e he hk2 => by have := hw.histBound e he _ hk2; omega
        rw [UInv]
        have hjobs : findA c.next
            ((c.next, (⟨beh, 0, []⟩ : UJob)) :: c.jobs) =
            some (⟨beh, 0, []⟩ : UJob) := by simp [findA]
        rw [hjobs]
        refine Or.inl ⟨⟨by simp [isWorkU], c.tnext, by simp [findA], ?_⟩,
          ?_, ?_, ?_, ?_, rfl, ?_, ?_⟩
        · intro p hp hwp
          rcases List.mem_cons.mp hp with rfl | hp
          · rfl
          rcases List.mem_cons.mp hp with rfl | hp
          · simp [isWorkU] at hwp
          · exact absurd (hw.workUJob p hp c.next hwp)
              (fun hj => by have := wfa_job_lt hw hj; omega)
        · intro hh
          rcases List.mem_cons.mp hh with heq | hh
          · cases heq
          · exact hfresh _ hh rfl
        · rw [countE_cons_ne (by simp)]
          exact countE_eq_zero (fun hh => hfresh _ hh rfl)
        · intro hh
          rcases List.mem_cons.mp hh with heq | hh
          · cases heq
          · exact hfresh _ hh rfl
        · intro hh
          rcases List.mem_cons.mp hh with heq | hh
          · cases heq
          · exact hfresh _ hh rfl
        · intro v hh
          rcases List.mem_cons.mp hh with heq | hh
          · cases heq
          · exact hfresh _ hh rfl
        · intro hh
          exact absurd hh (Nat.lt_irrefl 0)
      · have hnk : c.next ≠ k := fun hh => hkn hh.symm
        have ha1 : ∀ p ∈ c.threads, p.1 ≠ c.tnext + 1 :=
          keys_ne_of_bound hw.tidBound (by omega)
        have ha0 : ∀ p ∈ ((c.tnext + 1, TCode.launchUIns c.next) :: c.threads),
            p.1 ≠ c.tnext := by
          intro p hp
          rcases List.mem_cons.mp hp with rfl | hp
          · simp
          · have := hw.tidBound p hp; omega
        refine uinv_frame (hu k) (findA_cons_ne hnk _ _)
          (fun code hs => soleW_cons_frame
            (soleW_cons_frame hs (c.tnext + 1) (.launchUIns c.next) ha1 rfl)
            c.tnext (.uWait c.next beh) ha0 (by simp [isWorkU, hnk]))
          (fun hn => noneW_cons
            (noneW_cons hn (c.tnext + 1) (.launchUIns c.next) rfl)
            c.tnext (.uWait c.next beh) (by simp [isWorkU, hnk]))
          (mem_cons_iff_ne (by simp)) (mem_cons_iff_ne (by simp))
          (mem_cons_iff_ne (by simp)) (fun v => mem_cons_iff_ne (by simp))
          (fun _ => countE_cons_ne (by simp) _) (fun hh => hh)
  case viewCallC k0 =>
      have ha0 : ∀ p ∈ c.threads, p.1 ≠ c.tnext :=
        keys_ne_of_bound hw.tidBound (by omega)
      exact uinv_frame (hu k) rfl
        (fun code hs => soleW_cons_frame hs c.tnext (.cLookup k0) ha0 rfl)
        (fun hn => noneW_cons hn c.tnext (.cLookup k0) rfl)
        Iff.rfl Iff.rfl Iff.rfl (fun v => Iff.rfl)
        (fun _ => rfl) (fun hh => hh)
  case viewCallU k0 b0 =>
      have ha0 : ∀ p ∈ c.threads, p.1 ≠ c.tnext :=
        keys_ne_of_bound hw.tidBound (by omega)
      exact uinv_frame (hu k) rfl
        (fun code hs => soleW_cons_frame hs c.tnext (.undoLookup k0 b0) ha0 rfl)
        (fun hn => noneW_cons hn c.tnext (.undoLookup k0 b0) rfl)
        Iff.rfl Iff.rfl Iff.rfl (fun v => Iff.rfl)
        (fun _ => rfl) (fun hh => hh)
  case viewLaunchCIns tid k0 hf =>
      exact uinv_frame (hu k) rfl
        (fun code hs => soleW_eraseA_frame hs hf rfl)
        (fun hn => noneW_eraseA hn tid)
        Iff.rfl Iff.rfl Iff.rfl (fun v => Iff.rfl)
        (fun _ => rfl) (fun hh => hh)
  case viewLaunchUIns tid k0 hf =>
      exact uinv_frame (hu k) rfl
        (fun code hs => soleW_eraseA_frame hs hf rfl)
        (fun hn => noneW_eraseA hn tid)
        Iff.rfl Iff.rfl Iff.rfl (fun v => Iff.rfl)
        (fun _ => rfl) (fun hh => List.mem_cons_of_mem _ hh)
  case viewTimerCancelled tid k0 beh hf hft =>
      exact uinv_frame (hu k) rfl
        (fun code hs => soleW_eraseA_frame hs hf rfl)
        (fun hn => noneW_eraseA hn tid)
        Iff.rfl Iff.rfl Iff.rfl (fun v => Iff.rfl)
        (fun _ => rfl) (fun hh => hh)
  case viewTimerRunOk tid k0 v hf =>
      have htim : findA k0 c.timers ≠ none :=
        hw.workCTim _ (findA_mem hf) k0 (by simp [isWorkC])
      refine uinv_frame (hu k) rfl
        (fun code hs => soleW_setA_frame hs hf rfl _ rfl)
        (fun hn => noneW_setA hn tid _ rfl)
        (mem_cons_iff_ne (by simp)) (mem_cons_iff_ne (by simp))
        (mem_cons_iff_ne (by simp)) (fun v' => mem_cons_iff_ne (by simp))
        ?_ (fun hh => hh)
      intro hjob
      have hk0 : k0 ≠ k := by
        intro hh
        subst hh
        exact htim (hw.kindsU k0 hjob)
      exact countE_cons_ne (by intro hh; injection hh with hh; exact hk0 hh) _
  case viewTimerRunErr tid k0 e0 hf =>
      have htim : findA k0 c.timers ≠ none :=
        hw.workCTim _ (findA_mem hf) k0 (by simp [isWorkC])
      refine uinv_frame (hu k) rfl
        (fun code hs => soleW_eraseA_frame hs hf rfl)
        (fun hn => noneW_eraseA hn tid)
        ((mem_cons_iff_ne (by simp)).trans (mem_cons_iff_ne (by simp)))
        ((mem_cons_iff_ne (by simp)).trans (mem_cons_iff_ne (by simp)))
        ((mem_cons_iff_ne (by simp)).trans (mem_cons_iff_ne (by simp)))
        (fun v' => (mem_cons_iff_ne (by simp)).trans (mem_cons_iff_ne (by simp)))
        ?_ (fun hh => hh)
      intro hjob
      have hk0 : k0 ≠ k := by
        intro hh
        subst hh
        exact htim (hw.kindsU k0 hjob)
      rw [countE_cons_ne (by simp),
        countE_cons_ne (by intro hh; injection hh with hh; exact hk0 hh)]
  case viewTimerCheckPos tid k0 hf hm =>
      exact uinv_frame (hu k) rfl
        (fun code hs => soleW_setA_frame hs hf rfl _ rfl)
        (fun hn => noneW_setA hn tid _ rfl)
        Iff.rfl Iff.rfl Iff.rfl (fun v => Iff.rfl)
        (fun _ => rfl) (fun hh => hh)
  case viewTimerCheckNeg tid k0 hf hm =>
      exact uinv_frame (hu k) rfl
        (fun code hs => soleW_eraseA_frame hs hf rfl)
        (fun hn => noneW_eraseA hn tid)
        Iff.rfl Iff.rfl Iff.rfl (fun v => Iff.rfl)
        (fun _ => rfl) (fun hh => hh)
  case viewTimerDelPos tid k0 hf hm =>
      exact uinv_frame (hu k) rfl
        (fun code hs => soleW_eraseA_frame hs hf rfl)
        (fun hn => noneW_eraseA hn tid)
        (mem_cons_iff_ne (by simp)) (mem_cons_iff_ne (by simp))
        (mem_cons_iff_ne (by simp)) (fun v => mem_cons_iff_ne (by simp))
        (fun _ => countE_cons_ne (by simp) _) (fun hh => hh)
  case viewTimerDelNeg tid k0 hf hm =>
      exact uinv_frame (hu k) rfl
        (fun code hs => soleW_eraseA_frame hs hf rfl)
        (fun hn => noneW_eraseA hn tid)
        (mem_cons_iff_ne (by simp)) (mem_cons_iff_ne (by simp))
        (mem_cons_iff_ne (by simp)) (fun v => mem_cons_iff_ne (by simp))
        (fun _ => countE_cons_ne (by simp) _) (fun hh => hh)
  case viewCLookupPos tid k0 hf hm =>
      exact uinv_frame (hu k) rfl
        (fun code hs => soleW_setA_frame hs hf rfl _ rfl)
        (fun hn => noneW_setA hn tid _ rfl)
        Iff.rfl Iff.rfl Iff.rfl (fun v => Iff.rfl)
        (fun _ => rfl) (fun hh => hh)
  case viewCLookupNeg tid k0 hf hm =>
      exact uinv_frame (hu k) rfl
        (fun code hs => soleW_eraseA_frame hs hf rfl)
        (fun hn => noneW_eraseA hn tid)
        (mem_cons_iff_ne (by simp)) (mem_cons_iff_ne (by simp))
        (mem_cons_iff_ne (by simp)) (fun v => mem_cons_iff_ne (by simp))
        (fun _ => countE_cons_ne (by simp) _) (fun hh => hh)
  case viewCDelPos tid k0 hf hm =>
      exact uinv_frame (hu k) rfl
        (fun code hs => soleW_eraseA_frame hs hf rfl)
        (fun hn => noneW_eraseA hn tid)
        ((mem_cons_iff_ne (by simp)).trans (mem_cons_iff_ne (by simp)))
        ((mem_cons_iff_ne (by simp)).trans (mem_cons_iff_ne (by simp)))
        ((mem_cons_iff_ne (by simp)).trans (mem_cons_iff_ne (by simp)))
        (fun v => (mem_cons_iff_ne (by simp)).trans (mem_cons_iff_ne (by simp)))
        (fun _ => by rw [countE_cons_ne (by simp), countE_cons_ne (by simp)])
        (fun hh => hh)
  case viewCDelNeg tid k0 hf hm =>
      exact uinv_frame (hu k) rfl
        (fun code hs => soleW_eraseA_frame hs hf rfl)
        (fun hn => noneW_eraseA hn tid)
        (mem_cons_iff_ne (by simp)) (mem_cons_iff_ne (by simp))
        (mem_cons_iff_ne (by simp)) (fun v => mem_cons_iff_ne (by simp))
        (fun _ => countE_cons_ne (by simp) _) (fun hh => hh)
  case viewUndoLookupPos tid k0 b0 hf hm =>
      exact uinv_frame (hu k) rfl
        (fun code hs => soleW_setA_frame hs hf rfl _ rfl)
        (fun hn => noneW_setA hn tid _ rfl)
        Iff.rfl Iff.rfl Iff.rfl (fun v => Iff.rfl)
        (fun _ => rfl) (fun hh => hh)
  case viewUndoLookupNeg tid k0 b0 hf hm =>
      exact uinv_frame (hu k) rfl
        (fun code hs => soleW_eraseA_frame hs hf rfl)
        (fun hn => noneW_eraseA hn tid)
        (mem_cons_iff_ne (by simp)) (mem_cons_iff_ne (by simp))
        (mem_cons_iff_ne (by simp)) (fun v => mem_cons_iff_ne (by simp))
        (fun _ => countE_cons_ne (by simp) _) (fun hh => hh)
  case viewTimerElapse tid k0 beh hf hft =>
      exact uinv_frame (hu k) rfl
        (fun code hs => soleW_setA_frame hs hf rfl _ rfl)
        (fun hn => noneW_setA hn tid _ rfl)
        Iff.rfl Iff.rfl Iff.rfl (fun v => Iff.rfl)
        (fun _ => rfl) (fun hh => hh)
  case viewUndoGetEmpty tid k0 j hf hj hr =>
      exact uinv_frame (hu k) rfl
        (fun code hs => soleW_eraseA_frame hs hf rfl)
        (fun hn => noneW_eraseA hn tid)
        (mem_cons_iff_ne (by simp)) (mem_cons_iff_ne (by simp))
        (mem_cons_iff_ne (by simp)) (fun v => mem_cons_iff_ne (by simp))
        (fun _ => countE_cons_ne (by simp) _) (fun hh => hh)
  case viewUWaitPop tid k0 beh j hf hj ht =>
      by_cases hkk : k = k0
      · subst hkk
        have hup := hu k
        rw [UInv, hj] at hup
        rw [UInv]
        have hjobs2 : findA k (setA k ({ j with trig := j.trig - 1 }) c.jobs) = some ({ j with trig := j.trig - 1 }) := by
          rw [findA_setA_self, hj]; rfl
        rw [hjobs2]
        rcases hup with ⟨hs, hacc, hcnt, htim, hrem, hretq, hret, htrig⟩ |
          ⟨hs, h2⟩ | ⟨hs2, h2⟩ | ⟨hs, h2⟩ | ⟨hs, h2⟩ | ⟨hs, h2⟩
        · have hb := soleW_code hs hf (by simp [isWorkU])
          injection hb with hb1 hb2
          subst hb2
          refine Or.inr (Or.inl ⟨?_, List.mem_cons_self _ _, ?_, ?_, ?_,
            hretq, ?_, htrig ht⟩)
          · exact soleW_advance hs hf (.uRun k j.beh) (by simp [isWorkU])
          · exact (countE_cons_ne (by simp) _).trans hcnt
          · exact fun hh => htim ((mem_cons_iff_ne (by simp)).mp hh)
          · exact fun hh => hrem ((mem_cons_iff_ne (by simp)).mp hh)
          · exact fun v hh => hret v ((mem_cons_iff_ne (by simp)).mp hh)
        · cases soleW_code hs hf (by simp [isWorkU])
        · obtain ⟨v', hv', hs⟩ := hs2
          cases soleW_code hs hf (by simp [isWorkU])
        · cases soleW_code hs hf (by simp [isWorkU])
        · exact (noneW_no_code hs hf (by simp [isWorkU])).elim
        · exact (noneW_no_code hs hf (by simp [isWorkU])).elim
      · have hne0 : (k0 == k) = false := beq_false_of_ne (fun hh => hkk hh.symm)
        exact uinv_frame (hu k) (findA_setA_ne hkk _ _)
          (fun code hs => soleW_setA_frame hs hf hne0 (.uRun k0 beh) hne0)
          (fun hn => noneW_setA hn tid (.uRun k0 beh) hne0)
          (mem_cons_iff_ne (by intro hh; injection hh with hh; exact hkk hh))
          (mem_cons_iff_ne (by simp)) (mem_cons_iff_ne (by simp))
          (fun v => mem_cons_iff_ne (by simp))
          (fun _ => countE_cons_ne (by simp) _) (fun hh => hh)
  case viewURunOk tid k0 v hf =>
      by_cases hkk : k = k0
      · subst hkk
        have hjob : findA k c.jobs ≠ none :=
          hw.workUJob _ (findA_mem hf) k (by simp [isWorkU])
        have hup := hu k
        rw [UInv] at hup ⊢
        cases hj : findA k c.jobs with
        | none => exact absurd hj hjob
        | some j =>
            rw [hj] at hup
            rcases hup with ⟨hs, h2⟩ |
              ⟨hs, hacc, hcnt, htim, hrem, hretq, hret, hmem⟩ |
              ⟨hs2, h2⟩ | ⟨hs, h2⟩ | ⟨hs, h2⟩ | ⟨hs, h2⟩
            · cases soleW_code hs hf (by simp [isWorkU])
            · have hb := soleW_code hs hf (by simp [isWorkU])
              injection hb with hb1 hb2
              refine Or.inr (Or.inr (Or.inl ⟨⟨v, hb2.symm, ?_⟩,
                List.mem_cons_of_mem _ hacc, ?_, ?_, ?_, hretq, ?_, hmem⟩))
              · rw [← hb2] at hs
                exact soleW_advance hs hf (.uPut k v) (by simp [isWorkU])
              · rw [countE_cons_self, hcnt]
              · exact fun hh => htim ((mem_cons_iff_ne (by simp)).mp hh)
              · exact fun hh => hrem ((mem_cons_iff_ne (by simp)).mp hh)
              · exact fun v' hh => hret v' ((mem_cons_iff_ne (by simp)).mp hh)
            · obtain ⟨v', hv', hs⟩ := hs2
              cases soleW_code hs hf (by simp [isWorkU])
            · cases soleW_code hs hf (by simp [isWorkU])
            · exact (noneW_no_code hs hf (by simp [isWorkU])).elim
            · exact (noneW_no_code hs hf (by simp [isWorkU])).elim
      · have hne0 : (k0 == k) = false := beq_false_of_ne (fun hh => hkk hh.symm)
        exact uinv_frame (hu k) rfl
          (fun code hs => soleW_setA_frame hs hf hne0 (.uPut k0 v) hne0)
          (fun hn => noneW_setA hn tid (.uPut k0 v) hne0)
          (mem_cons_iff_ne (by simp)) (mem_cons_iff_ne (by simp))
          (mem_cons_iff_ne (by simp)) (fun v' => mem_cons_iff_ne (by simp))
          (fun _ => countE_cons_ne
            (by intro hh; injection hh with hh; exact hkk hh.symm) _)
          (fun hh => hh)
  case viewURunErr tid k0 e0 hf =>
      by_cases hkk : k = k0
      · subst hkk
        have hjob : findA k c.jobs ≠ none :=
          hw.workUJob _ (findA_mem hf) k (by simp [isWorkU])
        have hup := hu k
        rw [UInv] at hup ⊢
        cases hj : findA k c.jobs with
        | none => exact absurd hj hjob
        | some j =>
            rw [hj] at hup
            rcases hup with ⟨hs, h2⟩ |
              ⟨hs, hacc, hcnt, htim, hrem, hretq, hret, hmem⟩ |
              ⟨hs2, h2⟩ | ⟨hs, h2⟩ | ⟨hs, h2⟩ | ⟨hs, h2⟩
            · cases soleW_code hs hf (by simp [isWorkU])
            · have hb := soleW_code hs hf (by simp [isWorkU])
              injection hb with hb1 hb2
              rw [← hb2] at hs
              refine Or.inr (Or.inr (Or.inr (Or.inr (Or.inl
                ⟨soleW_finish_erase hs hf, ?_, ?_, ?_, ?_, ?_, ?_, hmem⟩))))
              · exact List.mem_cons_of_mem _ (List.mem_cons_of_mem _ hacc)
              · rw [countE_cons_ne (by simp), countE_cons_self, hcnt]
              · exact fun hh => htim ((mem_cons_iff_ne (by simp)).mp
                  ((mem_cons_iff_ne (by simp)).mp hh))
              · exact fun hh => hrem ((mem_cons_iff_ne (by simp)).mp
                  ((mem_cons_iff_ne (by simp)).mp hh))
              · intro x hx
                rw [hretq] at hx
                cases hx
              · intro v' hh
                exact absurd ((mem_cons_iff_ne (by simp)).mp
                  ((mem_cons_iff_ne (by simp)).mp hh)) (hret v')
            · obtain ⟨v', hv', hs⟩ := hs2
              cases soleW_code hs hf (by simp [isWorkU])
            · cases soleW_code hs hf (by simp [isWorkU])
            · exact (noneW_no_code hs hf (by simp [isWorkU])).elim
            · exact (noneW_no_code hs hf (by simp [isWorkU])).elim
      · have hne0 : (k0 == k) = false := beq_false_of_ne (fun hh => hkk hh.symm)
        exact uinv_frame (hu k) rfl
          (fun code hs => soleW_eraseA_frame hs hf hne0)
          (fun hn => noneW_eraseA hn tid)
          ((mem_cons_iff_ne (by simp)).trans (mem_cons_iff_ne (by simp)))
          ((mem_cons_iff_ne (by simp)).trans (mem_cons_iff_ne (by simp)))
          ((mem_cons_iff_ne (by simp)).trans (mem_cons_iff_ne (by simp)))
          (fun v' => (mem_cons_iff_ne (by simp)).trans
            (mem_cons_iff_ne (by simp)))
          (fun _ => by
            rw [countE_cons_ne (by simp), countE_cons_ne
              (by intro hh; injection hh with hh; exact hkk hh.symm)])
          (fun hh => hh)
  case viewUPut tid k0 v j hf hj =>
      by_cases hkk : k = k0
      · subst hkk
        have hup := hu k
        rw [UInv, hj] at hup
        rw [UInv]
        have hjobs2 : findA k (setA k ({ j with retq := j.retq ++ [v] }) c.jobs) = some ({ j with retq := j.retq ++ [v] }) := by
          rw [findA_setA_self, hj]; rfl
        rw [hjobs2]
        rcases hup with ⟨hs, h2⟩ | ⟨hs, h2⟩ |
          ⟨hs2, hacc, hcnt, htim, hrem, hretq, hret, hmem⟩ |
          ⟨hs, h2⟩ | ⟨hs, h2⟩ | ⟨hs, h2⟩
        · cases soleW_code hs hf (by simp [isWorkU])
        · cases soleW_code hs hf (by simp [isWorkU])
        · obtain ⟨v', hv', hs⟩ := hs2
          have hb := soleW_code hs hf (by simp [isWorkU])
          injection hb with hb1 hb2
          subst hb2
          refine Or.inr (Or.inr (Or.inr (Or.inr (Or.inl
            ⟨soleW_finish_erase hs hf, hacc, hcnt, htim, hrem, ?_, ?_,
              hmem⟩))))
          · intro x hx
            rw [hretq] at hx
            simp at hx
            rw [hx]
            exact hv'
          · exact fun v2 hh => absurd hh (hret v2)
        · cases soleW_code hs hf (by simp [isWorkU])
        · exact (noneW_no_code hs hf (by simp [isWorkU])).elim
        · exact (noneW_no_code hs hf (by simp [isWorkU])).elim
      · have hne0 : (k0 == k) = false := beq_false_of_ne (fun hh => hkk hh.symm)
        exact uinv_frame (hu k) (findA_setA_ne hkk _ _)
          (fun code hs => soleW_eraseA_frame hs hf hne0)
          (fun hn => noneW_eraseA hn tid)
          Iff.rfl Iff.rfl Iff.rfl (fun v' => Iff.rfl)
          (fun _ => rfl) (fun hh => hh)
  case viewUDelPos tid k0 hf hm =>
      by_cases hkk : k = k0
      · subst hkk
        have hjob : findA k c.jobs ≠ none :=
          hw.workUJob _ (findA_mem hf) k (by simp [isWorkU])
        have hup := hu k
        rw [UInv] at hup ⊢
        cases hj : findA k c.jobs with
        | none => exact absurd hj hjob
        | some j =>
            rw [hj] at hup
            rcases hup with ⟨hs, h2⟩ | ⟨hs, h2⟩ | ⟨hs2, h2⟩ |
              ⟨hs, hacc, hcnt, htim, hrem, hretq, hret⟩ |
              ⟨hs, h2⟩ | ⟨hs, h2⟩
            · cases soleW_code hs hf (by simp [isWorkU])
            · cases soleW_code hs hf (by simp [isWorkU])
            · obtain ⟨v', hv', hs⟩ := hs2
              cases soleW_code hs hf (by simp [isWorkU])
            · refine Or.inr (Or.inr (Or.inr (Or.inr (Or.inr
                ⟨soleW_finish_erase hs hf, ?_, ?_,
                  List.mem_cons_of_mem _ htim, hretq, ?_⟩))))
              · exact fun hh => hacc ((mem_cons_iff_ne (by simp)).mp hh)
              · exact (countE_cons_ne (by simp) _).trans hcnt
              · exact fun v hh => hret v ((mem_cons_iff_ne (by simp)).mp hh)
            · exact (noneW_no_code hs hf (by simp [isWorkU])).elim
            · exact (noneW_no_code hs hf (by simp [isWorkU])).elim
      · have hne0 : (k0 == k) = false := beq_false_of_ne (fun hh => hkk hh.symm)
        exact uinv_frame (hu k) rfl
          (fun code hs => soleW_eraseA_frame hs hf hne0)
          (fun hn => noneW_eraseA hn tid)
          (mem_cons_iff_ne (by simp)) (mem_cons_iff_ne (by simp))
          (mem_cons_iff_ne (by intro hh; injection hh with hh; exact hkk hh))
          (fun v => mem_cons_iff_ne (by simp))
          (fun _ => countE_cons_ne (by simp) _)
          (fun hh => mem_removeN.mpr ⟨hh, hkk⟩)
  case viewUDelNeg tid k0 hf hm =>
      by_cases hkk : k = k0
      · subst hkk
        have hjob : findA k c.jobs ≠ none :=
          hw.workUJob _ (findA_mem hf) k (by simp [isWorkU])
        have hup := hu k
        rw [UInv] at hup ⊢
        cases hj : findA k c.jobs with
        | none => exact absurd hj hjob
        | some j =>
            rw [hj] at hup
            rcases hup with ⟨hs, h2⟩ | ⟨hs, h2⟩ | ⟨hs2, h2⟩ |
              ⟨hs, hacc, hcnt, htim, hrem, hretq, hret⟩ |
              ⟨hs, h2⟩ | ⟨hs, h2⟩
            · cases soleW_code hs hf (by simp [isWorkU])
            · cases soleW_code hs hf (by simp [isWorkU])
            · obtain ⟨v', hv', hs⟩ := hs2
              cases soleW_code hs hf (by simp [isWorkU])
            · refine Or.inr (Or.inr (Or.inr (Or.inr (Or.inr
                ⟨soleW_finish_erase hs hf, ?_, ?_,
                  List.mem_cons_of_mem _ htim, hretq, ?_⟩))))
              · exact fun hh => hacc ((mem_cons_iff_ne (by simp)).mp hh)
              · exact (countE_cons_ne (by simp) _).trans hcnt
              · exact fun v hh => hret v ((mem_cons_iff_ne (by simp)).mp hh)
            · exact (noneW_no_code hs hf (by simp [isWorkU])).elim
            · exact (noneW_no_code hs hf (by simp [isWorkU])).elim
      · exact uinv_frame (hu k) rfl
          (fun code hs => soleW_eraseA_frame hs hf
            (beq_false_of_ne (fun hh => hkk hh.symm)))
          (fun hn => noneW_eraseA hn tid)
          (mem_cons_iff_ne (by simp)) (mem_cons_iff_ne (by simp))
          (mem_cons_iff_ne (by simp)) (fun v => mem_cons_iff_ne (by simp))
          (fun _ => countE_cons_ne (by simp) _) (fun hh => hh)
  case viewUndoPut tid k0 b0 j hf hj =>
      by_cases hkk : k = k0
      · subst hkk
        have hup := hu k
        rw [UInv, hj] at hup
        rw [UInv]
        have hjobs2 : findA k (setA k ({ j with trig := j.trig + 1 }) c.jobs) = some ({ j with trig := j.trig + 1 }) := by
          rw [findA_setA_self, hj]; rfl
        rw [hjobs2]
        have hin : Event.timedOut k ∉ c.hist → k ∈ c.undo := by
          intro hnt
          rcases hw.undoPutIn _ (findA_mem hf) k b0 rfl with hm2 | hm2
          · exact hm2
          · exact absurd hm2 hnt
        refine uphase_frame (uphase_trig_bump hup hin) ?_ ?_ ?_ ?_ ?_ ?_ ?_ ?_
        · exact fun code hs => soleW_setA_frame hs hf rfl (.undoGet k b0) rfl
        · exact fun hn => noneW_setA hn tid (.undoGet k b0) rfl
        · exact mem_cons_iff_ne (by simp)
        · exact mem_cons_iff_ne (by simp)
        · exact mem_cons_iff_ne (by simp)
        · exact fun v => mem_cons_iff_ne (by simp)
        · exact countE_cons_ne (by simp) _
        · exact fun hh => hh
      · exact uinv_frame (hu k) (findA_setA_ne hkk _ _)
          (fun code hs => soleW_setA_frame hs hf rfl (.undoGet k0 b0) rfl)
          (fun hn => noneW_setA hn tid (.undoGet k0 b0) rfl)
          (mem_cons_iff_ne (by simp)) (mem_cons_iff_ne (by simp))
          (mem_cons_iff_ne (by simp)) (fun v => mem_cons_iff_ne (by simp))
          (fun _ => countE_cons_ne (by simp) _) (fun hh => hh)
  case viewUndoGetPop tid k0 b0 j v rest hf hj hr =>
      by_cases hkk : k = k0
      · subst hkk
        have hup := hu k
        rw [UInv, hj] at hup
        rw [UInv]
        have hjobs2 : findA k (setA k ({ j with retq := rest }) c.jobs) = some ({ j with retq := rest }) := by
          rw [findA_setA_self, hj]; rfl
        rw [hjobs2]
        rcases hup with ⟨hs, h2, h3, h4, h5, hretq, h6⟩ |
          ⟨hs, h2, h3, h4, h5, hretq, h6⟩ |
          ⟨hs2, h2, h3, h4, h5, hretq, h6⟩ |
          ⟨hs, h2, h3, h4, h5, hretq, h6⟩ |
          ⟨hn, hacc, hcnt, htim, hrem, hretc, hreti, hmem⟩ |
          ⟨hn, h2, h3, h4, hretq, h6⟩
        · rw [hretq] at hr; cases hr
        · rw [hretq] at hr; cases hr
        · rw [hretq] at hr; cases hr
        · rw [hretq] at hr; cases hr
        · refine Or.inr (Or.inr (Or.inr (Or.inr (Or.inl
            ⟨noneW_eraseA hn tid, List.mem_cons_of_mem _ hacc, ?_, ?_, ?_,
              ?_, ?_, hmem⟩))))
          · exact (countE_cons_ne (by simp) _).trans hcnt
          · exact fun hh => htim ((mem_cons_iff_ne (by simp)).mp hh)
          · exact fun hh => hrem ((mem_cons_iff_ne (by simp)).mp hh)
          · intro x hx
            exact hretc x (by rw [hr]; exact List.mem_cons_of_mem _ hx)
          · intro v2 hh
            rcases List.mem_cons.mp hh with heq | hh
            · injection heq with he1 he2
              rw [he2]
              exact hretc v (by rw [hr]; exact List.mem_cons_self _ _)
            · exact hreti v2 hh
        · rw [hretq] at hr; cases hr
      · exact uinv_frame (hu k) (findA_setA_ne hkk _ _)
          (fun code hs => soleW_eraseA_frame hs hf rfl)
          (fun hn => noneW_eraseA hn tid)
          (mem_cons_iff_ne (by simp)) (mem_cons_iff_ne (by simp))
          (mem_cons_iff_ne (by simp))
          (fun v2 => mem_cons_iff_ne
            (by intro hh; injection hh with h1 h2; exact hkk h1))
          (fun _ => countE_cons_ne (by simp) _) (fun hh => hh)
  case viewUWaitEmpty tid k0 beh j hf hj ht =>
      by_cases hkk : k = k0
      · subst hkk
        have hup := hu k
        rw [UInv, hj] at hup
        rw [UInv, hj]
        rcases hup with ⟨hs, hacc, hcnt, htim, hrem, hretq, hret, htrig⟩ |
          ⟨hs, h2⟩ | ⟨hs2, h2⟩ | ⟨hs, h2⟩ | ⟨hs, h2⟩ | ⟨hs, h2⟩
        · have hb := soleW_code hs hf (by simp [isWorkU])
          injection hb with hb1 hb2
          subst hb2
          refine Or.inr (Or.inr (Or.inr (Or.inl ⟨?_, ?_, ?_,
            List.mem_cons_self _ _, ?_, hretq, ?_⟩)))
          · exact soleW_advance hs hf (.uDel k) (by simp [isWorkU])
          · exact fun hh => hacc ((mem_cons_iff_ne (by simp)).mp hh)
          · exact (countE_cons_ne (by simp) _).trans hcnt
          · exact fun hh => hrem ((mem_cons_iff_ne (by simp)).mp hh)
          · exact fun v hh => hret v ((mem_cons_iff_ne (by simp)).mp hh)
        · cases soleW_code hs hf (by simp [isWorkU])
        · obtain ⟨v', hv', hs⟩ := hs2
          cases soleW_code hs hf (by simp [isWorkU])
        · cases soleW_code hs hf (by simp [isWorkU])
        · exact (noneW_no_code hs hf (by simp [isWorkU])).elim
        · exact (noneW_no_code hs hf (by simp [isWorkU])).elim
      · have hne0 : (k0 == k) = false := beq_false_of_ne (fun hh => hkk hh.symm)
        exact uinv_frame (hu k) rfl
          (fun code hs => soleW_setA_frame hs hf hne0 (.uDel k0) hne0)
          (fun hn => noneW_setA hn tid (.uDel k0) hne0)
          (mem_cons_iff_ne (by simp))
          (mem_cons_iff_ne (by intro hh; injection hh with hh; exact hkk hh))
          (mem_cons_iff_ne (by simp)) (fun v => mem_cons_iff_ne (by simp))
          (fun _ => countE_cons_ne (by simp) _) (fun hh => hh)

theorem tinv_step {c c' : Config} {l : Label} (h : stepFn c l = some c')
    (hw : WFA c) (hti : ∀ k, TInv c k) (k : Nat) : TInv c' k := by
  have hv := stepFn_view h
  cases hv
  case viewNewC beh =>
      by_cases hkn : k = c.next
      · subst hkn
        have hfresh : ∀ e ∈ c.hist, evKeyOf e ≠ some c.next :=
          fun e he hk2 => by have := hw.histBound e he _ hk2; omega
        rw [TInv]
        have htim2 : findA c.next ((c.next, false) :: c.timers) = some false := by
          simp [findA]
        rw [htim2]
        refine Or.inl ⟨⟨beh, by simp [isWorkC], c.tnext, by simp [findA], ?_⟩,
          ?_, ?_⟩
        · intro p hp hwp
          rcases List.mem_cons.mp hp with rfl | hp
          · rfl
          rcases List.mem_cons.mp hp with rfl | hp
          · simp [isWorkC] at hwp
          · exact absurd (hw.workCTim p hp c.next hwp)
              (fun ht2 => by have := wfa_tim_lt hw ht2; omega)
        · rw [countE_cons_ne (by simp)]
          exact countE_eq_zero (fun hh => hfresh _ hh rfl)
        · intro e hh
          rcases List.mem_cons.mp hh with heq | hh
          · cases heq
          · exact hfresh _ hh rfl
      · have hnk : c.next ≠ k := fun hh => hkn hh.symm
        have ha1 : ∀ p ∈ c.threads, p.1 ≠ c.tnext + 1 :=
          keys_ne_of_bound hw.tidBound (by omega)
        have ha0 : ∀ p ∈ ((c.tnext + 1, TCode.launchCIns c.next) :: c.threads),
            p.1 ≠ c.tnext := by
          intro p hp
          rcases List.mem_cons.mp hp with rfl | hp
          · simp
          · have := hw.tidBound p hp; omega
        exact tinv_frame (hti k) (by rw [findA_cons_ne hnk])
          (fun code hs => soleW_cons_frame
            (soleW_cons_frame hs (c.tnext + 1) (.launchCIns c.next) ha1 rfl)
            c.tnext (.timerWait c.next beh) ha0 (by simp [isWorkC, hnk]))
          (fun hn => noneW_cons
            (noneW_cons hn (c.tnext + 1) (.launchCIns c.next) rfl)
            c.tnext (.timerWait c.next beh) (by simp [isWorkC, hnk]))
          (fun _ => countE_cons_ne (by simp) _)
          (fun _ e hh => (mem_cons_iff_ne (by simp)).mp hh)
  case viewNewU beh =>
      have ha1 : ∀ p ∈ c.threads, p.1 ≠ c.tnext + 1 :=
        keys_ne_of_bound hw.tidBound (by omega)
      have ha0 : ∀ p ∈ ((c.tnext + 1, TCode.launchUIns c.next) :: c.threads),
          p.1 ≠ c.tnext := by
        intro p hp
        rcases List.mem_cons.mp hp with rfl | hp
        · simp
        · have := hw.tidBound p hp; omega
      exact tinv_frame (hti k) Iff.rfl
        (fun code hs => soleW_cons_frame
          (soleW_cons_frame hs (c.tnext + 1) (.launchUIns c.next) ha1 rfl)
          c.tnext (.uWait c.next beh) ha0 rfl)
        (fun hn => noneW_cons
          (noneW_cons hn (c.tnext + 1) (.launchUIns c.next) rfl)
          c.tnext (.uWait c.next beh) rfl)
        (fun _ => countE_cons_ne (by simp) _)
        (fun _ e hh => (mem_cons_iff_ne (by simp)).mp hh)
  case viewCallC k0 =>
      have ha0 : ∀ p ∈ c.threads, p.1 ≠ c.tnext :=
        keys_ne_of_bound hw.tidBound (by omega)
      exact tinv_frame (hti k) Iff.rfl
        (fun code hs => soleW_cons_frame hs c.tnext (.cLookup k0) ha0 rfl)
        (fun hn => noneW_cons hn c.tnext (.cLookup k0) rfl)
        (fun _ => rfl) (fun _ e hh => hh)
  case viewCallU k0 b0 =>
      have ha0 : ∀ p ∈ c.threads, p.1 ≠ c.tnext :=
        keys_ne_of_bound hw.tidBound (by omega)
      exact tinv_frame (hti k) Iff.rfl
        (fun code hs => soleW_cons_frame hs c.tnext (.undoLookup k0 b0) ha0 rfl)
        (fun hn => noneW_cons hn c.tnext (.undoLookup k0 b0) rfl)
        (fun _ => rfl) (fun _ e hh => hh)
  case viewLaunchCIns tid k0 hf =>
      exact tinv_frame (hti k) Iff.rfl
        (fun code hs => soleW_eraseA_frame hs hf rfl)
        (fun hn => noneW_eraseA hn tid)
        (fun _ => rfl) (fun _ e hh => hh)
  case viewLaunchUIns tid k0 hf =>
      exact tinv_frame (hti k) Iff.rfl
        (fun code hs => soleW_eraseA_frame hs hf rfl)
        (fun hn => noneW_eraseA hn tid)
        (fun _ => rfl) (fun _ e hh => hh)
  case viewTimerCancelled tid k0 beh hf hft =>
      by_cases hkk : k = k0
      · subst hkk
        have hup := hti k
        rw [TInv, hft] at hup
        rw [TInv, hft]
        rcases hup with ⟨⟨beh2, hs⟩, hcnt, hraise⟩ | ⟨⟨beh2, hs⟩, h2⟩ |
          ⟨hs, h2⟩ | ⟨hs, h2⟩ | ⟨hn, h2⟩
        · have hb := soleW_code hs hf (by simp [isWorkC])
          injection hb with hb1 hb2
          subst hb2
          refine Or.inr (Or.inr (Or.inr (Or.inr
            ⟨soleW_finish_erase hs hf, ?_⟩)))
          rw [hcnt]
          omega
        · cases soleW_code hs hf (by simp [isWorkC])
        · cases soleW_code hs hf (by simp [isWorkC])
        · cases soleW_code hs hf (by simp [isWorkC])
        · exact (noneW_no_code hn hf (by simp [isWorkC])).elim
      · exact tinv_frame (hti k) Iff.rfl
          (fun code hs => soleW_eraseA_frame hs hf
            (beq_false_of_ne (fun hh => hkk hh.symm)))
          (fun hn => noneW_eraseA hn tid)
          (fun _ => rfl) (fun _ e hh => hh)
  case viewTimerRunOk tid k0 v hf =>
      by_cases hkk : k = k0
      · subst hkk
        have htim2 : findA k c.timers ≠ none :=
          hw.workCTim _ (findA_mem hf) k (by simp [isWorkC])
        have hup := hti k
        rw [TInv] at hup ⊢
        cases hft : findA k c.timers with
        | none => exact absurd hft htim2
        | some b =>
            rw [hft] at hup
            rcases hup with ⟨⟨beh2, hs⟩, h2⟩ | ⟨⟨beh2, hs⟩, hcnt, hraise⟩ |
              ⟨hs, h2⟩ | ⟨hs, h2⟩ | ⟨hn, h2⟩
            · cases soleW_code hs hf (by simp [isWorkC])
            · have hb := soleW_code hs hf (by simp [isWorkC])
              injection hb with hb1 hb2
              subst hb2
              refine Or.inr (Or.inr (Or.inl
                ⟨soleW_advance hs hf (.timerCheck k) (by simp [isWorkC]),
                  ?_, ?_⟩))
              · rw [countE_cons_self, hcnt]
              · exact fun e hh => hraise e ((mem_cons_iff_ne (by simp)).mp hh)
            · cases soleW_code hs hf (by simp [isWorkC])
            · cases soleW_code hs hf (by simp [isWorkC])
            · exact (noneW_no_code hn hf (by simp [isWorkC])).elim
      · have hne0 : (k0 == k) = false := beq_false_of_ne (fun hh => hkk hh.symm)
        exact tinv_frame (hti k) Iff.rfl
          (fun code hs => soleW_setA_frame hs hf hne0 (.timerCheck k0) hne0)
          (fun hn => noneW_setA hn tid (.timerCheck k0) hne0)
          (fun _ => countE_cons_ne
            (by intro hh; injection hh with hh; exact hkk hh.symm) _)
          (fun _ e hh => (mem_cons_iff_ne (by simp)).mp hh)
  case viewTimerRunErr tid k0 e0 hf =>
      by_cases hkk : k = k0
      · subst hkk
        have htim2 : findA k c.timers ≠ none :=
          hw.workCTim _ (findA_mem hf) k (by simp [isWorkC])
        have hup := hti k
        rw [TInv] at hup ⊢
        cases hft : findA k c.timers with
        | none => exact absurd hft htim2
        | some b =>
            rw [hft] at hup
            rcases hup with ⟨⟨beh2, hs⟩, h2⟩ | ⟨⟨beh2, hs⟩, hcnt, hraise⟩ |
              ⟨hs, h2⟩ | ⟨hs, h2⟩ | ⟨hn, h2⟩
            · cases soleW_code hs hf (by simp [isWorkC])
            · have hb := soleW_code hs hf (by simp [isWorkC])
              injection hb with hb1 hb2
              subst hb2
              refine Or.inr (Or.inr (Or.inr (Or.inr
                ⟨soleW_finish_erase hs hf, ?_⟩)))
              rw [countE_cons_ne (by simp), countE_cons_self, hcnt]
            · cases soleW_code hs hf (by simp [isWorkC])
            · cases soleW_code hs hf (by simp [isWorkC])
            · exact (noneW_no_code hn hf (by simp [isWorkC])).elim
      · have hne0 : (k0 == k) = false := beq_false_of_ne (fun hh => hkk hh.symm)
        exact tinv_frame (hti k) Iff.rfl
          (fun code hs => soleW_eraseA_frame hs hf hne0)
          (fun hn => noneW_eraseA hn tid)
          (fun _ => by
            rw [countE_cons_ne (by simp), countE_cons_ne
              (by intro hh; injection hh with hh; exact hkk hh.symm)])
          (fun _ e hh => (mem_cons_iff_ne (by simp)).mp
            ((mem_cons_iff_ne
              (by intro hh2; injection hh2 with h1 h2; exact hkk h1)).mp hh))
  case viewTimerCheckPos tid k0 hf hm =>
      by_cases hkk : k = k0
      · subst hkk
        have htim2 : findA k c.timers ≠ none :=
          hw.workCTim _ (findA_mem hf) k (by simp [isWorkC])
        have hup := hti k
        rw [TInv] at hup ⊢
        cases hft : findA k c.timers with
        | none => exact absurd hft htim2
        | some b =>
            rw [hft] at hup
            rcases hup with ⟨⟨beh2, hs⟩, h2⟩ | ⟨⟨beh2, hs⟩, h2⟩ |
              ⟨hs, hcnt, hraise⟩ | ⟨hs, h2⟩ | ⟨hn, h2⟩
            · cases soleW_code hs hf (by simp [isWorkC])
            · cases soleW_code hs hf (by simp [isWorkC])
            · exact Or.inr (Or.inr (Or.inr (Or.inl
                ⟨soleW_advance hs hf (.timerDel k) (by simp [isWorkC]),
                  hcnt, hraise⟩)))
            · cases soleW_code hs hf (by simp [isWorkC])
            · exact (noneW_no_code hn hf (by simp [isWorkC])).elim
      · have hne0 : (k0 == k) = false := beq_false_of_ne (fun hh => hkk hh.symm)
        exact tinv_frame (hti k) Iff.rfl
          (fun code hs => soleW_setA_frame hs hf hne0 (.timerDel k0) hne0)
          (fun hn => noneW_setA hn tid (.timerDel k0) hne0)
          (fun _ => rfl) (fun _ e hh => hh)
  case viewTimerCheckNeg tid k0 hf hm =>
      by_cases hkk : k = k0
      · subst hkk
        have htim2 : findA k c.timers ≠ none :=
          hw.workCTim _ (findA_mem hf) k (by simp [isWorkC])
        have hup := hti k
        rw [TInv] at hup ⊢
        cases hft : findA k c.timers with
        | none => exact absurd hft htim2
        | some b =>
            rw [hft] at hup
            rcases hup with ⟨⟨beh2, hs⟩, h2⟩ | ⟨⟨beh2, hs⟩, h2⟩ |
              ⟨hs, hcnt, hraise⟩ | ⟨hs, h2⟩ | ⟨hn, h2⟩
            · cases soleW_code hs hf (by simp [isWorkC])
            · cases soleW_code hs hf (by simp [isWorkC])
            · exact Or.inr (Or.inr (Or.inr (Or.inr
                ⟨soleW_finish_erase hs hf, le_of_eq hcnt⟩)))
            · cases soleW_code hs hf (by simp [isWorkC])
            · exact (noneW_no_code hn hf (by simp [isWorkC])).elim
      · exact tinv_frame (hti k) Iff.rfl
          (fun code hs => soleW_eraseA_frame hs hf
            (beq_false_of_ne (fun hh => hkk hh.symm)))
          (fun hn => noneW_eraseA hn tid)
          (fun _ => rfl) (fun _ e hh => hh)
  case viewTimerDelPos tid k0 hf hm =>
      by_cases hkk : k = k0
      · subst hkk
        have htim2 : findA k c.timers ≠ none :=
          hw.workCTim _ (findA_mem hf) k (by simp [isWorkC])
        have hup := hti k
        rw [TInv] at hup ⊢
        cases hft : findA k c.timers with
        | none => exact absurd hft htim2
        | some b =>
            rw [hft] at hup
            rcases hup with ⟨⟨beh2, hs⟩, h2⟩ | ⟨⟨beh2, hs⟩, h2⟩ |
              ⟨hs, h2⟩ | ⟨hs, hcnt, hraise⟩ | ⟨hn, h2⟩
            · cases soleW_code hs hf (by simp [isWorkC])
            · cases soleW_code hs hf (by simp [isWorkC])
            · cases soleW_code hs hf (by simp [isWorkC])
            · refine Or.inr (Or.inr (Or.inr (Or.inr
                ⟨soleW_finish_erase hs hf, ?_⟩)))
              rw [countE_cons_ne (by simp)]
              exact le_of_eq hcnt
            · exact (noneW_no_code hn hf (by simp [isWorkC])).elim
      · exact tinv_frame (hti k) Iff.rfl
          (fun code hs => soleW_eraseA_frame hs hf
            (beq_false_of_ne (fun hh => hkk hh.symm)))
          (fun hn => noneW_eraseA hn tid)
          (fun _ => countE_cons_ne (by simp) _)
          (fun _ e hh => (mem_cons_iff_ne (by simp)).mp hh)
  case viewTimerDelNeg tid k0 hf hm =>
      by_cases hkk : k = k0
      · subst hkk
        have htim2 : findA k c.timers ≠ none :=
          hw.workCTim _ (findA_mem hf) k (by simp [isWorkC])
        have hup := hti k
        rw [TInv] at hup ⊢
        cases hft : findA k c.timers with
        | none => exact absurd hft htim2
        | some b =>
            rw [hft] at hup
            rcases hup with ⟨⟨beh2, hs⟩, h2⟩ | ⟨⟨beh2, hs⟩, h2⟩ |
              ⟨hs, h2⟩ | ⟨hs, hcnt, hraise⟩ | ⟨hn, h2⟩
            · cases soleW_code hs hf (by simp [isWorkC])
            · cases soleW_code hs hf (by simp [isWorkC])
            · cases soleW_code hs hf (by simp [isWorkC])
            · refine Or.inr (Or.inr (Or.inr (Or.inr
                ⟨soleW_finish_erase hs hf, ?_⟩)))
              rw [countE_cons_ne (by simp)]
              exact le_of_eq hcnt
            · exact (noneW_no_code hn hf (by simp [isWorkC])).elim
      · exact tinv_frame (hti k) Iff.rfl
          (fun code hs => soleW_eraseA_frame hs hf
            (beq_false_of_ne (fun hh => hkk hh.symm)))
          (fun hn => noneW_eraseA hn tid)
          (fun _ => countE_cons_ne (by simp) _)
          (fun _ e hh => (mem_cons_iff_ne (by simp)).mp hh)
  case viewUWaitPop tid k0 beh j hf hj ht2 =>
      exact tinv_frame (hti k) Iff.rfl
        (fun code hs => soleW_setA_frame hs hf rfl (.uRun k0 beh) rfl)
        (fun hn => noneW_setA hn tid (.uRun k0 beh) rfl)
        (fun _ => countE_cons_ne (by simp) _)
        (fun _ e hh => (mem_cons_iff_ne (by simp)).mp hh)
  case viewURunOk tid k0 v hf =>
      have hne2 : findA k c.timers ≠ none → ¬(k0 = k) := by
        intro hne1 hh
        subst hh
        exact hne1 (hw.kindsU k0
          (hw.workUJob _ (findA_mem hf) k0 (by simp [isWorkU])))
      exact tinv_frame (hti k) Iff.rfl
        (fun code hs => soleW_setA_frame hs hf rfl (.uPut k0 v) rfl)
        (fun hn => noneW_setA hn tid (.uPut k0 v) rfl)
        (fun hne1 => countE_cons_ne
          (by intro hh; injection hh with hh; exact hne2 hne1 hh) _)
        (fun _ e hh => (mem_cons_iff_ne (by simp)).mp hh)
  case viewURunErr tid k0 e0 hf =>
      have hne2 : findA k c.timers ≠ none → ¬(k0 = k) := by
        intro hne1 hh
        subst hh
        exact hne1 (hw.kindsU k0
          (hw.workUJob _ (findA_mem hf) k0 (by simp [isWorkU])))
      exact tinv_frame (hti k) Iff.rfl
        (fun code hs => soleW_eraseA_frame hs hf rfl)
        (fun hn => noneW_eraseA hn tid)
        (fun hne1 => by
          rw [countE_cons_ne (by simp), countE_cons_ne
            (by intro hh; injection hh with hh; exact hne2 hne1 hh)])
        (fun hne1 e hh => by
          have hne3 : Event.actionRaised k e ≠ Event.actionRaised k0 e0 := by
            intro hh2
            injection hh2 with h1 h2
            exact hne2 hne1 h1.symm
          exact (mem_cons_iff_ne (by simp)).mp
            ((mem_cons_iff_ne hne3).mp hh))
  case viewUPut tid k0 v j hf hj =>
      exact tinv_frame (hti k) Iff.rfl
        (fun code hs => soleW_eraseA_frame hs hf rfl)
        (fun hn => noneW_eraseA hn tid)
        (fun _ => rfl) (fun _ e hh => hh)
  case viewUDelPos tid k0 hf hm =>
      exact tinv_frame (hti k) Iff.rfl
        (fun code hs => soleW_eraseA_frame hs hf rfl)
        (fun hn => noneW_eraseA hn tid)
        (fun _ => countE_cons_ne (by simp) _)
        (fun _ e hh => (mem_cons_iff_ne (by simp)).mp hh)
  case viewUDelNeg tid k0 hf hm =>
      exact tinv_frame (hti k) Iff.rfl
        (fun code hs => soleW_eraseA_frame hs hf rfl)
        (fun hn => noneW_eraseA hn tid)
        (fun _ => countE_cons_ne (by simp) _)
        (fun _ e hh => (mem_cons_iff_ne (by simp)).mp hh)
  case viewCLookupPos tid k0 hf hm =>
      exact tinv_frame (hti k) Iff.rfl
        (fun code hs => soleW_setA_frame hs hf rfl (.cDel k0) rfl)
        (fun hn => noneW_setA hn tid (.cDel k0) rfl)
        (fun _ => rfl) (fun _ e hh => hh)
  case viewCLookupNeg tid k0 hf hm =>
      exact tinv_frame (hti k) Iff.rfl
        (fun code hs => soleW_eraseA_frame hs hf rfl)
        (fun hn => noneW_eraseA hn tid)
        (fun _ => countE_cons_ne (by simp) _)
        (fun _ e hh => (mem_cons_iff_ne (by simp)).mp hh)
  case viewCDelPos tid k0 hf hm =>
      exact tinv_frame (hti k) ⟨findA_setA_none, findA_setA_none_of⟩
        (fun code hs => soleW_eraseA_frame hs hf rfl)
        (fun hn => noneW_eraseA hn tid)
        (fun _ => by rw [countE_cons_ne (by simp), countE_cons_ne (by simp)])
        (fun _ e hh => (mem_cons_iff_ne (by simp)).mp
          ((mem_cons_iff_ne (by simp)).mp hh))
  case viewCDelNeg tid k0 hf hm =>
      exact tinv_frame (hti k) ⟨findA_setA_none, findA_setA_none_of⟩
        (fun code hs => soleW_eraseA_frame hs hf rfl)
        (fun hn => noneW_eraseA hn tid)
        (fun _ => countE_cons_ne (by simp) _)
        (fun _ e hh => (mem_cons_iff_ne (by simp)).mp hh)
  case viewUndoLookupPos tid k0 b0 hf hm =>
      exact tinv_frame (hti k) Iff.rfl
        (fun code hs => soleW_setA_frame hs hf rfl (.undoPut k0 b0) rfl)
        (fun hn => noneW_setA hn tid (.undoPut k0 b0) rfl)
        (fun _ => rfl) (fun _ e hh => hh)
  case viewUndoLookupNeg tid k0 b0 hf hm =>
      exact tinv_frame (hti k) Iff.rfl
        (fun code hs => soleW_eraseA_frame hs hf rfl)
        (fun hn => noneW_eraseA hn tid)
        (fun _ => countE_cons_ne (by simp) _)
        (fun _ e hh => (mem_cons_iff_ne (by simp)).mp hh)
  case viewUndoPut tid k0 b0 j hf hj =>
      exact tinv_frame (hti k) Iff.rfl
        (fun code hs => soleW_setA_frame hs hf rfl (.undoGet k0 b0) rfl)
        (fun hn => noneW_setA hn tid (.undoGet k0 b0) rfl)
        (fun _ => countE_cons_ne (by simp) _)
        (fun _ e hh => (mem_cons_iff_ne (by simp)).mp hh)
  case viewUndoGetPop tid k0 b0 j v rest hf hj hr =>
      exact tinv_frame (hti k) Iff.rfl
        (fun code hs => soleW_eraseA_frame hs hf rfl)
        (fun hn => noneW_eraseA hn tid)
        (fun _ => countE_cons_ne (by simp) _)
        (fun _ e hh => (mem_cons_iff_ne (by simp)).mp hh)
  case viewTimerElapse tid k0 beh hf hft =>
      by_cases hkk : k = k0
      · subst hkk
        have hup := hti k
        rw [TInv, hft] at hup
        rw [TInv, hft]
        rcases hup with ⟨⟨beh2, hs⟩, hcnt, hraise⟩ | ⟨⟨beh2, hs⟩, h2⟩ |
          ⟨hs, h2⟩ | ⟨hs, h2⟩ | ⟨hn, h2⟩
        · have hb := soleW_code hs hf (by simp [isWorkC])
          injection hb with hb1 hb2
          subst hb2
          exact Or.inr (Or.inl ⟨⟨beh,
            soleW_advance hs hf (.timerRun k beh) (by simp [isWorkC])⟩,
            hcnt, hraise⟩)
        · cases soleW_code hs hf (by simp [isWorkC])
        · cases soleW_code hs hf (by simp [isWorkC])
        · cases soleW_code hs hf (by simp [isWorkC])
        · exact (noneW_no_code hn hf (by simp [isWorkC])).elim
      · have hne0 : (k0 == k) = false := beq_false_of_ne (fun hh => hkk hh.symm)
        exact tinv_frame (hti k) Iff.rfl
          (fun code hs => soleW_setA_frame hs hf hne0 (.timerRun k0 beh) hne0)
          (fun hn => noneW_setA hn tid (.timerRun k0 beh) hne0)
          (fun _ => rfl) (fun _ e hh => hh)
  case viewUWaitEmpty tid k0 beh j hf hj ht2 =>
      exact tinv_frame (hti k) Iff.rfl
        (fun code hs => soleW_setA_frame hs hf rfl (.uDel k0) rfl)
        (fun hn => noneW_setA hn tid (.uDel k0) rfl)
        (fun _ => countE_cons_ne (by simp) _)
        (fun _ e hh => (mem_cons_iff_ne (by simp)).mp hh)
  case viewUndoGetEmpty tid k0 j hf hj hr =>
      exact tinv_frame (hti k) Iff.rfl
        (fun code hs => soleW_eraseA_frame hs hf rfl)
        (fun hn => noneW_eraseA hn tid)
        (fun _ => countE_cons_ne (by simp) _)
        (fun _ e hh => (mem_cons_iff_ne (by simp)).mp hh)

/-- The full invariant is preserved by every step. -/
theorem inv_step {c c' : Config} {l : Label} (h : stepFn c l = some c')
    (hi : Inv c) : Inv c' :=
  ⟨wfa_step h hi.1 hi.2.1, fun k => uinv_step h hi.1 hi.2.1 k,
    fun k => tinv_step h hi.1 hi.2.2 k⟩

/-- The initial configuration satisfies the invariant. -/
theorem inv_init : Inv init := by
  refine ⟨⟨?_, ?_, ?_, ?_, ?_, ?_, ?_, ?_, ?_, ?_, ?_, ?_, ?_, ?_⟩, ?_, ?_⟩
  · intro e he; cases he
  · intro p hp; cases hp
  · intro k hk; rfl
  · intro k hk; cases hk
  · intro k hk; cases hk
  · intro k hk; exact absurd rfl hk
  · intro k hk; exact absurd rfl hk
  · intro k hk; cases hk
  · intro k hk; cases hk
  · intro p hp; cases hp
  · intro p hp; cases hp
  · intro p hp; cases hp
  · intro p hp; cases hp
  · intro p hp; cases hp
  · intro k
    exact ⟨fun p hp => absurd hp (List.not_mem_nil p),
      fun hh => absurd hh (List.not_mem_nil _),
      fun hh => absurd hh (List.not_mem_nil _),
      fun hh => absurd hh (List.not_mem_nil _),
      fun v hh => absurd hh (List.not_mem_nil _)⟩
  · intro k
    exact fun p hp => absurd hp (List.not_mem_nil p)

/-- Every configuration reached by `run` from `init` satisfies the
invariant. -/
theorem inv_run : ∀ {ls : List Label} {c : Config},
    run init ls = some c → Inv c := by
  have main : ∀ (ls : List Label) (c0 c : Config), Inv c0 →
      run c0 ls = some c → Inv c := by
    intro ls
    induction ls with
    | nil =>
        intro c0 c h0 hr
        cases hr
        exact h0
    | cons l ls ih =>
        intro c0 c h0 hr
        simp only [run] at hr
        cases hs : stepFn c0 l with
        | none => rw [hs] at hr; cases hr
        | some c1 =>
            rw [hs] at hr
            exact ih c1 c (inv_step hs h0) hr
  intro ls c hr
  exact main ls init c inv_init hr

/-! ### Concrete schedules used as counterexamples and scenario witnesses -/

/-- Launch an undoable job whose action returns "done", trigger it with
`undo_job` before any deadline, let the action finish, collect the result. -/
def trC1 : List Label :=
  [.newU (.ok "done"), .tstep 1, .callUndo 0 false, .tstep 2, .tstep 2,
   .tstep 0, .tstep 0, .tstep 0, .tstep 2]

/-- Launch a cancelable job; its delay elapses and `funcwrap` runs `func()`
to completion; before `funcwrap` reaches its registry cleanup,
`cancel_job` is called on the same key. -/
def trC2 : List Label :=
  [.newC (.ok "saved"), .tstep 1, .ttimeout 0, .tstep 0, .callCancel 0,
   .tstep 2, .tstep 2]

/-- Launch an undoable job; its deadline elapses (`trigger_queue.get` raises
`Empty`); while the worker is between `except Empty:` and its `del`,
`undo_job` is called: the lookup still finds the entry, the worker then
discards it, and the caller delivers a trigger nobody will read. -/
def trC3 : List Label :=
  [.newU (.ok "v"), .tstep 1, .ttimeout 0, .callUndo 0 false, .tstep 2,
   .tstep 0, .tstep 2]

/-- Same race, scheduled from the `undo_job` side: lookup succeeds, then the
deadline elapses and the timeout path discards the entry, and only then the
trigger is delivered. -/
def trC4 : List Label :=
  [.newU (.ok "v"), .tstep 1, .callUndo 0 false, .tstep 2, .ttimeout 0,
   .tstep 0, .tstep 2]

/-- Launch a cancelable job whose action raises; the delay elapses and
`funcwrap` calls `func()`, which raises, so `funcwrap` never reaches its
`del store['cancelable_jobs'][key]`. -/
def trC5 : List Label := [.newC (.err "boom"), .tstep 1, .ttimeout 0, .tstep 0]

/-- Launch an undoable job whose action raises; `undo_job` triggers it; the
worker runs the action, which raises on the worker thread, so nothing is
ever put on `return_queue`. -/
def trC6 : List Label :=
  [.newU (.err "boom"), .tstep 1, .callUndo 0 false, .tstep 2, .tstep 2,
   .tstep 0, .tstep 0]

/-- C1, counterexample.  After `undo_job` successfully triggered job 0 and the
action ran to completion (the call returned "done"), the entry is still in
`waiting_threads['undoable_jobs']`: the triggered path of `Undoable.run` never
removes it, contradicting "the entry is no longer present in the undoable
namespace". -/
theorem c1_counterexample :
    run init trC1 = some (final trC1) ∧
    Event.undoRet 0 "done" ∈ (final trC1).hist ∧
    Event.ranAction 0 ∈ (final trC1).hist ∧
    (final trC1).undo = [0] ∧
    Event.removedU 0 ∉ (final trC1).hist := by decide

/-- C2, counterexample.  The history (newest first) shows `cancel_job`
returning `True` after the action had already executed: `funcwrap` runs
`func()` before deleting the registry entry, so a concurrent `cancel_job`
still finds the entry and reports success. -/
theorem c2_counterexample :
    run init trC2 = some (final trC2) ∧
    (final trC2).hist =
      [.cancelRet 0 true, .removedCCancel 0, .ranAction 0, .issuedC 0] := by
  decide

/-- C3, counterexample.  `undo_job` is called after the deadline elapsed
(`timedOut 0` is in the history) but before the timed-out worker finished
discarding the entry: the call does not raise `ThreadLostError` and its
thread (tid 2) stays blocked on `return_queue.get` in every continuation. -/
theorem c3_counterexample :
    run init trC3 = some (final trC3) ∧
    Event.timedOut 0 ∈ (final trC3).hist ∧
    Event.undoLost 0 ∉ (final trC3).hist ∧
    BlockedAt (final trC3) 2 0 :=
  ⟨by decide, by decide, by decide,
   blockedAt_of_stuckGet ⟨by decide, by decide, by decide, by decide, by decide⟩⟩

/-- C4, counterexample.  The history (newest first) shows the trigger signal
(`triggerPut 0`) being delivered after the timeout path had already discarded
the entry (`removedU 0`): `undo_job`'s lookup and its `obj.undo()` are not
atomic with respect to the worker's `del`. -/
theorem c4_counterexample :
    run init trC4 = some (final trC4) ∧
    (final trC4).hist =
      [.triggerPut 0, .removedU 0, .timedOut 0, .issuedU 0] := by decide

/-- C5, counterexample.  The action of cancelable job 0 fired and raised; the
timer thread died (no threads remain), and the registry entry is still
present: `funcwrap` deletes the entry only after `func()` returns normally. -/
theorem c5_counterexample :
    run init trC5 = some (final trC5) ∧
    Event.ranAction 0 ∈ (final trC5).hist ∧
    Event.actionRaised 0 "boom" ∈ (final trC5).hist ∧
    (final trC5).canc = [0] ∧
    (final trC5).threads = [] ∧
    Event.removedCFire 0 ∉ (final trC5).hist ∧
    Event.removedCCancel 0 ∉ (final trC5).hist := by decide

/-- C6, counterexample.  The action of undoable job 0 raised on its worker
thread (`actionRaised` is in the history) but the exception never reaches the
`undo_job` caller: the full history shows no `undoRet`/`undoEmpty`/`undoLost`
for the call, and the caller thread (tid 2) stays blocked on
`return_queue.get` in every continuation. -/
theorem c6_counterexample :
    run init trC6 = some (final trC6) ∧
    (final trC6).hist =
      [.actionRaised 0 "boom", .ranAction 0, .accepted 0, .triggerPut 0,
       .issuedU 0] ∧
    BlockedAt (final trC6) 2 0 :=
  ⟨by decide, by decide,
   blockedAt_of_stuckGet ⟨by decide, by decide, by decide, by decide, by decide⟩⟩

/-! ### Additional schedules and configurations used by claim witnesses -/

/-- Launch a cancelable job, let the delay elapse and the action run; the
timer thread is between `funcwrap`'s `func()` and its registry delete. -/
def trC5w : List Label :=
  [.newC (.ok "saved"), .tstep 1, .ttimeout 0, .tstep 0, .tstep 0]

/-- Launch an undoable job and call `cancel_job` with its key: the
cross-kind lookup is about to run. -/
def trC8 : List Label := [.newU (.ok "u"), .tstep 1, .callCancel 0]

/-- Launch a cancelable job and cancel it while the timer is still waiting:
`cancel_job` returned `True` and the timer's cancelled flag is set. -/
def trC9 : List Label :=
  [.newC (.ok "x"), .tstep 1, .callCancel 0, .tstep 2, .tstep 2]

/-- A configuration with a pending `cancel_job` call past its successful
lookup for key 0, the timer entry still registered. -/
def cfgC2 : Config := ⟨1, [0], [], [(0, false)], [], [(5, TCode.cDel 0)], 6, []⟩

/-- A configuration with a pending `undo_job` lookup for a key that is not in
the undoable registry. -/
def cfgC3 : Config := ⟨1, [], [], [], [], [(5, TCode.undoLookup 0 false)], 6, []⟩

/-- A configuration where undoable job 0's triggered action is about to raise
while the `undo_job` caller waits on `return_queue.get`. -/
def cfgC6 : Config := ⟨1, [], [0], [], [(0, ⟨Beh.err "boom", 0, []⟩)], [(0, TCode.uRun 0 (Beh.err "boom")), (2, TCode.undoGet 0 false)], 3, []⟩

/-! ### Phase-extraction lemmas shared by the claim theorems -/

/-- In a configuration satisfying the per-key invariant, a logged
`undoRet k v` pins job `k` to the triggered-and-completed phase: the object
is still registered, its stored behaviour is `ok v`, the action ran exactly
once, and the key is still in the undoable registry. -/
theorem undoRet_phaseDone {c : Config} {k : Nat} {v : String}
    (hu : UInv c k) (hret : Event.undoRet k v ∈ c.hist) :
    ∃ j, findA k c.jobs = some j ∧ j.beh = .ok v ∧
      countE (.ranAction k) c.hist = 1 ∧ k ∈ c.undo := by
  rw [UInv] at hu
  cases hj : findA k c.jobs with
  | none =>
      rw [hj] at hu
      exact absurd hret (hu.2.2.2.2 v)
  | some j =>
      rw [hj] at hu
      rcases hu with ⟨h1, h2, h3, h4, h5, h6, h7, h8⟩ |
        ⟨h1, h2, h3, h4, h5, h6, h7, h8⟩ | ⟨h1, h2, h3, h4, h5, h6, h7, h8⟩ |
        ⟨h1, h2, h3, h4, h5, h6, h7⟩ |
        ⟨h1, h2, hcnt, h4, h5, h6, hreti, hmem⟩ | ⟨h1, h2, h3, h4, h5, h6⟩
      · exact absurd hret (h7 v)
      · exact absurd hret (h7 v)
      · exact absurd hret (h7 v)
      · exact absurd hret (h7 v)
      · exact ⟨j, rfl, hreti v hret, hcnt, hmem⟩
      · exact absurd hret (h6 v)

/-- In a configuration satisfying the per-key invariant, a logged
`removedU k` pins job `k` to the timed-out-and-discarded phase: the trigger
was never accepted and the action never ran. -/
theorem removedU_phaseT {c : Config} {k : Nat} (hu : UInv c k)
    (hrem : Event.removedU k ∈ c.hist) :
    Event.accepted k ∉ c.hist ∧ countE (.ranAction k) c.hist = 0 ∧
    Event.timedOut k ∈ c.hist := by
  rw [UInv] at hu
  cases hj : findA k c.jobs with
  | none =>
      rw [hj] at hu
      exact absurd hrem hu.2.2.2.1
  | some j =>
      rw [hj] at hu
      rcases hu with ⟨h1, h2, h3, h4, h5, h6⟩ | ⟨h1, h2, h3, h4, h5, h6⟩ |
        ⟨h1, h2, h3, h4, h5, h6⟩ | ⟨h1, h2, h3, h4, h5, h6⟩ |
        ⟨h1, h2, h3, h4, h5, h6⟩ | ⟨h1, hacc, hcnt, htim, h5, h6⟩
      · exact absurd hrem h5
      · exact absurd hrem h5
      · exact absurd hrem h5
      · exact absurd hrem h5
      · exact absurd hrem h5
      · exact ⟨hacc, hcnt, htim⟩

/-- A timer thread that reached `funcwrap`'s registry delete has run the
action exactly once, and that action did not raise. -/
theorem timerDel_phase {c : Config} {tid k : Nat} (hw : WFA c)
    (ht : TInv c k) (hf : findA tid c.threads = some (.timerDel k)) :
    countE (Event.ranAction k) c.hist = 1 ∧
    (∀ e, Event.actionRaised k e ∉ c.hist) := by
  have htim2 : findA k c.timers ≠ none :=
    hw.workCTim _ (findA_mem hf) k (by simp [isWorkC])
  rw [TInv] at ht
  cases hft : findA k c.timers with
  | none => exact absurd hft htim2
  | some b =>
      rw [hft] at ht
      rcases ht with ⟨⟨beh2, hs⟩, h2⟩ | ⟨⟨beh2, hs⟩, h2⟩ | ⟨hs, h2⟩ |
        ⟨hs, hcnt, hraise⟩ | ⟨hn, h2⟩
      · cases soleW_code hs hf (by simp [isWorkC])
      · cases soleW_code hs hf (by simp [isWorkC])
      · cases soleW_code hs hf (by simp [isWorkC])
      · exact ⟨hcnt, hraise⟩
      · exact (noneW_no_code hn hf (by simp [isWorkC])).elim

/-! ### The ten claims -/

/-- C1.  In every reachable configuration, an undoable registry entry is
removed only by the timed-out worker's `del store['undoable_jobs'][key]`
(logging `removedU`); on the triggered path there is no removal at all —
after `undo_job` collects the action's return value (`undoRet`), the entry
is still in the undoable registry. -/
theorem c1_theorem {ls : List Label} {c : Config}
    (hr : run init ls = some c) :
    (∀ c' l k, stepFn c l = some c' → k ∈ c.undo → k ∉ c'.undo →
      ∃ tid, l = Label.tstep tid ∧
        findA tid c.threads = some (TCode.uDel k) ∧
        c'.hist = Event.removedU k :: c.hist) ∧
    (∀ k v, Event.undoRet k v ∈ c.hist → k ∈ c.undo) := by
  refine ⟨fun c' l k h hin hout => undo_removed_only_by_uDel h hin hout, ?_⟩
  intro k v hret
  have hi := inv_run hr
  obtain ⟨j, hj, hb, hcnt, hmem⟩ := undoRet_phaseDone (hi.2.1 k) hret
  exact hmem

/-- C1, witness: on the concrete triggered-and-completed schedule `trC1`
the key is still registered after the `undo_job` call returned. -/
theorem c1_witness : 0 ∈ (final trC1).undo :=
  (@c1_theorem trC1 (final trC1) (by decide)).2 0 "done" (by decide)

/-- C2.  `cancel_job` behaves as an atomic presence test on the registry:
on a key that is absent it returns `False` and changes nothing else; past a
successful lookup it sets the timer's cancelled flag, deletes the entry and
returns `True` — whether or not the action has already executed. -/
theorem c2_theorem {c : Config} {tid k : Nat} :
    (findA tid c.threads = some (TCode.cLookup k) → k ∉ c.canc →
      stepFn c (.tstep tid) = some { c with threads := eraseA tid c.threads, hist := Event.cancelRet k false :: c.hist }) ∧
    (findA tid c.threads = some (TCode.cDel k) → k ∈ c.canc →
      stepFn c (.tstep tid) = some { c with timers := setA k true c.timers, canc := removeN k c.canc, threads := eraseA tid c.threads, hist := Event.cancelRet k true :: Event.removedCCancel k :: c.hist }) :=
  ⟨fun hf hm => cancel_miss_step hf hm, fun hf hm => cancel_hit_step hf hm⟩

/-- C2, witness: the successful-cancel step at a concrete configuration. -/
theorem c2_witness :
    stepFn cfgC2 (.tstep 5) =
      some { cfgC2 with timers := setA 0 true cfgC2.timers, canc := removeN 0 cfgC2.canc, threads := eraseA 5 cfgC2.threads, hist := Event.cancelRet 0 true :: Event.removedCCancel 0 :: cfgC2.hist } :=
  (@c2_theorem cfgC2 5 0).2 (by decide) (by decide)

/-- C3.  `undo_job` on a key that is not in the undoable registry raises
`ThreadLostError` immediately: the calling thread finishes in one step with
`undoLost` logged, touching nothing else. -/
theorem c3_theorem {c : Config} {tid k : Nat} {b : Bool}
    (hf : findA tid c.threads = some (TCode.undoLookup k b))
    (hm : k ∉ c.undo) :
    stepFn c (.tstep tid) =
      some { c with threads := eraseA tid c.threads, hist := Event.undoLost k :: c.hist } :=
  undo_miss_step hf hm

/-- C3, witness: the lost-key error step at a concrete configuration. -/
theorem c3_witness :
    stepFn cfgC3 (.tstep 5) =
      some { cfgC3 with threads := eraseA 5 cfgC3.threads, hist := Event.undoLost 0 :: cfgC3.hist } :=
  @c3_theorem cfgC3 5 0 false (by decide) (by decide)

/-- C4.  In every reachable configuration, once the timeout path discarded
an undoable entry (`removedU` logged), the trigger was never accepted and
the action never ran: the timeout path never discards an entry whose
trigger had been accepted. -/
theorem c4_theorem {ls : List Label} {c : Config} (hr : run init ls = some c)
    (k : Nat) (hrem : Event.removedU k ∈ c.hist) :
    Event.accepted k ∉ c.hist ∧ Event.ranAction k ∉ c.hist ∧
    Event.timedOut k ∈ c.hist := by
  have hi := inv_run hr
  obtain ⟨hacc, hcnt, htim⟩ := removedU_phaseT (hi.2.1 k) hrem
  refine ⟨hacc, ?_, htim⟩
  intro hh
  rw [← countE_pos_iff_mem] at hh
  omega

/-- C4, witness: on the concrete race schedule `trC4` the discarded entry
indeed never had its trigger accepted or its action run. -/
theorem c4_witness :
    Event.accepted 0 ∉ (final trC4).hist ∧
    Event.ranAction 0 ∉ (final trC4).hist ∧
    Event.timedOut 0 ∈ (final trC4).hist :=
  @c4_theorem trC4 (final trC4) (by decide) 0 (by decide)

/-- C5.  In every reachable configuration, a cancelable registry entry is
removed only by `cancel_job`'s delete (returning `True`) or `funcwrap`'s
cleanup delete, and a timer thread that reached the cleanup delete ran the
action exactly once without it raising. -/
theorem c5_theorem {ls : List Label} {c : Config}
    (hr : run init ls = some c) :
    (∀ c' l k, stepFn c l = some c' → k ∈ c.canc → k ∉ c'.canc →
      ∃ tid, l = Label.tstep tid ∧
        ((findA tid c.threads = some (TCode.cDel k) ∧
          c'.hist = Event.cancelRet k true :: Event.removedCCancel k :: c.hist) ∨
         (findA tid c.threads = some (TCode.timerDel k) ∧
          c'.hist = Event.removedCFire k :: c.hist))) ∧
    (∀ tid k, findA tid c.threads = some (TCode.timerDel k) →
      countE (Event.ranAction k) c.hist = 1 ∧
      (∀ e, Event.actionRaised k e ∉ c.hist)) := by
  have hi := inv_run hr
  exact ⟨fun c' l k h hin hout => canc_removed_only_by h hin hout,
    fun tid k hf => timerDel_phase hi.1 (hi.2.2 k) hf⟩

/-- C5, witness: on the concrete fired schedule `trC5w` the timer thread at
the cleanup delete has run the action exactly once. -/
theorem c5_witness :
    countE (Event.ranAction 0) (final trC5w).hist = 1 ∧
    (∀ e, Event.actionRaised 0 e ∉ (final trC5w).hist) :=
  (@c5_theorem trC5w (final trC5w) (by decide)).2 0 0 (by decide)

/-- C6.  When an undoable job's triggered action raises, the exception dies
on the worker thread: the step logs the raise against the worker, leaves the
registry and both queues untouched, and the worker disappears; an `undo_job`
caller stuck on an empty `return_queue` with no producer left stays blocked
in every continuation. -/
theorem c6_theorem {c : Config} {tid k : Nat} {e : String}
    (hf : findA tid c.threads = some (TCode.uRun k (Beh.err e))) :
    stepFn c (.tstep tid) =
      some { c with threads := eraseA tid c.threads, hist := Event.actionRaised k e :: Event.ranAction k :: c.hist } ∧
    (∀ tid2 k2, StuckGet c tid2 k2 → BlockedAt c tid2 k2) :=
  ⟨uRun_err_step hf, fun tid2 k2 hs => blockedAt_of_stuckGet hs⟩

/-- C6, witness: the raising step at a concrete configuration with the
`undo_job` caller waiting. -/
theorem c6_witness :
    stepFn cfgC6 (.tstep 0) =
      some { cfgC6 with threads := eraseA 0 cfgC6.threads, hist := Event.actionRaised 0 "boom" :: Event.ranAction 0 :: cfgC6.hist } ∧
    (∀ tid2 k2, StuckGet cfgC6 tid2 k2 → BlockedAt cfgC6 tid2 k2) :=
  @c6_theorem cfgC6 0 0 "boom" (by decide)

/-- C7.  In every reachable configuration, whenever `undo_job` has returned
a value `v` for job `k` (`undoRet k v` logged), the job's stored action
returned exactly `v` and the action ran exactly once. -/
theorem c7_theorem {ls : List Label} {c : Config} (hr : run init ls = some c)
    (k : Nat) (v : String) (hret : Event.undoRet k v ∈ c.hist) :
    (∃ j, findA k c.jobs = some j ∧ j.beh = .ok v) ∧
    countE (.ranAction k) c.hist = 1 := by
  have hi := inv_run hr
  obtain ⟨j, hj, hb, hcnt, hmem⟩ := undoRet_phaseDone (hi.2.1 k) hret
  exact ⟨⟨j, hj, hb⟩, hcnt⟩

/-- C7, witness: on the concrete schedule `trC1` (trigger well before any
deadline) `undo_job` returned "done", the action's value, and the action ran
exactly once. -/
theorem c7_witness :
    (∃ j, findA 0 (final trC1).jobs = some j ∧ j.beh = .ok "done") ∧
    countE (.ranAction 0) (final trC1).hist = 1 :=
  @c7_theorem trC1 (final trC1) (by decide) 0 "done" (by decide)

/-- C8.  In every reachable configuration the two kinds are disjoint
namespaces: a key in the undoable registry is never in the cancelable one
and vice versa, so `cancel_job` on an undoable key returns `False` and
`undo_job` on a cancelable key raises `ThreadLostError`. -/
theorem c8_theorem {ls : List Label} {c : Config} (hr : run init ls = some c)
    (k : Nat) :
    (k ∈ c.undo → k ∉ c.canc) ∧ (k ∈ c.canc → k ∉ c.undo) ∧
    (∀ tid, k ∈ c.undo → findA tid c.threads = some (TCode.cLookup k) →
      stepFn c (.tstep tid) = some { c with threads := eraseA tid c.threads, hist := Event.cancelRet k false :: c.hist }) ∧
    (∀ tid b, k ∈ c.canc → findA tid c.threads = some (TCode.undoLookup k b) →
      stepFn c (.tstep tid) = some { c with threads := eraseA tid c.threads, hist := Event.undoLost k :: c.hist }) := by
  have hi := inv_run hr
  have hdis1 : k ∈ c.undo → k ∉ c.canc := by
    intro hu2 hc2
    exact hi.1.cancTim k hc2 (hi.1.kindsU k (hi.1.undoJob k hu2))
  have hdis2 : k ∈ c.canc → k ∉ c.undo := fun hc2 hu2 => hdis1 hu2 hc2
  exact ⟨hdis1, hdis2,
    fun tid hu2 hf => cancel_miss_step hf (hdis1 hu2),
    fun tid b hc2 hf => undo_miss_step hf (hdis2 hc2)⟩

/-- C8, witness: on the concrete schedule `trC8`, `cancel_job` called with
an undoable job's key returns `False`. -/
theorem c8_witness :
    stepFn (final trC8) (Label.tstep 2) =
      some { final trC8 with threads := eraseA 2 (final trC8).threads, hist := Event.cancelRet 0 false :: (final trC8).hist } :=
  (@c8_theorem trC8 (final trC8) (by decide) 0).2.2.1 2 (by decide) (by decide)

/-- C9.  Once a cancelable job is cancelled while its timer is still waiting
(`Dormant`: flag set, entry removed, action not yet run), then in every
continuation the action never executes, the entry never returns, and every
further `cancel_job` call on the key returns `False`. -/
theorem c9_theorem {c c' : Config} {ls : List Label} {k : Nat}
    (hd : Dormant c k) (hr : run c ls = some c') :
    Event.ranAction k ∉ c'.hist ∧ k ∉ c'.canc ∧
    (∀ tid, findA tid c'.threads = some (TCode.cLookup k) →
      stepFn c' (.tstep tid) = some { c' with threads := eraseA tid c'.threads, hist := Event.cancelRet k false :: c'.hist }) := by
  have hd' := dormant_run hr hd
  exact ⟨hd'.hran, hd'.hout, fun tid hf => cancel_miss_step hf hd'.hout⟩

/-- C9, witness: after the concrete in-time cancellation `trC9` (the first
call returned `True`), the cancelled state holds and persists. -/
theorem c9_witness :
    Event.ranAction 0 ∉ (final trC9).hist ∧ 0 ∉ (final trC9).canc ∧
    (∀ tid, findA tid (final trC9).threads = some (TCode.cLookup 0) →
      stepFn (final trC9) (.tstep tid) = some { final trC9 with threads := eraseA tid (final trC9).threads, hist := Event.cancelRet 0 false :: (final trC9).hist }) :=
  @c9_theorem (final trC9) (final trC9) [] 0
    ⟨by decide, by decide, by decide, by decide, by decide⟩ rfl

/-! ### `unproxy_closure` as a pure function on function objects -/

/-- A value closed over by a callable: a plain object, or a Paste-style
proxy exposing a callable `_current_obj()` returning the current object. -/
inductive PyObj
  | plain (v : Nat)
  | proxy (cur : Nat)
  deriving DecidableEq, Repr

/-- One closure cell as rebuilt by `unproxy_closure`'s tuple expression:
`create_cell(cell.cell_contents._current_obj())` when the contents is such a
proxy, the cell unchanged otherwise. -/
def resolveCell : PyObj → PyObj
  | .proxy cur => .plain cur
  | .plain v => .plain v

/-- A Python function object: the fields `new.function` receives, with
`func_closure` as `none` (no closure) or the list of closed-over cell
contents. -/
structure PyFunc where
  code : Nat
  globalsId : Nat
  name : String
  defaults : List Nat
  closure : Option (List PyObj)
  deriving DecidableEq, Repr

/-- `not func.func_closure`: true for `None` and for an empty closure. -/
def noClosure : Option (List PyObj) → Bool
  | none => true
  | some cs => cs.isEmpty

/-- `unproxy_closure`: the function itself when it has no closure, else a
rebuilt function with the same code, globals, name and defaults and the
proxy cells resolved. -/
def unproxy_closure (f : PyFunc) : PyFunc :=
  if noClosure f.closure then f
  else { f with closure := some ((f.closure.getD []).map resolveCell) }

/-- The `if unproxy: func = unproxy_closure(func)` prologue shared by
`launch_cancelable_job` and `launch_undoable_job`. -/
def launchPrep (unproxy : Bool) (f : PyFunc) : PyFunc :=
  if unproxy then unproxy_closure f else f

/-- C10.  `unproxy_closure` is the identity on every callable without a
closure, so launching such an action with `unproxy=True` schedules exactly
the callable the caller supplied. -/
theorem c10_theorem (f : PyFunc) (h : noClosure f.closure = true) :
    unproxy_closure f = f ∧ launchPrep true f = f := by
  refine ⟨?_, ?_⟩ <;> simp [launchPrep, unproxy_closure, h]

/-- C10, witness: a concrete closure-free function object is returned
unchanged. -/
theorem c10_witness :
    unproxy_closure ⟨7, 1, "save", [], none⟩ = ⟨7, 1, "save", [], none⟩ ∧
    launchPrep true ⟨7, 1, "save", [], none⟩ = ⟨7, 1, "save", [], none⟩ :=
  c10_theorem ⟨7, 1, "save", [], none⟩ rfl

end Webundo
